import Mathlib

/-! Multilevel cache simulator: shallow embedding of `src/main.cpp`.

Conventions of the embedding.

* `unsigned long long` values (addresses, tags, indices) are natural numbers; the
  functions never produce a value larger than their input, so no reduction modulo
  `2 ^ 64` is needed for inputs below `2 ^ 64`.
* The configuration fields (`size`, `blockSize`, `associativity`, `numBlocks`,
  `numSets`, `blockOffsetBits`, `indexBits`) are `int` in the source; every
  constructor call that does not run into undefined behaviour leaves them
  non-negative, so they are natural numbers here.
* The counters (`accessCounter`, `hits`, `misses`, `writeBacks`, `lastUsed`) are
  `int` in the source.  `Cache.accessCache` keeps them as unbounded integers;
  `Cache.accessCache32` is the same code with every increment wrapping at `2 ^ 31`,
  as the compiled program does on its two's-complement target (signed overflow is
  undefined in C++ itself).  `Cache.run32_eq_run` shows that the two agree on every
  run of fewer than `2 ^ 31` calls from a constructed cache; statements about longer
  runs are made with the wrapping version.
* `vector<vector<CacheLine>>` is a list of lists. A read outside the grid (undefined
  in C++) yields `emptyLine`, a write outside the grid is dropped; the theorems are
  stated for states whose grid has the shape the constructor gives it.
* `1 << indexBits` is an `int` shift in the source, defined for `indexBits < 31`;
  the embedding uses the mathematical value `2 ^ indexBits`.
-/

/-- Cache line structure (`struct CacheLine`). -/
structure CacheLine where
  tag : Nat
  valid : Bool
  dirty : Bool
  lastUsed : Int
deriving DecidableEq, Repr

/-- Initial content of every slot: `{0, false, false, 0}`. -/
def emptyLine : CacheLine := ⟨0, false, false, 0⟩

/-- Cache class (`class Cache`), data members only. -/
structure Cache where
  size : Nat
  blockSize : Nat
  associativity : Nat
  numBlocks : Nat
  numSets : Nat
  cache : List (List CacheLine)
  blockOffsetBits : Nat
  indexBits : Nat
  tagBits : Int
  accessCounter : Int
  hits : Int
  misses : Int
  writeBacks : Int
deriving DecidableEq, Repr

/-- Loop computing the floor of the binary logarithm, `fuel` halvings allowed. -/
def log2Aux : Nat → Nat → Nat
  | 0, _ => 0
  | fuel + 1, n => if n < 2 then 0 else log2Aux fuel (n / 2) + 1

/-- `log2` of `<cmath>` applied to a positive `int` and converted back to `int`: the
floor of the binary logarithm (see `log2_eq_natLog2`). -/
def log2 (n : Nat) : Nat := log2Aux n n

/-- Constructor `Cache::Cache(int s, int b, int a)`.  `none` stands for the calls
whose behaviour is undefined in C++: division by zero (`b = 0`, or `a = 0`) and the
conversion of `log2(0)` to `int` (`numSets = 0`).  `log2` of a positive `int`
truncated to `int` is the floor of the binary logarithm. -/
def Cache.ctor (s b a : Nat) : Option Cache :=
  if b = 0 then none
  else if a = 0 then none
  else
    let numBlocks := s / b
    let numSets := if a = 1 then numBlocks else numBlocks / a
    if numSets = 0 then none
    else
      let blockOffsetBits := log2 b
      let indexBits := log2 numSets
      some {
        size := s
        blockSize := b
        associativity := a
        numBlocks := numBlocks
        numSets := numSets
        cache := List.replicate numSets (List.replicate a emptyLine)
        blockOffsetBits := blockOffsetBits
        indexBits := indexBits
        tagBits := 64 - (blockOffsetBits : Int) - (indexBits : Int)
        accessCounter := 0
        hits := 0
        misses := 0
        writeBacks := 0 }

/-- Read of `cache[set][way]`. -/
def Cache.line (c : Cache) (set way : Nat) : CacheLine :=
  (c.cache.getD set []).getD way emptyLine

/-- Assignment `cache[set][way] = l`. -/
def Cache.setLine (c : Cache) (set way : Nat) (l : CacheLine) : Cache :=
  { c with cache := c.cache.set set ((c.cache.getD set []).set way l) }

/-- `Cache::getTag`. -/
def Cache.getTag (c : Cache) (address : Nat) : Nat :=
  address >>> (c.blockOffsetBits + c.indexBits)

/-- `Cache::getIndex`. -/
def Cache.getIndex (c : Cache) (address : Nat) : Nat :=
  (address >>> c.blockOffsetBits) &&& ((1 <<< c.indexBits) - 1)

/-- `Cache::getBlockOffset`. -/
def Cache.getBlockOffset (c : Cache) (address : Nat) : Nat :=
  address &&& ((1 <<< c.blockOffsetBits) - 1)

/-- `Cache::updateLRU`: `cache[set][way].lastUsed = accessCounter++`. -/
def Cache.updateLRU (c : Cache) (set way : Nat) : Cache :=
  { c.setLine set way { c.line set way with lastUsed := c.accessCounter } with
    accessCounter := c.accessCounter + 1 }

/-- `Cache::writeBack`: only counts the event. -/
def Cache.writeBack (c : Cache) (_set _way : Nat) : Cache :=
  { c with writeBacks := c.writeBacks + 1 }

/-- The tag search loop `for (way = ...; way < associativity; ++way)`, started at
`way` with `fuel = associativity - way` iterations left: the first way whose line is
valid and carries `tag`. -/
def Cache.findWay (c : Cache) (set tag : Nat) : Nat → Nat → Option Nat
  | 0, _ => none
  | fuel + 1, way =>
    if (c.line set way).valid && (c.line set way).tag == tag then some way
    else Cache.findWay c set tag fuel (way + 1)

/-- `Cache::checkCacheHit`. -/
def Cache.checkCacheHit (c : Cache) (set tag : Nat) : Bool :=
  (c.findWay set tag c.associativity 0).isSome

/-- The replacement loop `for (way = 1; way < associativity; ++way)`, started at
`way` with `fuel` iterations left and running candidate `replaceWay`. -/
def Cache.scanVictim (c : Cache) (set : Nat) : Nat → Nat → Nat → Nat
  | 0, _, replaceWay => replaceWay
  | fuel + 1, way, replaceWay =>
    Cache.scanVictim c set fuel (way + 1)
      (if !(c.line set way).valid
          || (c.line set way).lastUsed < (c.line set replaceWay).lastUsed
       then way else replaceWay)

/-- Value of `replaceWay` after the replacement loop of `accessCache`. -/
def Cache.replaceWay (c : Cache) (set : Nat) : Nat :=
  c.scanVictim set (c.associativity - 1) 1 0

/-- `Cache::accessCache`: the returned flag and the state after the call. -/
def Cache.accessCache (c : Cache) (address : Nat) (isWrite isDataCache isL1 : Bool) :
    Bool × Cache :=
  let tag := c.getTag address
  let index := c.getIndex address
  let _blockOffset := c.getBlockOffset address
  let set := index
  match c.findWay set tag c.associativity 0 with
  | some way =>
    -- Cache hit
    let c1 := { c with hits := c.hits + 1 }
    let c2 := if isWrite then c1.setLine set way { c1.line set way with dirty := true } else c1
    (true, c2.updateLRU set way)
  | none =>
    -- Cache miss
    let c1 := { c with misses := c.misses + 1 }
    let c2 := if isDataCache && isWrite && !isL1 then c1 else c1
    let replaceWay := c2.replaceWay set
    let c3 :=
      if (c2.line set replaceWay).valid && (c2.line set replaceWay).dirty
      then c2.writeBack set replaceWay else c2
    let l := c3.line set replaceWay
    let c4 := c3.setLine set replaceWay { l with tag := tag, valid := true, dirty := isWrite }
    (false, c4.updateLRU set replaceWay)

/-- Cache simulator (`class CacheSimulator`). -/
structure CacheSimulator where
  L1_ICache : Cache
  L1_DCache : Cache
  L2_Cache : Cache
deriving DecidableEq, Repr

/-- Constructor `CacheSimulator::CacheSimulator`. -/
def CacheSimulator.ctor (cacheSize blockSize associativity : Nat) : Option CacheSimulator :=
  match Cache.ctor cacheSize blockSize associativity,
        Cache.ctor cacheSize blockSize associativity,
        Cache.ctor 16384 blockSize 8 with
  | some i, some d, some l2 => some ⟨i, d, l2⟩
  | _, _, _ => none

/-- Body of the `while (getline ...)` loop of `CacheSimulator::simulate` for one
parsed trace entry `(operation, address)`. -/
def CacheSimulator.simulateEntry (sim : CacheSimulator) (operation : String) (address : Nat) :
    CacheSimulator :=
  let isWrite := operation == "write"
  let isFetch := operation == "fetch"
  let isDataCache := !isFetch
  let sim1 : CacheSimulator :=
    if isFetch then
      { sim with L1_ICache := (sim.L1_ICache.accessCache address isWrite isDataCache true).2 }
    else
      { sim with L1_DCache := (sim.L1_DCache.accessCache address isWrite isDataCache true).2 }
  -- If miss in L1, check L2
  let r := sim1.L1_ICache.accessCache address isWrite isDataCache true
  let sim2 : CacheSimulator := { sim1 with L1_ICache := r.2 }
  if !r.1 then
    { sim2 with L2_Cache := (sim2.L2_Cache.accessCache address isWrite isDataCache false).2 }
  else sim2

/-- `CacheSimulator::simulate` on an already parsed trace. -/
def CacheSimulator.simulate (sim : CacheSimulator) (trace : List (String × Nat)) :
    CacheSimulator :=
  trace.foldl (fun s e => s.simulateEntry e.1 e.2) sim

/-- Shape of the storage grid as the constructor leaves it: `numSets` rows of
`associativity` lines, at least one of each, and `indexBits` as derived from
`numSets`. -/
def Cache.WF (c : Cache) : Prop :=
  1 ≤ c.associativity ∧ 1 ≤ c.numSets ∧ c.cache.length = c.numSets ∧
    (∀ row ∈ c.cache, row.length = c.associativity) ∧ c.indexBits = log2 c.numSets

instance (c : Cache) : Decidable c.WF := by
  unfold Cache.WF; infer_instance

/-- The first `n` calls of a sequence of `accessCache` calls, the `k`-th call being
`accessCache (acc k).1 (acc k).2.1 (acc k).2.2.1 (acc k).2.2.2`. -/
def Cache.run (c : Cache) (acc : Nat → Nat × Bool × Bool × Bool) : Nat → Cache
  | 0 => c
  | n + 1 =>
    ((Cache.run c acc n).accessCache (acc n).1 (acc n).2.1 (acc n).2.2.1 (acc n).2.2.2).2

/-- Flag returned by call number `n` (counted from 0) of the sequence `acc`. -/
def Cache.result (c : Cache) (acc : Nat → Nat × Bool × Bool × Bool) (n : Nat) : Bool :=
  ((Cache.run c acc n).accessCache (acc n).1 (acc n).2.1 (acc n).2.2.1 (acc n).2.2.2).1

/-- In-bounds condition of `cache[set][way]`. -/
def Cache.inGrid (c : Cache) (set way : Nat) : Prop :=
  set < c.cache.length ∧ way < (c.cache.getD set []).length

/-- Way that `accessCache` touches for `address`: the way of the hit, or the
replacement victim on a miss. -/
def Cache.slot (c : Cache) (address : Nat) : Nat :=
  match c.findWay (c.getIndex address) (c.getTag address) c.associativity 0 with
  | some way => way
  | none => c.replaceWay (c.getIndex address)

/-- The object `Cache(64, 16, 1)`: direct-mapped, four sets, 16-byte blocks. -/
def directMapped4 : Cache :=
  { size := 64, blockSize := 16, associativity := 1, numBlocks := 4, numSets := 4
    cache := [[emptyLine], [emptyLine], [emptyLine], [emptyLine]]
    blockOffsetBits := 4, indexBits := 2, tagBits := 58
    accessCounter := 0, hits := 0, misses := 0, writeBacks := 0 }

/-- The object `Cache(64, 16, 2)`: two sets of two lines, 16-byte blocks. -/
def twoWay2 : Cache :=
  { size := 64, blockSize := 16, associativity := 2, numBlocks := 4, numSets := 2
    cache := [[emptyLine, emptyLine], [emptyLine, emptyLine]]
    blockOffsetBits := 4, indexBits := 1, tagBits := 59
    accessCounter := 0, hits := 0, misses := 0, writeBacks := 0 }

/-- Content of set `set` after `n` consecutive misses of the sequence `acc` on a fresh
cache `c0` of associativity `A`: the counters, and for every way either the initial
line (ways `0 .. A - 1 - n`, while `n < A`) or the block of the access `m` that filled
it last, `m` among the last `A` accesses, stamped `m`; access `m` lands in way
`A - 1 - m % A`. -/
def Cache.FillInv (c0 c : Cache) (acc : Nat → Nat × Bool × Bool × Bool) (set n : Nat) : Prop :=
  c.WF ∧ c.associativity = c0.associativity ∧ c.blockOffsetBits = c0.blockOffsetBits ∧
  c.indexBits = c0.indexBits ∧ c.accessCounter = (n : Int) ∧ c.hits = 0 ∧
  c.misses = (n : Int) ∧
  c.writeBacks = (((List.range (n - c0.associativity)).countP fun m => (acc m).2.1 : Nat) : Int) ∧
  ∀ w, w < c0.associativity →
    (w + n < c0.associativity ∧ c.line set w = emptyLine) ∨
    (∃ m, m < n ∧ n ≤ m + c0.associativity ∧ c0.associativity - 1 - w = m % c0.associativity ∧
      c.line set w = ⟨c0.getTag (acc m).1, true, (acc m).2.1, (m : Int)⟩)

/-- The cyclic access sequence over the `a + 1` addresses `addr 0 .. addr a`, call
number `n` carrying the flags `flags n`. -/
def cyclic (a : Nat) (addr : Nat → Nat) (flags : Nat → Bool × Bool × Bool) :
    Nat → Nat × Bool × Bool × Bool :=
  fun n => (addr (n % (a + 1)), flags n)

/-- Number of valid lines held in the storage grid. -/
def Cache.validLines (c : Cache) : Nat :=
  (c.cache.map (fun row => row.countP (fun l => l.valid))).sum

/-- Bookkeeping of the stamps in a state reached from a fresh cache: the grid has the
constructor's shape, a slot that is not valid still holds the initial line, a valid
slot was stamped by an earlier call (`0 ≤ lastUsed < accessCounter`), and two valid
slots of one set differ in tag and in stamp. -/
def Cache.Stamped (c : Cache) : Prop :=
  c.WF ∧ 0 ≤ c.accessCounter ∧
  (∀ s w, (c.line s w).valid = false → c.line s w = emptyLine) ∧
  (∀ s w, (c.line s w).valid = true →
    0 ≤ (c.line s w).lastUsed ∧ (c.line s w).lastUsed < c.accessCounter) ∧
  (∀ s w w2, w ≠ w2 → (c.line s w).valid = true → (c.line s w2).valid = true →
    (c.line s w).tag ≠ (c.line s w2).tag ∧ (c.line s w).lastUsed ≠ (c.line s w2).lastUsed)

/-- Bounds-checked read of `cache[set][way]`: `none` when `set` or `way` is outside the
grid. -/
def Cache.lineChecked (c : Cache) (set way : Nat) : Option CacheLine :=
  match c.cache[set]? with
  | none => none
  | some row => row[way]?

/-- The tag search loop of `accessCache` with every subscript checked: `none` as soon
as a `cache[set][way]` of the loop is outside the grid, else the loop's result. -/
def Cache.findWayChecked (c : Cache) (set tag : Nat) : Nat → Nat → Option (Option Nat)
  | 0, _ => some none
  | fuel + 1, way =>
    match c.lineChecked set way with
    | none => none
    | some l =>
      if l.valid && l.tag == tag then some (some way)
      else Cache.findWayChecked c set tag fuel (way + 1)

/-- The replacement loop of `accessCache` with every subscript checked (both
`cache[set][way]` and `cache[set][replaceWay]`). -/
def Cache.scanVictimChecked (c : Cache) (set : Nat) : Nat → Nat → Nat → Option Nat
  | 0, _, replaceWay => some replaceWay
  | fuel + 1, way, replaceWay =>
    match c.lineChecked set way, c.lineChecked set replaceWay with
    | some lw, some lr =>
      Cache.scanVictimChecked c set fuel (way + 1)
        (if !lw.valid || lw.lastUsed < lr.lastUsed then way else replaceWay)
    | _, _ => none

/-- Whether every `cache[set][way]` subscript evaluated by `accessCache` on `address`
lies inside the grid: those of the search loop and the hit slot, or, on a miss, those
of the replacement loop and the victim slot. -/
def Cache.accessInBounds (c : Cache) (address : Nat) : Bool :=
  match c.findWayChecked (c.getIndex address) (c.getTag address) c.associativity 0 with
  | none => false
  | some (some way) => (c.lineChecked (c.getIndex address) way).isSome
  | some none =>
    match c.scanVictimChecked (c.getIndex address) (c.associativity - 1) 1 0 with
    | none => false
    | some replaceWay => (c.lineChecked (c.getIndex address) replaceWay).isSome

/-- Tags of the accesses `k` with `j < k < n` that go to set `set`, for a sequence of
accesses given by its set indices `idx` and tags `tg`. -/
def window (idx tg : Nat → Nat) (set j n : Nat) : Finset Nat :=
  ((Finset.range n).filter (fun k => j < k ∧ idx k = set)).image tg

/-- The distinct other blocks of the set of call `i` that the calls strictly between
call `j` and call `i` of the sequence `acc` touch: their tags. -/
def Cache.otherBlocks (c0 : Cache) (acc : Nat → Nat × Bool × Bool × Bool) (j i : Nat) :
    Finset Nat :=
  ((Finset.range i).filter (fun k => j < k ∧
      c0.getIndex (acc k).1 = c0.getIndex (acc i).1 ∧
      c0.getTag (acc k).1 ≠ c0.getTag (acc i).1)).image (fun k => c0.getTag (acc k).1)

/-- Description of a state reached by the first `n` calls of a sequence with set
indices `idx` and tags `tg`: a valid line of set `s` carries the tag of the call `j`
that stamped it, `j` is the last call on that block, and fewer than `associativity`
other tags of the set were touched since; conversely the block of every such call is
resident. -/
def Cache.LRUInv (c : Cache) (idx tg : Nat → Nat) (n : Nat) : Prop :=
  c.accessCounter = (n : Int) ∧
  (∀ s w, (c.line s w).valid = true →
    ∃ j, j < n ∧ (c.line s w).lastUsed = (j : Int) ∧ idx j = s ∧ tg j = (c.line s w).tag ∧
      (∀ k, k < n → j < k → ¬ (idx k = s ∧ tg k = tg j)) ∧
      (window idx tg s j n).card < c.associativity) ∧
  (∀ j, j < n → (∀ k, k < n → j < k → ¬ (idx k = idx j ∧ tg k = tg j)) →
    (window idx tg (idx j) j n).card < c.associativity →
    ∃ w, (c.line (idx j) w).valid = true ∧ (c.line (idx j) w).lastUsed = (j : Int))

/-- Value that a 32-bit `int` holds after the arithmetic result `x` is stored in it on
the two's-complement target: `x` wrapped into `[-2 ^ 31, 2 ^ 31)`. -/
def wrap32 (x : Int) : Int :=
  (x + 2147483648) % 4294967296 - 2147483648

/-- `Cache::updateLRU` with the `int` increment of `accessCounter` wrapping. -/
def Cache.updateLRU32 (c : Cache) (set way : Nat) : Cache :=
  { c.setLine set way { c.line set way with lastUsed := c.accessCounter } with
    accessCounter := wrap32 (c.accessCounter + 1) }

/-- `Cache::writeBack` with the `int` increment of `writeBacks` wrapping. -/
def Cache.writeBack32 (c : Cache) (_set _way : Nat) : Cache :=
  { c with writeBacks := wrap32 (c.writeBacks + 1) }

/-- `Cache::accessCache` with every `int` increment (`hits++`, `misses++`,
`writeBacks++`, `accessCounter++`) wrapping at `2 ^ 31` as the compiled program does;
otherwise the same text as `Cache.accessCache`. -/
def Cache.accessCache32 (c : Cache) (address : Nat) (isWrite isDataCache isL1 : Bool) :
    Bool × Cache :=
  let tag := c.getTag address
  let index := c.getIndex address
  let _blockOffset := c.getBlockOffset address
  let set := index
  match c.findWay set tag c.associativity 0 with
  | some way =>
    -- Cache hit
    let c1 := { c with hits := wrap32 (c.hits + 1) }
    let c2 := if isWrite then c1.setLine set way { c1.line set way with dirty := true } else c1
    (true, c2.updateLRU32 set way)
  | none =>
    -- Cache miss
    let c1 := { c with misses := wrap32 (c.misses + 1) }
    let c2 := if isDataCache && isWrite && !isL1 then c1 else c1
    let replaceWay := c2.replaceWay set
    let c3 :=
      if (c2.line set replaceWay).valid && (c2.line set replaceWay).dirty
      then c2.writeBack32 set replaceWay else c2
    let l := c3.line set replaceWay
    let c4 := c3.setLine set replaceWay { l with tag := tag, valid := true, dirty := isWrite }
    (false, c4.updateLRU32 set replaceWay)

/-- The first `n` calls of the sequence `acc` with wrapping counters. -/
def Cache.run32 (c : Cache) (acc : Nat → Nat × Bool × Bool × Bool) : Nat → Cache
  | 0 => c
  | n + 1 =>
    ((Cache.run32 c acc n).accessCache32 (acc n).1 (acc n).2.1 (acc n).2.2.1 (acc n).2.2.2).2

/-- Flag returned by call number `n` (counted from 0) with wrapping counters. -/
def Cache.result32 (c : Cache) (acc : Nat → Nat × Bool × Bool × Bool) (n : Nat) : Bool :=
  ((Cache.run32 c acc n).accessCache32 (acc n).1 (acc n).2.1 (acc n).2.2.1 (acc n).2.2.2).1

/-- State of `Cache(64, 16, 2)` after `2 ^ 31 - 2` read accesses cycling over the
addresses 0, 32, 64 of set 0: the ways hold the blocks of the calls `2 ^ 31 - 3` and
`2 ^ 31 - 4`. -/
def twoWay2NearWrap : Cache :=
  { size := 64, blockSize := 16, associativity := 2, numBlocks := 4, numSets := 2
    cache := [[⟨2, true, false, 2147483645⟩, ⟨1, true, false, 2147483644⟩],
              [emptyLine, emptyLine]]
    blockOffsetBits := 4, indexBits := 1, tagBits := 59
    accessCounter := 2147483646, hits := 0, misses := 2147483646, writeBacks := 0 }

/-- Read accesses cycling over the addresses 0, 32, 64: three blocks of set 0 of
`Cache(64, 16, 2)` with tags 0, 1, 2. -/
def threeBlockCycle : Nat → Nat × Bool × Bool × Bool :=
  cyclic 2 (fun i => i * 32) (fun _ => (false, true, true))

/-! ## The storage grid -/

theorem Cache.line_setLine (c : Cache) (s w s2 w2 : Nat) (l : CacheLine) :
    (c.setLine s w l).line s2 w2 =
      if s2 = s ∧ w2 = w ∧ s < c.cache.length ∧ w < (c.cache.getD s []).length then l
      else c.line s2 w2 := by
  unfold Cache.line Cache.setLine
  simp only [List.getD_eq_getElem?_getD, List.getElem?_set]
  by_cases hs : s = s2
  · subst hs
    by_cases hlen : s < c.cache.length
    · by_cases hw : w = w2
      · subst hw
        by_cases hwl : w < c.cache[s].length
        · simp [hlen, hwl, List.getElem?_set]
        · have hnone : c.cache[s][w]? = none := List.getElem?_eq_none (by omega)
          simp [hlen, hwl, List.getElem?_set, hnone]
      · have hw2 : ¬ w2 = w := fun h => hw h.symm
        simp [hlen, hw, hw2, List.getElem?_set]
    · have hnone : c.cache[s]? = none := List.getElem?_eq_none (by omega)
      simp [hlen, hnone]
  · have hs2 : ¬ s2 = s := fun h => hs h.symm
    simp [hs, hs2]

theorem Cache.line_setLine_other (c : Cache) (s w s2 w2 : Nat) (l : CacheLine)
    (h : ¬ (s2 = s ∧ w2 = w)) : (c.setLine s w l).line s2 w2 = c.line s2 w2 := by
  rw [Cache.line_setLine]
  split
  · next h2 => exact absurd ⟨h2.1, h2.2.1⟩ h
  · rfl

theorem Cache.line_setLine_self (c : Cache) (s w : Nat) (l : CacheLine)
    (h : c.inGrid s w) : (c.setLine s w l).line s w = l := by
  rw [Cache.line_setLine, if_pos ⟨rfl, rfl, h.1, h.2⟩]

theorem Cache.WF.inGrid {c : Cache} (h : c.WF) {s w : Nat} (hs : s < c.numSets)
    (hw : w < c.associativity) : c.inGrid s w := by
  obtain ⟨_, _, hlen, hrow, _⟩ := h
  have hs2 : s < c.cache.length := by omega
  refine ⟨hs2, ?_⟩
  have hmem : c.cache[s] ∈ c.cache := List.getElem_mem hs2
  have := hrow _ hmem
  simp only [List.getD_eq_getElem?_getD, List.getElem?_eq_getElem hs2, Option.getD_some]
  omega

theorem Cache.inGrid_setLine (c : Cache) (s w s2 w2 : Nat) (l : CacheLine) :
    (c.setLine s w l).inGrid s2 w2 ↔ c.inGrid s2 w2 := by
  unfold Cache.inGrid Cache.setLine
  simp only [List.length_set, List.getD_eq_getElem?_getD, List.getElem?_set]
  by_cases hs : s = s2
  · subst hs
    by_cases hlen : s < c.cache.length
    · simp [hlen]
    · simp [hlen]
  · simp [hs]

theorem Cache.line_updateLRU (c : Cache) (s w s2 w2 : Nat) (h : c.inGrid s w) :
    (c.updateLRU s w).line s2 w2 =
      if s2 = s ∧ w2 = w then { c.line s w with lastUsed := c.accessCounter }
      else c.line s2 w2 := by
  have h1 : (c.updateLRU s w).line s2 w2 =
      (c.setLine s w { c.line s w with lastUsed := c.accessCounter }).line s2 w2 := rfl
  rw [h1, Cache.line_setLine]
  by_cases hc : s2 = s ∧ w2 = w
  · rw [if_pos hc, if_pos ⟨hc.1, hc.2, h.1, h.2⟩]
  · rw [if_neg hc, if_neg (fun h2 => hc ⟨h2.1, h2.2.1⟩)]

/-! ## The two loops of `accessCache` -/

theorem Cache.findWay_eq_some (c : Cache) (set tag : Nat) :
    ∀ (fuel way w : Nat), c.findWay set tag fuel way = some w ↔
      (way ≤ w ∧ w < way + fuel ∧
        ((c.line set w).valid = true ∧ (c.line set w).tag = tag) ∧
        ∀ v, way ≤ v → v < w → ¬ ((c.line set v).valid = true ∧ (c.line set v).tag = tag)) := by
  intro fuel
  induction fuel with
  | zero =>
    intro way w
    simp only [Cache.findWay]
    constructor
    · intro h; cases h
    · rintro ⟨h1, h2, _⟩; omega
  | succ fuel ih =>
    intro way w
    simp only [Cache.findWay]
    by_cases hm : (c.line set way).valid = true ∧ (c.line set way).tag = tag
    · have hc : ((c.line set way).valid && (c.line set way).tag == tag) = true := by
        simp [hm.1, hm.2]
      rw [if_pos hc]
      constructor
      · intro h
        cases h
        exact ⟨le_refl _, by omega, hm, fun v h1 h2 => by omega⟩
      · rintro ⟨h1, _, _, h4⟩
        by_cases hw : way = w
        · rw [hw]
        · exact absurd hm (h4 way (le_refl _) (by omega))
    · have hc : ¬ ((c.line set way).valid && (c.line set way).tag == tag) = true := by
        intro h
        simp only [Bool.and_eq_true, beq_iff_eq] at h
        exact hm h
      rw [if_neg hc, ih]
      constructor
      · rintro ⟨h1, h2, h3, h4⟩
        refine ⟨by omega, by omega, h3, fun v hv1 hv2 => ?_⟩
        by_cases hv : v = way
        · rw [hv]; exact hm
        · exact h4 v (by omega) hv2
      · rintro ⟨h1, h2, h3, h4⟩
        have hne : way ≠ w := by
          intro h; rw [h] at hm; exact hm h3
        exact ⟨by omega, by omega, h3, fun v hv1 hv2 => h4 v (by omega) hv2⟩

theorem Cache.findWay_eq_none (c : Cache) (set tag : Nat) :
    ∀ (fuel way : Nat), c.findWay set tag fuel way = none ↔
      ∀ v, way ≤ v → v < way + fuel →
        ¬ ((c.line set v).valid = true ∧ (c.line set v).tag = tag) := by
  intro fuel way
  constructor
  · intro h v hv1 hv2 hm
    -- the least matching way at or after `way` would be found
    have hex : ∃ v, way ≤ v ∧ v < way + fuel ∧
        ((c.line set v).valid = true ∧ (c.line set v).tag = tag) := ⟨v, hv1, hv2, hm⟩
    classical
    let w := Nat.find hex
    have hw := Nat.find_spec hex
    have hmin : ∀ u, way ≤ u → u < w →
        ¬ ((c.line set u).valid = true ∧ (c.line set u).tag = tag) := by
      intro u hu1 hu2 hu3
      exact Nat.find_min hex hu2 ⟨hu1, by omega, hu3⟩
    have := (c.findWay_eq_some set tag fuel way w).2 ⟨hw.1, hw.2.1, hw.2.2, hmin⟩
    rw [h] at this
    cases this
  · intro h
    cases hf : c.findWay set tag fuel way with
    | none => rfl
    | some w =>
      obtain ⟨h1, h2, h3, _⟩ := (c.findWay_eq_some set tag fuel way w).1 hf
      exact absurd h3 (h w h1 h2)

theorem Cache.scanVictim_mem (c : Cache) (set : Nat) :
    ∀ (fuel way r : Nat),
      c.scanVictim set fuel way r = r ∨
        (way ≤ c.scanVictim set fuel way r ∧ c.scanVictim set fuel way r < way + fuel) := by
  intro fuel
  induction fuel with
  | zero => intro way r; left; rfl
  | succ fuel ih =>
    intro way r
    simp only [Cache.scanVictim]
    split
    · rcases ih (way + 1) way with h | h
      · right; rw [h]; omega
      · right; omega
    · rcases ih (way + 1) r with h | h
      · left; exact h
      · right; omega

theorem Cache.replaceWay_lt (c : Cache) (set : Nat) (h : 1 ≤ c.associativity) :
    c.replaceWay set < c.associativity := by
  unfold Cache.replaceWay
  rcases c.scanVictim_mem set (c.associativity - 1) 1 0 with h1 | h1
  · rw [h1]; omega
  · omega

theorem Cache.findWay_congr (c c2 : Cache) (set tag : Nat)
    (h : ∀ w, c2.line set w = c.line set w) :
    ∀ (fuel way : Nat), c2.findWay set tag fuel way = c.findWay set tag fuel way := by
  intro fuel
  induction fuel with
  | zero => intro way; rfl
  | succ fuel ih => intro way; simp only [Cache.findWay, h, ih]

theorem Cache.scanVictim_congr (c c2 : Cache) (set : Nat)
    (h : ∀ w, c2.line set w = c.line set w) :
    ∀ (fuel way r : Nat), c2.scanVictim set fuel way r = c.scanVictim set fuel way r := by
  intro fuel
  induction fuel with
  | zero => intro way r; rfl
  | succ fuel ih => intro way r; simp only [Cache.scanVictim, h, ih]

/-! ## Effect of one `accessCache` call -/

theorem Cache.accessCache_hit_spec (c : Cache) (address : Nat) (isWrite isDataCache isL1 : Bool)
    (way : Nat)
    (h : c.findWay (c.getIndex address) (c.getTag address) c.associativity 0 = some way)
    (hg : c.inGrid (c.getIndex address) way) :
    (c.accessCache address isWrite isDataCache isL1).1 = true ∧
    (c.accessCache address isWrite isDataCache isL1).2.hits = c.hits + 1 ∧
    (c.accessCache address isWrite isDataCache isL1).2.misses = c.misses ∧
    (c.accessCache address isWrite isDataCache isL1).2.writeBacks = c.writeBacks ∧
    (c.accessCache address isWrite isDataCache isL1).2.accessCounter = c.accessCounter + 1 ∧
    ∀ s2 w2, (c.accessCache address isWrite isDataCache isL1).2.line s2 w2 =
      if s2 = c.getIndex address ∧ w2 = way then
        { c.line (c.getIndex address) way with
          dirty := (c.line (c.getIndex address) way).dirty || isWrite
          lastUsed := c.accessCounter }
      else c.line s2 w2 := by
  unfold Cache.accessCache
  simp only [h]
  refine ⟨trivial, ?_, ?_, ?_, ?_, ?_⟩
  · cases isWrite <;> rfl
  · cases isWrite <;> rfl
  · cases isWrite <;> rfl
  · cases isWrite <;> rfl
  · intro s2 w2
    cases isWrite
    · have hg1 : Cache.inGrid { c with hits := c.hits + 1 } (c.getIndex address) way := hg
      simp only [Bool.false_eq_true, if_false]
      rw [Cache.line_updateLRU _ _ _ _ _ hg1]
      simp only [Bool.or_false]
      rfl
    · have hg1 : Cache.inGrid { c with hits := c.hits + 1 } (c.getIndex address) way := hg
      have hg2 := (Cache.inGrid_setLine { c with hits := c.hits + 1 } (c.getIndex address) way
        (c.getIndex address) way
        { Cache.line { c with hits := c.hits + 1 } (c.getIndex address) way with
          dirty := true }).2 hg1
      simp only [if_true]
      rw [Cache.line_updateLRU _ _ _ _ _ hg2, Cache.line_setLine_self _ _ _ _ hg1]
      by_cases hc : s2 = c.getIndex address ∧ w2 = way
      · simp only [if_pos hc, Bool.or_true]
        rfl
      · simp only [if_neg hc]
        rw [Cache.line_setLine_other _ _ _ _ _ _ hc]
        rfl

theorem Cache.accessCache_miss_spec (c : Cache) (address : Nat)
    (isWrite isDataCache isL1 : Bool)
    (h : c.findWay (c.getIndex address) (c.getTag address) c.associativity 0 = none)
    (hg : c.inGrid (c.getIndex address) (c.replaceWay (c.getIndex address))) :
    (c.accessCache address isWrite isDataCache isL1).1 = false ∧
    (c.accessCache address isWrite isDataCache isL1).2.hits = c.hits ∧
    (c.accessCache address isWrite isDataCache isL1).2.misses = c.misses + 1 ∧
    (c.accessCache address isWrite isDataCache isL1).2.writeBacks =
      c.writeBacks +
        (if (c.line (c.getIndex address) (c.replaceWay (c.getIndex address))).valid
            && (c.line (c.getIndex address) (c.replaceWay (c.getIndex address))).dirty
         then 1 else 0) ∧
    (c.accessCache address isWrite isDataCache isL1).2.accessCounter = c.accessCounter + 1 ∧
    ∀ s2 w2, (c.accessCache address isWrite isDataCache isL1).2.line s2 w2 =
      if s2 = c.getIndex address ∧ w2 = c.replaceWay (c.getIndex address) then
        ⟨c.getTag address, true, isWrite, c.accessCounter⟩
      else c.line s2 w2 := by
  have hrw : Cache.replaceWay { c with misses := c.misses + 1 } (c.getIndex address)
      = c.replaceWay (c.getIndex address) :=
    Cache.scanVictim_congr c { c with misses := c.misses + 1 } _ (fun _ => rfl) _ _ _
  unfold Cache.accessCache
  simp only [h, ite_self, hrw]
  have hl : ∀ s w, Cache.line { c with misses := c.misses + 1 } s w = c.line s w :=
    fun _ _ => rfl
  simp only [hl]
  by_cases hvd : ((c.line (c.getIndex address) (c.replaceWay (c.getIndex address))).valid
      && (c.line (c.getIndex address) (c.replaceWay (c.getIndex address))).dirty) = true
  · simp only [hvd, if_true]
    refine ⟨trivial, rfl, rfl, rfl, rfl, ?_⟩
    intro s2 w2
    have hg1 : Cache.inGrid (Cache.writeBack { c with misses := c.misses + 1 }
        (c.getIndex address) (c.replaceWay (c.getIndex address)))
        (c.getIndex address) (c.replaceWay (c.getIndex address)) := hg
    have hg2 := (Cache.inGrid_setLine _ (c.getIndex address)
      (c.replaceWay (c.getIndex address)) (c.getIndex address)
      (c.replaceWay (c.getIndex address))
      { Cache.line (Cache.writeBack { c with misses := c.misses + 1 }
          (c.getIndex address) (c.replaceWay (c.getIndex address)))
          (c.getIndex address) (c.replaceWay (c.getIndex address)) with
        tag := c.getTag address, valid := true, dirty := isWrite }).2 hg1
    rw [Cache.line_updateLRU _ _ _ _ _ hg2, Cache.line_setLine_self _ _ _ _ hg1]
    by_cases hc : s2 = c.getIndex address ∧ w2 = c.replaceWay (c.getIndex address)
    · simp only [if_pos hc]
      rfl
    · simp only [if_neg hc]
      rw [Cache.line_setLine_other _ _ _ _ _ _ hc]
      rfl
  · simp only [hvd, Bool.false_eq_true, if_false]
    refine ⟨trivial, rfl, rfl, (add_zero c.writeBacks).symm, rfl, ?_⟩
    intro s2 w2
    have hg1 : Cache.inGrid { c with misses := c.misses + 1 }
        (c.getIndex address) (c.replaceWay (c.getIndex address)) := hg
    have hg2 := (Cache.inGrid_setLine _ (c.getIndex address)
      (c.replaceWay (c.getIndex address)) (c.getIndex address)
      (c.replaceWay (c.getIndex address))
      { Cache.line { c with misses := c.misses + 1 }
          (c.getIndex address) (c.replaceWay (c.getIndex address)) with
        tag := c.getTag address, valid := true, dirty := isWrite }).2 hg1
    rw [Cache.line_updateLRU _ _ _ _ _ hg2, Cache.line_setLine_self _ _ _ _ hg1]
    by_cases hc : s2 = c.getIndex address ∧ w2 = c.replaceWay (c.getIndex address)
    · simp only [if_pos hc]
      rfl
    · simp only [if_neg hc]
      rw [Cache.line_setLine_other _ _ _ _ _ _ hc]
      rfl

/-! ## Quantities that never change, and the shape of the grid -/

theorem log2Aux_spec : ∀ (fuel n : Nat), n ≤ fuel → 1 ≤ n →
    2 ^ log2Aux fuel n ≤ n ∧ n < 2 ^ (log2Aux fuel n + 1) := by
  intro fuel
  induction fuel with
  | zero => intro n h1 h2; omega
  | succ fuel ih =>
    intro n h1 h2
    simp only [log2Aux]
    by_cases hn : n < 2
    · rw [if_pos hn]
      constructor
      · simpa using h2
      · simpa using hn
    · rw [if_neg hn]
      obtain ⟨ih1, ih2⟩ := ih (n / 2) (by omega) (by omega)
      constructor
      · rw [pow_succ]; omega
      · rw [pow_succ]; omega

theorem log2_spec (n : Nat) (h : 1 ≤ n) : 2 ^ log2 n ≤ n ∧ n < 2 ^ (log2 n + 1) :=
  log2Aux_spec n n (le_refl n) h

theorem log2_eq_natLog2 (n : Nat) : log2 n = Nat.log2 n := by
  rw [Nat.log2_eq_log_two]
  by_cases h : n = 0
  · subst h
    simp [log2, log2Aux]
  · obtain ⟨h1, h2⟩ := log2_spec n (by omega)
    exact (Nat.log_eq_of_pow_le_of_lt_pow h1 h2).symm

theorem log2_two_pow (k : Nat) : log2 (2 ^ k) = k := by
  rw [log2_eq_natLog2, Nat.log2_eq_log_two]
  exact Nat.log_pow (by omega) k

theorem Cache.accessCache_config (c : Cache) (address : Nat) (isWrite isDataCache isL1 : Bool) :
    (c.accessCache address isWrite isDataCache isL1).2.associativity = c.associativity ∧
    (c.accessCache address isWrite isDataCache isL1).2.numSets = c.numSets ∧
    (c.accessCache address isWrite isDataCache isL1).2.blockOffsetBits = c.blockOffsetBits ∧
    (c.accessCache address isWrite isDataCache isL1).2.indexBits = c.indexBits ∧
    (c.accessCache address isWrite isDataCache isL1).2.size = c.size ∧
    (c.accessCache address isWrite isDataCache isL1).2.blockSize = c.blockSize ∧
    (c.accessCache address isWrite isDataCache isL1).2.numBlocks = c.numBlocks ∧
    (c.accessCache address isWrite isDataCache isL1).2.tagBits = c.tagBits := by
  unfold Cache.accessCache
  simp only [ite_self]
  split
  · cases isWrite <;> exact ⟨rfl, rfl, rfl, rfl, rfl, rfl, rfl, rfl⟩
  · split <;> exact ⟨rfl, rfl, rfl, rfl, rfl, rfl, rfl, rfl⟩

theorem Cache.setLine_shape (c : Cache) (s w : Nat) (l : CacheLine) :
    (c.setLine s w l).cache.map List.length = c.cache.map List.length := by
  unfold Cache.setLine
  apply List.ext_getElem?
  intro i
  simp only [List.getElem?_map, List.getElem?_set, List.getD_eq_getElem?_getD]
  by_cases hs : s = i
  · subst hs
    by_cases hlen : s < c.cache.length
    · simp [hlen]
    · have hnone : c.cache[s]? = none := List.getElem?_eq_none (by omega)
      simp [hlen, hnone]
  · simp [hs]

theorem Cache.accessCache_shape (c : Cache) (address : Nat) (isWrite isDataCache isL1 : Bool) :
    (c.accessCache address isWrite isDataCache isL1).2.cache.map List.length
      = c.cache.map List.length := by
  unfold Cache.accessCache
  simp only [ite_self]
  split
  · cases isWrite
    · exact Cache.setLine_shape _ _ _ _
    · exact (Cache.setLine_shape _ _ _ _).trans (Cache.setLine_shape _ _ _ _)
  · split
    · exact (Cache.setLine_shape _ _ _ _).trans (Cache.setLine_shape _ _ _ _)
    · exact (Cache.setLine_shape _ _ _ _).trans (Cache.setLine_shape _ _ _ _)

theorem Cache.WF_iff_shape (c : Cache) :
    c.WF ↔ 1 ≤ c.associativity ∧ 1 ≤ c.numSets ∧
      c.cache.map List.length = List.replicate c.numSets c.associativity ∧
      c.indexBits = log2 c.numSets := by
  unfold Cache.WF
  constructor
  · rintro ⟨h1, h2, h3, h4, h5⟩
    refine ⟨h1, h2, ?_, h5⟩
    rw [List.eq_replicate_iff]
    refine ⟨by simpa using h3, ?_⟩
    intro n hn
    obtain ⟨row, hrow, rfl⟩ := List.mem_map.1 hn
    exact h4 row hrow
  · rintro ⟨h1, h2, h3, h5⟩
    rw [List.eq_replicate_iff] at h3
    refine ⟨h1, h2, by simpa using h3.1, ?_, h5⟩
    intro row hrow
    exact h3.2 _ (List.mem_map.2 ⟨row, hrow, rfl⟩)

theorem Cache.WF.accessCache {c : Cache} (h : c.WF) (address : Nat)
    (isWrite isDataCache isL1 : Bool) :
    (c.accessCache address isWrite isDataCache isL1).2.WF := by
  rw [Cache.WF_iff_shape] at h ⊢
  obtain ⟨ha, hn, _, hi, _⟩ := c.accessCache_config address isWrite isDataCache isL1
  rw [ha, hn, hi, Cache.accessCache_shape]
  exact h

theorem Cache.WF.getIndex_lt {c : Cache} (h : c.WF) (address : Nat) :
    c.getIndex address < c.numSets := by
  obtain ⟨_, hn, _, _, hi⟩ := h
  unfold Cache.getIndex
  have h1 := (log2_spec c.numSets hn).1
  have h2 : (address >>> c.blockOffsetBits) &&& ((1 <<< c.indexBits) - 1)
      ≤ (1 <<< c.indexBits) - 1 := Nat.and_le_right
  rw [Nat.one_shiftLeft, hi] at h2
  rw [hi, Nat.one_shiftLeft]
  have h3 : 0 < 2 ^ log2 c.numSets := Nat.two_pow_pos _
  omega

theorem Cache.ctor_eq_some {s b a : Nat} {c : Cache} (h : Cache.ctor s b a = some c) :
    b ≠ 0 ∧ a ≠ 0 ∧ (if a = 1 then s / b else s / b / a) ≠ 0 ∧
    c = { size := s
          blockSize := b
          associativity := a
          numBlocks := s / b
          numSets := if a = 1 then s / b else s / b / a
          cache := List.replicate (if a = 1 then s / b else s / b / a)
            (List.replicate a emptyLine)
          blockOffsetBits := log2 b
          indexBits := log2 (if a = 1 then s / b else s / b / a)
          tagBits := 64 - (log2 b : Int) - (log2 (if a = 1 then s / b else s / b / a) : Int)
          accessCounter := 0
          hits := 0
          misses := 0
          writeBacks := 0 } := by
  unfold Cache.ctor at h
  by_cases hb : b = 0
  · simp [hb] at h
  · by_cases ha : a = 0
    · simp [hb, ha] at h
    · by_cases hn : (if a = 1 then s / b else s / b / a) = 0
      · simp [hb, ha, hn] at h
      · simp only [hb, ha, hn, if_false, Option.some.injEq] at h
        exact ⟨hb, ha, hn, h.symm⟩

theorem Cache.WF.ctor {s b a : Nat} {c : Cache} (h : Cache.ctor s b a = some c) : c.WF := by
  obtain ⟨hb, ha, hn, rfl⟩ := Cache.ctor_eq_some h
  refine ⟨Nat.pos_of_ne_zero ha, Nat.pos_of_ne_zero hn, by simp, ?_, rfl⟩
  intro row hrow
  rw [List.eq_of_mem_replicate hrow]
  simp

theorem Cache.getTag_congr {c c2 : Cache} (h1 : c2.blockOffsetBits = c.blockOffsetBits)
    (h2 : c2.indexBits = c.indexBits) (address : Nat) :
    c2.getTag address = c.getTag address := by
  unfold Cache.getTag; rw [h1, h2]

theorem Cache.getIndex_congr {c c2 : Cache} (h1 : c2.blockOffsetBits = c.blockOffsetBits)
    (h2 : c2.indexBits = c.indexBits) (address : Nat) :
    c2.getIndex address = c.getIndex address := by
  unfold Cache.getIndex; rw [h1, h2]

theorem Cache.WF.inGrid_findWay {c : Cache} (h : c.WF) {address way : Nat}
    (hf : c.findWay (c.getIndex address) (c.getTag address) c.associativity 0 = some way) :
    c.inGrid (c.getIndex address) way := by
  have := (c.findWay_eq_some _ _ _ _ _).1 hf
  exact h.inGrid (h.getIndex_lt address) (by omega)

theorem Cache.WF.inGrid_replaceWay {c : Cache} (h : c.WF) (address : Nat) :
    c.inGrid (c.getIndex address) (c.replaceWay (c.getIndex address)) :=
  h.inGrid (h.getIndex_lt address) (c.replaceWay_lt _ h.1)

theorem Cache.run_WF {c : Cache} (h : c.WF) (acc : Nat → Nat × Bool × Bool × Bool) :
    ∀ n, (c.run acc n).WF := by
  intro n
  induction n with
  | zero => exact h
  | succ n ih => exact ih.accessCache _ _ _ _

theorem Cache.run_config (c : Cache) (acc : Nat → Nat × Bool × Bool × Bool) :
    ∀ n, (c.run acc n).associativity = c.associativity ∧
      (c.run acc n).blockOffsetBits = c.blockOffsetBits ∧
      (c.run acc n).indexBits = c.indexBits := by
  intro n
  induction n with
  | zero => exact ⟨rfl, rfl, rfl⟩
  | succ n ih =>
    obtain ⟨h1, _, h3, h4, _⟩ := (c.run acc n).accessCache_config
      (acc n).1 (acc n).2.1 (acc n).2.2.1 (acc n).2.2.2
    exact ⟨h1.trans ih.1, h3.trans ih.2.1, h4.trans ih.2.2⟩

/-! ## C1, C2, C6: hit test and counters -/

theorem Cache.accessCache_hit_test (c : Cache) (hwf : c.WF) (address : Nat)
    (isWrite isDataCache isL1 : Bool) :
    ((c.accessCache address isWrite isDataCache isL1).1 = true ↔
      ∃ way, way < c.associativity ∧
        (c.line (c.getIndex address) way).valid = true ∧
        (c.line (c.getIndex address) way).tag = c.getTag address) ∧
    (c.accessCache address isWrite isDataCache isL1).1
      = c.checkCacheHit (c.getIndex address) (c.getTag address) ∧
    ((c.accessCache address isWrite isDataCache isL1).1 = true →
      (c.accessCache address isWrite isDataCache isL1).2.hits = c.hits + 1 ∧
      (c.accessCache address isWrite isDataCache isL1).2.misses = c.misses) ∧
    ((c.accessCache address isWrite isDataCache isL1).1 = false →
      (c.accessCache address isWrite isDataCache isL1).2.misses = c.misses + 1 ∧
      (c.accessCache address isWrite isDataCache isL1).2.hits = c.hits) := by
  cases hf : c.findWay (c.getIndex address) (c.getTag address) c.associativity 0 with
  | some way =>
    obtain ⟨h1, h2, h3, _⟩ := c.accessCache_hit_spec address isWrite isDataCache isL1 way hf
      (hwf.inGrid_findWay hf)
    obtain ⟨_, g2, g3, _⟩ := (c.findWay_eq_some _ _ _ _ _).1 hf
    refine ⟨⟨fun _ => ⟨way, by omega, g3.1, g3.2⟩, fun _ => h1⟩, ?_, fun _ => ⟨h2, h3⟩, ?_⟩
    · rw [h1, Cache.checkCacheHit, hf]; rfl
    · intro hfalse; rw [h1] at hfalse; cases hfalse
  | none =>
    obtain ⟨h1, h2, h3, _⟩ := c.accessCache_miss_spec address isWrite isDataCache isL1 hf
      (hwf.inGrid_replaceWay address)
    have hnone := (c.findWay_eq_none _ _ _ _).1 hf
    refine ⟨⟨?_, ?_⟩, ?_, ?_, fun _ => ⟨h3, h2⟩⟩
    · intro htrue; rw [h1] at htrue; cases htrue
    · rintro ⟨way, hw, hv, ht⟩
      exact absurd ⟨hv, ht⟩ (hnone way (Nat.zero_le _) (by omega))
    · rw [h1, Cache.checkCacheHit, hf]; rfl
    · intro htrue; rw [h1] at htrue; cases htrue

/-- C1: in a state with the constructor's grid shape (at least one set, at least one
way), `accessCache` returns `true` exactly when some valid line of set
`getIndex address` carries `getTag address`, which is what `checkCacheHit` computes;
a `true` result adds one to `hits` and leaves `misses`, a `false` result adds one to
`misses` and leaves `hits`. -/
theorem accessCache_true_iff_checkCacheHit (c : Cache) (hwf : c.WF) (address : Nat)
    (isWrite isDataCache isL1 : Bool) :
    ((c.accessCache address isWrite isDataCache isL1).1 = true ↔
      ∃ way, way < c.associativity ∧
        (c.line (c.getIndex address) way).valid = true ∧
        (c.line (c.getIndex address) way).tag = c.getTag address) ∧
    (c.accessCache address isWrite isDataCache isL1).1
      = c.checkCacheHit (c.getIndex address) (c.getTag address) ∧
    ((c.accessCache address isWrite isDataCache isL1).1 = true →
      (c.accessCache address isWrite isDataCache isL1).2.hits = c.hits + 1 ∧
      (c.accessCache address isWrite isDataCache isL1).2.misses = c.misses) ∧
    ((c.accessCache address isWrite isDataCache isL1).1 = false →
      (c.accessCache address isWrite isDataCache isL1).2.misses = c.misses + 1 ∧
      (c.accessCache address isWrite isDataCache isL1).2.hits = c.hits) :=
  Cache.accessCache_hit_test c hwf address isWrite isDataCache isL1

/-- Witness of C1 on `Cache(64, 16, 2)`, address 0. -/
theorem accessCache_true_iff_checkCacheHit_witness :
    twoWay2.WF ∧
    (twoWay2.accessCache 0 false true true).1
      = twoWay2.checkCacheHit (twoWay2.getIndex 0) (twoWay2.getTag 0) :=
  ⟨by decide, (accessCache_true_iff_checkCacheHit twoWay2 (by decide) 0 false true true).2.1⟩

/-- C2: on a freshly constructed cache, after any `N` calls of `accessCache` (any
addresses, any flags) `hits + misses = N`. -/
theorem hits_add_misses_eq_count (s b a : Nat) (c0 : Cache) (h : Cache.ctor s b a = some c0)
    (acc : Nat → Nat × Bool × Bool × Bool) (N : Nat) :
    (c0.run acc N).hits + (c0.run acc N).misses = N := by
  induction N with
  | zero =>
    obtain ⟨_, _, _, rfl⟩ := Cache.ctor_eq_some h
    rfl
  | succ n ih =>
    have hwf : (c0.run acc n).WF := Cache.run_WF (Cache.WF.ctor h) acc n
    obtain ⟨_, _, h3, h4⟩ := Cache.accessCache_hit_test (c0.run acc n) hwf
      (acc n).1 (acc n).2.1 (acc n).2.2.1 (acc n).2.2.2
    show ((c0.run acc n).accessCache (acc n).1 (acc n).2.1 (acc n).2.2.1 (acc n).2.2.2).2.hits
      + ((c0.run acc n).accessCache (acc n).1 (acc n).2.1 (acc n).2.2.1 (acc n).2.2.2).2.misses
      = ((n + 1 : Nat) : Int)
    cases hr : ((c0.run acc n).accessCache (acc n).1 (acc n).2.1 (acc n).2.2.1
        (acc n).2.2.2).1 with
    | true => obtain ⟨g1, g2⟩ := h3 hr; rw [g1, g2]; push_cast; omega
    | false => obtain ⟨g1, g2⟩ := h4 hr; rw [g1, g2]; push_cast; omega

/-- Witness of C2: five accesses on `Cache(64, 16, 2)`. -/
theorem hits_add_misses_eq_count_witness :
    Cache.ctor 64 16 2 = some twoWay2 ∧
    (twoWay2.run (fun n => (n * 16, n % 2 == 0, true, true)) 5).hits
      + (twoWay2.run (fun n => (n * 16, n % 2 == 0, true, true)) 5).misses = (5 : Nat) :=
  ⟨by decide, hits_add_misses_eq_count 64 16 2 twoWay2 (by decide) _ 5⟩

/-- C6: on a miss `writeBacks` grows by one exactly when the victim slot
(`replaceWay` of the addressed set) was valid and dirty before the call, and is
unchanged otherwise; on a hit `writeBacks` is unchanged. -/
theorem writeBacks_counts_dirty_victim (c : Cache) (hwf : c.WF) (address : Nat)
    (isWrite isDataCache isL1 : Bool) :
    ((c.accessCache address isWrite isDataCache isL1).1 = false →
      (c.accessCache address isWrite isDataCache isL1).2.writeBacks =
        c.writeBacks +
          (if (c.line (c.getIndex address) (c.replaceWay (c.getIndex address))).valid = true ∧
              (c.line (c.getIndex address) (c.replaceWay (c.getIndex address))).dirty = true
           then 1 else 0)) ∧
    ((c.accessCache address isWrite isDataCache isL1).1 = true →
      (c.accessCache address isWrite isDataCache isL1).2.writeBacks = c.writeBacks) := by
  cases hf : c.findWay (c.getIndex address) (c.getTag address) c.associativity 0 with
  | some way =>
    obtain ⟨h1, _, _, h4, _⟩ := c.accessCache_hit_spec address isWrite isDataCache isL1 way hf
      (hwf.inGrid_findWay hf)
    exact ⟨fun hfalse => (by rw [h1] at hfalse; cases hfalse), fun _ => h4⟩
  | none =>
    obtain ⟨h1, _, _, h4, _⟩ := c.accessCache_miss_spec address isWrite isDataCache isL1 hf
      (hwf.inGrid_replaceWay address)
    refine ⟨fun _ => ?_, fun htrue => (by rw [h1] at htrue; cases htrue)⟩
    rw [h4]
    simp only [Bool.and_eq_true]

/-- Witness of C6: a dirty line of `Cache(64, 16, 1)` is evicted by the second of two
writes to one set. -/
theorem writeBacks_counts_dirty_victim_witness :
    (directMapped4.accessCache 0 true true true).2.WF ∧
    ((directMapped4.accessCache 0 true true true).2.accessCache 64 true true true).2.writeBacks
      = 1 :=
  ⟨by decide,
   ((writeBacks_counts_dirty_victim (directMapped4.accessCache 0 true true true).2
      (by decide) 64 true true true).1 (by decide)).trans (by decide)⟩

/-! ## C4, C5: the accessed block is resident afterwards -/

theorem Cache.checkCacheHit_iff (c : Cache) (set tag : Nat) :
    c.checkCacheHit set tag = true ↔
      ∃ way, way < c.associativity ∧
        (c.line set way).valid = true ∧ (c.line set way).tag = tag := by
  unfold Cache.checkCacheHit
  cases hf : c.findWay set tag c.associativity 0 with
  | some way =>
    obtain ⟨_, g2, g3, _⟩ := (c.findWay_eq_some _ _ _ _ _).1 hf
    simp only [Option.isSome_some, true_iff]
    exact ⟨way, by omega, g3.1, g3.2⟩
  | none =>
    have hnone := (c.findWay_eq_none _ _ _ _).1 hf
    simp only [Option.isSome_none, Bool.false_eq_true, false_iff]
    rintro ⟨way, hw, hv, ht⟩
    exact hnone way (Nat.zero_le _) (by omega) ⟨hv, ht⟩

theorem Cache.slot_lt (c : Cache) (address : Nat) (h : 1 ≤ c.associativity) :
    c.slot address < c.associativity := by
  unfold Cache.slot
  cases hf : c.findWay (c.getIndex address) (c.getTag address) c.associativity 0 with
  | some way =>
    have := (c.findWay_eq_some _ _ _ _ _).1 hf
    simp only
    omega
  | none => exact c.replaceWay_lt _ h

/-- After an access the touched slot holds the accessed block; a write leaves it
dirty. -/
theorem Cache.accessCache_slot (c : Cache) (hwf : c.WF) (address : Nat)
    (isWrite isDataCache isL1 : Bool) :
    ((c.accessCache address isWrite isDataCache isL1).2.line (c.getIndex address)
      (c.slot address)).valid = true ∧
    ((c.accessCache address isWrite isDataCache isL1).2.line (c.getIndex address)
      (c.slot address)).tag = c.getTag address ∧
    (isWrite = true →
      ((c.accessCache address isWrite isDataCache isL1).2.line (c.getIndex address)
        (c.slot address)).dirty = true) := by
  unfold Cache.slot
  cases hf : c.findWay (c.getIndex address) (c.getTag address) c.associativity 0 with
  | some way =>
    obtain ⟨_, _, _, _, _, h6⟩ := c.accessCache_hit_spec address isWrite isDataCache isL1
      way hf (hwf.inGrid_findWay hf)
    obtain ⟨_, _, g3, _⟩ := (c.findWay_eq_some _ _ _ _ _).1 hf
    simp only
    rw [h6, if_pos ⟨rfl, rfl⟩]
    refine ⟨g3.1, g3.2, fun hw => ?_⟩
    simp [hw]
  | none =>
    obtain ⟨_, _, _, _, _, h6⟩ := c.accessCache_miss_spec address isWrite isDataCache isL1
      hf (hwf.inGrid_replaceWay address)
    simp only
    rw [h6, if_pos ⟨rfl, rfl⟩]
    exact ⟨rfl, rfl, fun hw => hw⟩

theorem Cache.accessCache_present (c : Cache) (hwf : c.WF) (address : Nat)
    (isWrite isDataCache isL1 : Bool) :
    (c.accessCache address isWrite isDataCache isL1).2.checkCacheHit
      (c.getIndex address) (c.getTag address) = true := by
  rw [Cache.checkCacheHit_iff]
  obtain ⟨h1, h2, _⟩ := c.accessCache_slot hwf address isWrite isDataCache isL1
  refine ⟨c.slot address, ?_, h1, h2⟩
  rw [(c.accessCache_config address isWrite isDataCache isL1).1]
  exact c.slot_lt address hwf.1

theorem Cache.accessCache_of_present (c : Cache) (hwf : c.WF) (address : Nat)
    (isWrite isDataCache isL1 : Bool)
    (h : c.checkCacheHit (c.getIndex address) (c.getTag address) = true) :
    (c.accessCache address isWrite isDataCache isL1).1 = true ∧
    (c.accessCache address isWrite isDataCache isL1).2.hits = c.hits + 1 ∧
    (c.accessCache address isWrite isDataCache isL1).2.misses = c.misses ∧
    (c.accessCache address isWrite isDataCache isL1).2.writeBacks = c.writeBacks := by
  cases hf : c.findWay (c.getIndex address) (c.getTag address) c.associativity 0 with
  | some way =>
    obtain ⟨h1, h2, h3, h4, _⟩ := c.accessCache_hit_spec address isWrite isDataCache isL1
      way hf (hwf.inGrid_findWay hf)
    exact ⟨h1, h2, h3, h4⟩
  | none =>
    unfold Cache.checkCacheHit at h
    rw [hf] at h
    cases h

/-- Repeated accesses to one resident block: all hits, `misses` and `writeBacks`
stay, `hits` counts the accesses. -/
theorem Cache.run_of_present (c : Cache) (hwf : c.WF) (set tag : Nat)
    (hp : c.checkCacheHit set tag = true) (acc : Nat → Nat × Bool × Bool × Bool)
    (hacc : ∀ k, c.getIndex (acc k).1 = set ∧ c.getTag (acc k).1 = tag) :
    ∀ n, (c.run acc n).checkCacheHit set tag = true ∧
      (c.run acc n).misses = c.misses ∧
      (c.run acc n).hits = c.hits + (n : Int) ∧
      (c.run acc n).writeBacks = c.writeBacks := by
  intro n
  induction n with
  | zero => exact ⟨hp, rfl, by simp [Cache.run], rfl⟩
  | succ n ih =>
    obtain ⟨ih1, ih2, ih3, ih4⟩ := ih
    have hwfn : (c.run acc n).WF := Cache.run_WF hwf acc n
    obtain ⟨_, hb, hi⟩ := c.run_config acc n
    have hidx : (c.run acc n).getIndex (acc n).1 = set :=
      (Cache.getIndex_congr hb hi _).trans (hacc n).1
    have htag : (c.run acc n).getTag (acc n).1 = tag :=
      (Cache.getTag_congr hb hi _).trans (hacc n).2
    have hpres := (c.run acc n).accessCache_present hwfn
      (acc n).1 (acc n).2.1 (acc n).2.2.1 (acc n).2.2.2
    have hhit := (c.run acc n).accessCache_of_present hwfn
      (acc n).1 (acc n).2.1 (acc n).2.2.1 (acc n).2.2.2 (by rw [hidx, htag]; exact ih1)
    rw [hidx, htag] at hpres
    refine ⟨hpres, hhit.2.2.1.trans ih2, ?_, hhit.2.2.2.trans ih4⟩
    show ((c.run acc n).accessCache (acc n).1 (acc n).2.1 (acc n).2.2.1 (acc n).2.2.2).2.hits
      = c.hits + ((n + 1 : Nat) : Int)
    rw [hhit.2.1, ih3]
    push_cast
    ring

/-- C4: in a state with the constructor's grid shape, right after any `accessCache`
call on `a`, a further call on any address `a2` with the same set index and tag
returns `true`, adds one to `hits` and leaves `misses` and `writeBacks`; any number
of such repetitions leaves `misses` (and `writeBacks`) unchanged. -/
theorem reaccess_is_hit (c : Cache) (hwf : c.WF) (a a2 : Nat)
    (w1 d1 l1 w2 d2 l2 : Bool)
    (hidx : c.getIndex a2 = c.getIndex a) (htag : c.getTag a2 = c.getTag a) :
    ((c.accessCache a w1 d1 l1).2.accessCache a2 w2 d2 l2).1 = true ∧
    ((c.accessCache a w1 d1 l1).2.accessCache a2 w2 d2 l2).2.hits
      = (c.accessCache a w1 d1 l1).2.hits + 1 ∧
    ((c.accessCache a w1 d1 l1).2.accessCache a2 w2 d2 l2).2.misses
      = (c.accessCache a w1 d1 l1).2.misses ∧
    ((c.accessCache a w1 d1 l1).2.accessCache a2 w2 d2 l2).2.writeBacks
      = (c.accessCache a w1 d1 l1).2.writeBacks ∧
    ∀ (acc : Nat → Nat × Bool × Bool × Bool),
      (∀ k, c.getIndex (acc k).1 = c.getIndex a ∧ c.getTag (acc k).1 = c.getTag a) →
      ∀ n, ((c.accessCache a w1 d1 l1).2.run acc n).misses
            = (c.accessCache a w1 d1 l1).2.misses ∧
          ((c.accessCache a w1 d1 l1).2.run acc n).hits
            = (c.accessCache a w1 d1 l1).2.hits + (n : Int) ∧
          ((c.accessCache a w1 d1 l1).2.run acc n).writeBacks
            = (c.accessCache a w1 d1 l1).2.writeBacks := by
  have hwf1 : (c.accessCache a w1 d1 l1).2.WF := hwf.accessCache a w1 d1 l1
  obtain ⟨_, _, hb, hi, _⟩ := c.accessCache_config a w1 d1 l1
  have hpres := c.accessCache_present hwf a w1 d1 l1
  have hidx1 : ∀ x, (c.accessCache a w1 d1 l1).2.getIndex x = c.getIndex x :=
    Cache.getIndex_congr hb hi
  have htag1 : ∀ x, (c.accessCache a w1 d1 l1).2.getTag x = c.getTag x :=
    Cache.getTag_congr hb hi
  refine ⟨?_, ?_⟩
  · exact ((c.accessCache a w1 d1 l1).2.accessCache_of_present hwf1 a2 w2 d2 l2
      (by rw [hidx1, htag1, hidx, htag]; exact hpres)).1
  obtain ⟨_, g2, g3, g4⟩ := (c.accessCache a w1 d1 l1).2.accessCache_of_present hwf1 a2 w2 d2 l2
      (by rw [hidx1, htag1, hidx, htag]; exact hpres)
  refine ⟨g2, g3, g4, ?_⟩
  intro acc hacc n
  have := (c.accessCache a w1 d1 l1).2.run_of_present hwf1 (c.getIndex a) (c.getTag a) hpres
    acc (fun k => ⟨(hidx1 _).trans (hacc k).1, (htag1 _).trans (hacc k).2⟩) n
  exact ⟨this.2.1, this.2.2.1, this.2.2.2⟩

/-- Witness of C4 on `Cache(64, 16, 2)`: a read of address 0, then a write to address
5 of the same block. -/
theorem reaccess_is_hit_witness :
    twoWay2.WF ∧ twoWay2.getIndex 5 = twoWay2.getIndex 0 ∧
    twoWay2.getTag 5 = twoWay2.getTag 0 ∧
    ((twoWay2.accessCache 0 false true true).2.accessCache 5 true true true).1 = true :=
  ⟨by decide, by decide, by decide,
   (reaccess_is_hit twoWay2 (by decide) 0 5 false true true true true true
      (by decide) (by decide)).1⟩

/-- C5: in a state with the constructor's grid shape, after a write access to `a`
(hit or miss) the slot it touched, in set `getIndex a`, is valid, carries
`getTag a` and is dirty; a read of `a` right after returns `true` and leaves that
slot valid, with the same tag, and dirty. -/
theorem write_then_read_hits (c : Cache) (hwf : c.WF) (a : Nat) (d1 l1 d2 l2 : Bool) :
    c.slot a < c.associativity ∧
    ((c.accessCache a true d1 l1).2.line (c.getIndex a) (c.slot a)).valid = true ∧
    ((c.accessCache a true d1 l1).2.line (c.getIndex a) (c.slot a)).tag = c.getTag a ∧
    ((c.accessCache a true d1 l1).2.line (c.getIndex a) (c.slot a)).dirty = true ∧
    ((c.accessCache a true d1 l1).2.accessCache a false d2 l2).1 = true ∧
    (((c.accessCache a true d1 l1).2.accessCache a false d2 l2).2.line
      (c.getIndex a) (c.slot a)).valid = true ∧
    (((c.accessCache a true d1 l1).2.accessCache a false d2 l2).2.line
      (c.getIndex a) (c.slot a)).tag = c.getTag a ∧
    (((c.accessCache a true d1 l1).2.accessCache a false d2 l2).2.line
      (c.getIndex a) (c.slot a)).dirty = true := by
  have hwf1 : (c.accessCache a true d1 l1).2.WF := hwf.accessCache a true d1 l1
  obtain ⟨_, _, hb, hi, _⟩ := c.accessCache_config a true d1 l1
  obtain ⟨s1, s2, s3⟩ := c.accessCache_slot hwf a true d1 l1
  have s3 := s3 rfl
  have hpres := c.accessCache_present hwf a true d1 l1
  have hidx1 : (c.accessCache a true d1 l1).2.getIndex a = c.getIndex a :=
    Cache.getIndex_congr hb hi a
  have htag1 : (c.accessCache a true d1 l1).2.getTag a = c.getTag a :=
    Cache.getTag_congr hb hi a
  refine ⟨c.slot_lt a hwf.1, s1, s2, s3, ?_⟩
  cases hf : (c.accessCache a true d1 l1).2.findWay
      ((c.accessCache a true d1 l1).2.getIndex a) ((c.accessCache a true d1 l1).2.getTag a)
      (c.accessCache a true d1 l1).2.associativity 0 with
  | none =>
    rw [hidx1, htag1] at hf
    unfold Cache.checkCacheHit at hpres
    rw [hf] at hpres
    cases hpres
  | some way =>
    obtain ⟨h1, _, _, _, _, h6⟩ := (c.accessCache a true d1 l1).2.accessCache_hit_spec
      a false d2 l2 way hf (hwf1.inGrid_findWay hf)
    refine ⟨h1, ?_⟩
    rw [h6, hidx1]
    by_cases hc : c.getIndex a = c.getIndex a ∧ c.slot a = way
    · rw [if_pos hc, ← hc.2]
      exact ⟨s1, s2, by simp [s3]⟩
    · rw [if_neg hc]
      exact ⟨s1, s2, s3⟩

/-- Witness of C5 on `Cache(64, 16, 2)`, address 32. -/
theorem write_then_read_hits_witness :
    twoWay2.WF ∧
    ((twoWay2.accessCache 32 true true true).2.accessCache 32 false true true).1 = true :=
  ⟨by decide, (write_then_read_hits twoWay2 (by decide) 32 true true true true).2.2.2.2.1⟩

/-! ## C7 and the cyclic pattern: a fresh set under conflicting blocks -/

/-- The replacement loop ends on way `k` when every way after `k` is valid and not
older than `k`, and `k` is invalid or strictly older than every way before it. -/
theorem Cache.scanVictim_target (c : Cache) (set k A : Nat) (hk : k < A)
    (hafter : ∀ w, k < w → w < A →
      (c.line set w).valid = true ∧ (c.line set k).lastUsed ≤ (c.line set w).lastUsed)
    (hbefore : (c.line set k).valid = true →
      ∀ w, w < k → (c.line set k).lastUsed < (c.line set w).lastUsed) :
    ∀ (fuel way r : Nat), way + fuel = A → ((way ≤ k ∧ r < way) ∨ (r = k ∧ k < way)) →
      c.scanVictim set fuel way r = k := by
  intro fuel
  induction fuel with
  | zero =>
    intro way r h1 h2
    rcases h2 with h2 | h2
    · omega
    · exact h2.1
  | succ fuel ih =>
    intro way r h1 h2
    simp only [Cache.scanVictim]
    apply ih (way + 1) _ (by omega)
    rcases h2 with ⟨h2, h3⟩ | ⟨h2, h3⟩
    · by_cases hwk : way = k
      · right
        subst hwk
        refine ⟨?_, by omega⟩
        cases hv : (c.line set way).valid with
        | false => simp
        | true =>
          have := hbefore hv r h3
          simp [this]
      · left
        refine ⟨by omega, ?_⟩
        split <;> omega
    · right
      subst h2
      obtain ⟨g1, g2⟩ := hafter way h3 (by omega)
      refine ⟨?_, by omega⟩
      have g3 : ¬ (c.line set way).lastUsed < (c.line set r).lastUsed := by omega
      simp [g1, g3]

theorem Cache.replaceWay_target (c : Cache) (set k : Nat) (hk : k < c.associativity)
    (hafter : ∀ w, k < w → w < c.associativity →
      (c.line set w).valid = true ∧ (c.line set k).lastUsed ≤ (c.line set w).lastUsed)
    (hbefore : (c.line set k).valid = true →
      ∀ w, w < k → (c.line set k).lastUsed < (c.line set w).lastUsed) :
    c.replaceWay set = k := by
  unfold Cache.replaceWay
  apply c.scanVictim_target set k c.associativity hk hafter hbefore _ _ _ (by omega)
  by_cases h0 : k = 0
  · right; omega
  · left; omega

theorem mod_window_eq {a m n : Nat} (h1 : m < n) (h2 : n ≤ m + a) (h3 : m % a = n % a) :
    m + a = n := by
  have hd : a ∣ n - m := (Nat.modEq_iff_dvd' (le_of_lt h1)).1 h3
  have := Nat.le_of_dvd (by omega) hd
  omega

theorem mod_of_add_eq {a m n : Nat} (h : m + a = n) : m % a = n % a := by
  rw [← h, Nat.add_mod_right]

/-- One more conflicting access: it misses, evicts way `A - 1 - n % A`, and the
description of the set moves from `n` to `n + 1`. -/
theorem Cache.FillInv.step {c0 c : Cache} {acc : Nat → Nat × Bool × Bool × Bool}
    {set n : Nat} (h : Cache.FillInv c0 c acc set n)
    (hidx : c0.getIndex (acc n).1 = set)
    (htag : ∀ m, m < n → n ≤ m + c0.associativity →
      c0.getTag (acc m).1 ≠ c0.getTag (acc n).1) :
    (c.accessCache (acc n).1 (acc n).2.1 (acc n).2.2.1 (acc n).2.2.2).1 = false ∧
    c.replaceWay set = c0.associativity - 1 - n % c0.associativity ∧
    (∀ w, (c.accessCache (acc n).1 (acc n).2.1 (acc n).2.2.1 (acc n).2.2.2).2.line set w =
      if w = c.replaceWay set then ⟨c0.getTag (acc n).1, true, (acc n).2.1, (n : Int)⟩
      else c.line set w) ∧
    Cache.FillInv c0 (c.accessCache (acc n).1 (acc n).2.1 (acc n).2.2.1 (acc n).2.2.2).2
      acc set (n + 1) := by
  obtain ⟨hwf, ha, hb, hi, hcnt, hh, hm, hwb, hl⟩ := h
  have hA : 1 ≤ c0.associativity := ha ▸ hwf.1
  have hr : n % c0.associativity < c0.associativity := Nat.mod_lt _ (by omega)
  have hsmall : n < c0.associativity → n % c0.associativity = n := Nat.mod_eq_of_lt
  have hidx1 : c.getIndex (acc n).1 = set := (Cache.getIndex_congr hb hi _).trans hidx
  have htag1 : c.getTag (acc n).1 = c0.getTag (acc n).1 := Cache.getTag_congr hb hi _
  -- no resident block carries the new tag
  have hf : c.findWay (c.getIndex (acc n).1) (c.getTag (acc n).1) c.associativity 0 = none := by
    rw [Cache.findWay_eq_none]
    intro v _ hv
    rw [hidx1, htag1]
    rcases hl v (by omega) with ⟨_, he⟩ | ⟨m, m1, m2, _, he⟩
    · rw [he]; simp [emptyLine]
    · rw [he]
      intro hc
      exact htag m m1 m2 hc.2
  -- the victim
  have hk : c.replaceWay set = c0.associativity - 1 - n % c0.associativity := by
    apply Cache.replaceWay_target
    · omega
    · intro w hw1 hw2
      rcases hl w (by omega) with ⟨e1, _⟩ | ⟨m, m1, m2, m3, he⟩
      · have := hsmall (by omega)
        omega
      · rw [he]
        refine ⟨rfl, ?_⟩
        rcases hl (c0.associativity - 1 - n % c0.associativity) (by omega) with
          ⟨_, hek⟩ | ⟨mk, k1, k2, k3, hek⟩
        · rw [hek]
          show (0 : Int) ≤ (m : Int)
          omega
        · have := mod_window_eq k1 k2 (by omega)
          rw [hek]
          show (mk : Int) ≤ (m : Int)
          omega
    · intro hv w hw
      rcases hl (c0.associativity - 1 - n % c0.associativity) (by omega) with
        ⟨_, hek⟩ | ⟨mk, k1, k2, k3, hek⟩
      · rw [hek] at hv
        simp [emptyLine] at hv
      · have hmk := mod_window_eq k1 k2 (by omega)
        rcases hl w (by omega) with ⟨e1, _⟩ | ⟨m, m1, m2, m3, he⟩
        · omega
        · rw [hek, he]
          show (mk : Int) < (m : Int)
          have hne : m ≠ mk := by
            intro hmm
            subst hmm
            omega
          omega
  have hg := hwf.inGrid_replaceWay (acc n).1
  obtain ⟨r1, r2, r3, r4, r5, r6⟩ := c.accessCache_miss_spec (acc n).1 (acc n).2.1
    (acc n).2.2.1 (acc n).2.2.2 hf hg
  rw [hidx1, hk] at r4 r6
  obtain ⟨g1, _, g3, g4, _⟩ := c.accessCache_config (acc n).1 (acc n).2.1
    (acc n).2.2.1 (acc n).2.2.2
  refine ⟨r1, hk, ?_, hwf.accessCache _ _ _ _, g1.trans ha, g3.trans hb, g4.trans hi, ?_, ?_,
    ?_, ?_, ?_⟩
  · intro w
    rw [r6 set w, hk, htag1, hcnt]
    by_cases hwk : w = c0.associativity - 1 - n % c0.associativity
    · rw [if_pos ⟨rfl, hwk⟩, if_pos hwk]
    · rw [if_neg (fun hc => hwk hc.2), if_neg hwk]
  · rw [r5, hcnt]; push_cast; ring
  · rw [r2, hh]
  · rw [r3, hm]; push_cast; ring
  · rw [r4, hwb]
    rcases hl (c0.associativity - 1 - n % c0.associativity) (by omega) with
      ⟨e1, hek⟩ | ⟨mk, k1, k2, k3, hek⟩
    · have hn0 : n + 1 - c0.associativity = 0 := by
        have := hsmall (by omega)
        omega
      have hn1 : n - c0.associativity = 0 := by omega
      rw [hek, hn0, hn1]
      simp [emptyLine]
    · have hmk := mod_window_eq k1 k2 (by omega)
      have hn0 : n + 1 - c0.associativity = mk + 1 := by omega
      have hn1 : n - c0.associativity = mk := by omega
      rw [hek, hn0, hn1, List.range_succ, List.countP_append]
      cases hw : (acc mk).2.1 <;> simp [hw]
  · intro w hw
    rw [r6 set w]
    by_cases hwk : w = c0.associativity - 1 - n % c0.associativity
    · rw [if_pos ⟨rfl, hwk⟩]
      right
      refine ⟨n, by omega, by omega, by omega, ?_⟩
      rw [htag1, hcnt]
    · rw [if_neg (fun hc => hwk hc.2)]
      rcases hl w hw with ⟨e1, he⟩ | ⟨m, m1, m2, m3, he⟩
      · left
        refine ⟨?_, he⟩
        have := hsmall (by omega)
        omega
      · right
        refine ⟨m, by omega, ?_, m3, he⟩
        by_contra hcon
        have := mod_of_add_eq (show m + c0.associativity = n by omega)
        omega

theorem getD_replicate_emptyLine (n a set way : Nat) :
    ((List.replicate n (List.replicate a emptyLine)).getD set []).getD way emptyLine
      = emptyLine := by
  simp only [List.getD_eq_getElem?_getD, List.getElem?_replicate]
  by_cases hs : set < n
  · by_cases hw : way < a
    · simp [hs, hw, List.getElem?_replicate]
    · simp [hs, hw, List.getElem?_replicate]
  · simp [hs]

theorem Cache.line_ctor {s b a : Nat} {c0 : Cache} (h : Cache.ctor s b a = some c0)
    (set way : Nat) : c0.line set way = emptyLine := by
  obtain ⟨_, _, _, rfl⟩ := Cache.ctor_eq_some h
  exact getD_replicate_emptyLine _ _ _ _

theorem Cache.FillInv.init {s b a : Nat} {c0 : Cache} (h : Cache.ctor s b a = some c0)
    (acc : Nat → Nat × Bool × Bool × Bool) (set : Nat) : Cache.FillInv c0 c0 acc set 0 := by
  have hwf := Cache.WF.ctor h
  have hl := Cache.line_ctor h set
  obtain ⟨_, _, _, hc⟩ := Cache.ctor_eq_some h
  refine ⟨hwf, rfl, rfl, rfl, ?_, ?_, ?_, ?_, ?_⟩
  · rw [hc]; rfl
  · rw [hc]
  · rw [hc]; rfl
  · rw [Nat.zero_sub, List.range_zero, List.countP_nil]
    rw [hc]; rfl
  · intro w hw
    left
    exact ⟨by omega, hl w⟩

theorem Cache.FillInv.run {s b a : Nat} {c0 : Cache} (h : Cache.ctor s b a = some c0)
    (acc : Nat → Nat × Bool × Bool × Bool) (set N : Nat)
    (hidx : ∀ k, k < N → c0.getIndex (acc k).1 = set)
    (htag : ∀ m n, m < n → n < N → n ≤ m + c0.associativity →
      c0.getTag (acc m).1 ≠ c0.getTag (acc n).1) :
    ∀ n, n ≤ N → Cache.FillInv c0 (c0.run acc n) acc set n := by
  intro n
  induction n with
  | zero => intro _; exact Cache.FillInv.init h acc set
  | succ n ih =>
    intro hn
    exact ((ih (by omega)).step (hidx n (by omega))
      (fun m hm1 hm2 => htag m n hm1 (by omega) hm2)).2.2.2

theorem Cache.FillInv.full {c0 c : Cache} {acc : Nat → Nat × Bool × Bool × Bool}
    {set n : Nat} (h : Cache.FillInv c0 c acc set n) (hn : c0.associativity ≤ n)
    (w : Nat) (hw : w < c0.associativity) :
    ∃ m, m < n ∧ n ≤ m + c0.associativity ∧ c0.associativity - 1 - w = m % c0.associativity ∧
      c.line set w = ⟨c0.getTag (acc m).1, true, (acc m).2.1, (m : Int)⟩ := by
  rcases h.2.2.2.2.2.2.2.2 w hw with ⟨e1, _⟩ | hm
  · omega
  · exact hm

/-- Cyclic conflicts with unbounded counters: on a fresh cache of associativity `a`,
`a + 1` addresses of one set with pairwise distinct tags, accessed cyclically
(`cyclic`), miss on every access: after `N` accesses `hits = 0` and `misses = N`, and
access number `N` misses.  From the `(a + 1)`-th access on (`a ≤ N`) all `a` lines of
the set are valid and hold the blocks of the last `a` accesses, each stamped with the
number of its access; the victim holds the block of access `N - a`, its stamp is
strictly the smallest of the set, and the miss overwrites exactly that slot with the
new block. -/
theorem Cache.cyclic_conflict_run (s b a : Nat) (c0 : Cache)
    (h : Cache.ctor s b a = some c0) (addr : Nat → Nat) (flags : Nat → Bool × Bool × Bool)
    (set : Nat) (hidx : ∀ i, i ≤ a → c0.getIndex (addr i) = set)
    (htag : ∀ i j, i ≤ a → j ≤ a → i ≠ j → c0.getTag (addr i) ≠ c0.getTag (addr j))
    (N : Nat) :
    (c0.run (cyclic a addr flags) N).hits = 0 ∧
    (c0.run (cyclic a addr flags) N).misses = (N : Int) ∧
    c0.result (cyclic a addr flags) N = false ∧
    (a ≤ N →
      (∀ w, w < a → ∃ m, N - a ≤ m ∧ m < N ∧
        (c0.run (cyclic a addr flags) N).line set w
          = ⟨c0.getTag (addr (m % (a + 1))), true, (flags m).1, (m : Int)⟩) ∧
      (c0.run (cyclic a addr flags) N).replaceWay set < a ∧
      (c0.run (cyclic a addr flags) N).line set
          ((c0.run (cyclic a addr flags) N).replaceWay set)
        = ⟨c0.getTag (addr ((N - a) % (a + 1))), true, (flags (N - a)).1, ((N - a : Nat) : Int)⟩ ∧
      (∀ w, w < a → w ≠ (c0.run (cyclic a addr flags) N).replaceWay set →
        ((c0.run (cyclic a addr flags) N).line set
            ((c0.run (cyclic a addr flags) N).replaceWay set)).lastUsed
          < ((c0.run (cyclic a addr flags) N).line set w).lastUsed) ∧
      (c0.run (cyclic a addr flags) (N + 1)).line set
          ((c0.run (cyclic a addr flags) N).replaceWay set)
        = ⟨c0.getTag (addr (N % (a + 1))), true, (flags N).1, (N : Int)⟩ ∧
      ∀ w, w ≠ (c0.run (cyclic a addr flags) N).replaceWay set →
        (c0.run (cyclic a addr flags) (N + 1)).line set w
          = (c0.run (cyclic a addr flags) N).line set w) := by
  have ha : c0.associativity = a := by
    obtain ⟨_, _, _, rfl⟩ := Cache.ctor_eq_some h
    rfl
  have ha1 : 1 ≤ a := ha ▸ (Cache.WF.ctor h).1
  have hidx1 : ∀ k, c0.getIndex (cyclic a addr flags k).1 = set := fun k =>
    hidx (k % (a + 1)) (by have := Nat.mod_lt k (show 0 < a + 1 by omega); omega)
  have htag1 : ∀ m n, m < n → n ≤ m + c0.associativity →
      c0.getTag (cyclic a addr flags m).1 ≠ c0.getTag (cyclic a addr flags n).1 := by
    intro m n hmn hnm
    have hm := Nat.mod_lt m (show 0 < a + 1 by omega)
    have hn := Nat.mod_lt n (show 0 < a + 1 by omega)
    refine htag (m % (a + 1)) (n % (a + 1)) (by omega) (by omega) ?_
    intro heq
    have := mod_window_eq hmn (by omega) heq
    omega
  have inv := Cache.FillInv.run h (cyclic a addr flags) set N (fun k _ => hidx1 k)
    (fun m n hmn _ hnm => htag1 m n hmn hnm) N (le_refl N)
  obtain ⟨r1, hk, hline, _⟩ := inv.step (hidx1 N) (fun m hm1 hm2 => htag1 m N hm1 hm2)
  have hr : N % a < a := Nat.mod_lt _ (by omega)
  rw [ha] at hk
  refine ⟨inv.2.2.2.2.2.1, inv.2.2.2.2.2.2.1, r1, fun hN => ?_⟩
  have hfull := fun w hw => inv.full (by omega) w (ha.symm ▸ hw)
  rw [ha] at hfull
  obtain ⟨mk, k1, k2, k3, hek⟩ := hfull (a - 1 - N % a) (by omega)
  have hmk := mod_window_eq k1 k2 (by omega)
  have hmk2 : mk = N - a := by omega
  refine ⟨?_, by omega, ?_, ?_, ?_, ?_⟩
  · intro w hw
    obtain ⟨m, m1, m2, _, he⟩ := hfull w hw
    exact ⟨m, by omega, m1, he⟩
  · rw [hk, hek, hmk2]
    rfl
  · intro w hw hne
    obtain ⟨m, m1, m2, m3, he⟩ := hfull w hw
    rw [hk] at hne ⊢
    rw [hek, he]
    show (mk : Int) < (m : Int)
    have hmne : m ≠ mk := by
      intro hmm
      subst hmm
      omega
    omega
  · have := hline ((c0.run (cyclic a addr flags) N).replaceWay set)
    rw [if_pos rfl] at this
    exact this
  · intro w hne
    have := hline w
    rw [if_neg hne] at this
    exact this

/-- C7: on a fresh cache of associativity `a`, after `a` write accesses to blocks of
one set with pairwise distinct tags, `writeBacks` is still 0 and every line of the set
is valid and dirty; one more access (read or write) to a further block of that set
with a new tag misses and leaves `writeBacks = 1`. -/
theorem dirty_set_then_one_writeBack (s b a : Nat) (c0 : Cache)
    (h : Cache.ctor s b a = some c0) (acc : Nat → Nat × Bool × Bool × Bool) (set : Nat)
    (hidx : ∀ k, k ≤ a → c0.getIndex (acc k).1 = set)
    (htag : ∀ i j, i ≤ a → j ≤ a → i ≠ j → c0.getTag (acc i).1 ≠ c0.getTag (acc j).1)
    (hw : ∀ k, k < a → (acc k).2.1 = true) :
    (c0.run acc a).writeBacks = 0 ∧
    (∀ w, w < a → ((c0.run acc a).line set w).valid = true ∧
      ((c0.run acc a).line set w).dirty = true) ∧
    c0.result acc a = false ∧
    (c0.run acc (a + 1)).misses = (c0.run acc a).misses + 1 ∧
    (c0.run acc (a + 1)).writeBacks = 1 := by
  have ha : c0.associativity = a := by
    obtain ⟨_, _, _, rfl⟩ := Cache.ctor_eq_some h
    rfl
  have ha1 : 1 ≤ a := ha ▸ (Cache.WF.ctor h).1
  have inv := Cache.FillInv.run h acc set (a + 1) (fun k hk => hidx k (by omega))
    (fun m n hmn hn _ => htag m n (by omega) (by omega) (by omega))
  have inva := inv a (by omega)
  have inva1 := inv (a + 1) (le_refl _)
  obtain ⟨r1, _, _, _⟩ := inva.step (hidx a (le_refl a))
    (fun m hm1 _ => htag m a (by omega) (le_refl a) (by omega))
  refine ⟨?_, ?_, r1, ?_, ?_⟩
  · rw [inva.2.2.2.2.2.2.2.1, ha]
    simp
  · intro w hw1
    obtain ⟨m, m1, _, _, he⟩ := inva.full (by omega) w (ha.symm ▸ hw1)
    rw [he]
    exact ⟨rfl, hw m m1⟩
  · rw [inva1.2.2.2.2.2.2.1, inva.2.2.2.2.2.2.1]
    push_cast
    ring
  · rw [inva1.2.2.2.2.2.2.2.1, ha]
    have h0 : (acc 0).2.1 = true := hw 0 (by omega)
    simp [List.range_succ, h0]

/-- Witness of C7 on `Cache(64, 16, 2)`: writes to 0 and 32 fill set 0, a read of 64
evicts one dirty line. -/
theorem dirty_set_then_one_writeBack_witness :
    Cache.ctor 64 16 2 = some twoWay2 ∧
    (twoWay2.run (fun k => (k * 32, decide (k < 2), true, true)) 3).writeBacks = 1 :=
  have hidx : ∀ k, k ≤ 2 → twoWay2.getIndex (k * 32) = 0 := by decide
  have htag : ∀ i j, i ≤ 2 → j ≤ 2 → i ≠ j →
      twoWay2.getTag (i * 32) ≠ twoWay2.getTag (j * 32) := by
    intro i j hi hj hne
    interval_cases i <;> interval_cases j <;> first | exact absurd rfl hne | decide
  have hw : ∀ k, k < 2 → decide (k < 2) = true := by decide
  ⟨by decide,
   (dirty_set_then_one_writeBack 64 16 2 twoWay2 (by decide)
      (fun k => (k * 32, decide (k < 2), true, true)) 0 hidx htag hw).2.2.2.2⟩

/-! ## C8: address decomposition -/

/-- C8: for a constructed cache whose `blockSize` and `numSets` are powers of two,
with `blockOffsetBits + indexBits < 31`, and a 64-bit address: the constructor
computed `blockOffsetBits = log2 blockSize` and `indexBits = log2 numSets`, the two
`int` masks `1 << bits` do not overflow, `getTag` is
`address >> (blockOffsetBits + indexBits)`, `getIndex` is
`(address >> blockOffsetBits) & (numSets - 1)` and `getBlockOffset` is
`address & (blockSize - 1)`; the three results are 64-bit values. -/
theorem address_decomposition (s b a : Nat) (c0 : Cache) (h : Cache.ctor s b a = some c0)
    (p q : Nat) (hb : b = 2 ^ p) (hn : c0.numSets = 2 ^ q)
    (hbits : c0.blockOffsetBits + c0.indexBits < 31)
    (address : Nat) (haddr : address < 2 ^ 64) :
    c0.blockOffsetBits = log2 b ∧ c0.indexBits = log2 c0.numSets ∧
    1 <<< c0.blockOffsetBits < 2 ^ 31 ∧ 1 <<< c0.indexBits < 2 ^ 31 ∧
    c0.getTag address = address >>> (c0.blockOffsetBits + c0.indexBits) ∧
    c0.getIndex address = (address >>> c0.blockOffsetBits) &&& (c0.numSets - 1) ∧
    c0.getBlockOffset address = address &&& (b - 1) ∧
    c0.getTag address < 2 ^ 64 ∧ c0.getIndex address < 2 ^ 64 ∧
    c0.getBlockOffset address < 2 ^ 64 := by
  have hbo : c0.blockOffsetBits = log2 b := by
    obtain ⟨_, _, _, rfl⟩ := Cache.ctor_eq_some h
    rfl
  have hib : c0.indexBits = log2 c0.numSets := (Cache.WF.ctor h).2.2.2.2
  have hbo2 : c0.blockOffsetBits = p := by rw [hbo, hb, log2_two_pow]
  have hib2 : c0.indexBits = q := by rw [hib, hn, log2_two_pow]
  have hmask1 : 1 <<< c0.blockOffsetBits = b := by rw [Nat.one_shiftLeft, hbo2, hb]
  have hmask2 : 1 <<< c0.indexBits = c0.numSets := by rw [Nat.one_shiftLeft, hib2, hn]
  have hpow : ∀ k, k < 31 → 1 <<< k < 2 ^ 31 := by
    intro k hk
    rw [Nat.one_shiftLeft]
    exact Nat.pow_lt_pow_right (by omega) hk
  have hshift : ∀ k, address >>> k < 2 ^ 64 := by
    intro k
    rw [Nat.shiftRight_eq_div_pow]
    exact lt_of_le_of_lt (Nat.div_le_self _ _) haddr
  refine ⟨hbo, hib, hpow _ (by omega), hpow _ (by omega), rfl, ?_, ?_, hshift _, ?_, ?_⟩
  · unfold Cache.getIndex
    rw [hmask2]
  · unfold Cache.getBlockOffset
    rw [hmask1]
  · unfold Cache.getIndex
    exact lt_of_le_of_lt Nat.and_le_left (hshift _)
  · unfold Cache.getBlockOffset
    exact lt_of_le_of_lt Nat.and_le_left haddr

/-- Witness of C8 on `Cache(64, 16, 2)` (`blockSize = 2 ^ 4`, `numSets = 2 ^ 1`),
address `0x35`: tag 1, index 1, offset 5. -/
theorem address_decomposition_witness :
    Cache.ctor 64 16 2 = some twoWay2 ∧ twoWay2.numSets = 2 ^ 1 ∧
    twoWay2.blockOffsetBits + twoWay2.indexBits < 31 ∧
    twoWay2.getIndex 53 = (53 >>> twoWay2.blockOffsetBits) &&& (twoWay2.numSets - 1) ∧
    twoWay2.getBlockOffset 53 = 53 &&& (16 - 1) :=
  ⟨by decide, by decide, by decide,
   (address_decomposition 64 16 2 twoWay2 (by decide) 4 1 (by decide) (by decide)
      (by decide) 53 (by decide)).2.2.2.2.2.1,
   (address_decomposition 64 16 2 twoWay2 (by decide) 4 1 (by decide) (by decide)
      (by decide) 53 (by decide)).2.2.2.2.2.2.1⟩

/-! ## C9, C10: routing of one trace entry -/

/-- C9 (evaluation of the code): on the hierarchy of `main`, `CacheSimulator(1024, 16, 2)`,
the entry `fetch 0` misses in the instruction cache, yet the next-level cache is left
untouched: the loop body queries the instruction cache a second time, that query
hits, and nothing is forwarded.  Conversely, after the entries `read 0`, `fetch 200`,
`fetch 400` (hexadecimal) the entry `read 0` hits in the data cache and the next-level
cache is accessed all the same, because the second query of the instruction cache
misses. -/
theorem fetch_miss_not_forwarded :
    ∃ sim, CacheSimulator.ctor 1024 16 2 = some sim ∧
      (sim.L1_ICache.accessCache 0 false false true).1 = false ∧
      (sim.simulateEntry "fetch" 0).L2_Cache = sim.L2_Cache ∧
      (sim.simulateEntry "fetch" 0).L1_ICache.misses = 1 ∧
      (sim.simulateEntry "fetch" 0).L1_ICache.hits = 1 ∧
      ((sim.simulate [("read", 0), ("fetch", 512), ("fetch", 1024)]).L1_DCache.accessCache
        0 false true true).1 = true ∧
      (sim.simulate [("read", 0), ("fetch", 512), ("fetch", 1024)]).L2_Cache.misses = 1 ∧
      ((sim.simulate [("read", 0), ("fetch", 512), ("fetch", 1024)]).simulateEntry
        "read" 0).L2_Cache.hits = 1 := by
  refine ⟨_, rfl, ?_, ?_, ?_, ?_, ?_, ?_, ?_⟩ <;> decide

/-- C10 (evaluation of the code): on the hierarchy of `main`, the data entry `read 0`
changes the instruction cache (one miss is counted there and a line is filled), and
the entry `fetch 0` accesses the instruction cache twice (`hits + misses = 2`). -/
theorem read_entry_touches_instruction_cache :
    ∃ sim, CacheSimulator.ctor 1024 16 2 = some sim ∧
      sim.L1_ICache.misses = 0 ∧
      (sim.simulateEntry "read" 0).L1_ICache.misses = 1 ∧
      (sim.simulateEntry "read" 0).L1_ICache ≠ sim.L1_ICache ∧
      (sim.simulateEntry "fetch" 0).L1_DCache = sim.L1_DCache ∧
      (sim.simulateEntry "fetch" 0).L1_ICache.hits
        + (sim.simulateEntry "fetch" 0).L1_ICache.misses = 2 ∧
      (sim.simulate [("fetch", 0)]).L1_ICache.hits
        + (sim.simulate [("fetch", 0)]).L1_ICache.misses = 2 := by
  refine ⟨_, rfl, ?_, ?_, ?_, ?_, ?_, ?_⟩ <;> decide

/-! ## C11, C12: construction -/

/-- C11 (the claim fails): `Cache(1000, 16, 3)` is accepted although 1000 and 3 are not
powers of two and 3 does not divide the block count 62; the cache has 20 sets and 4
index bits, and `getIndex` of address `0x40` is 4 where `(address >> 4) & (numSets - 1)`
would be 0. -/
theorem ctor_accepts_non_power_of_two :
    (∀ k, 1000 ≠ 2 ^ k) ∧ (∀ k, 3 ≠ 2 ^ k) ∧ ¬ (3 ∣ 1000 / 16) ∧
    ∃ c, Cache.ctor 1000 16 3 = some c ∧ c.numBlocks = 62 ∧ c.numSets = 20 ∧
      c.indexBits = 4 ∧ c.getIndex 64 = 4 ∧ (64 >>> c.blockOffsetBits) &&& (c.numSets - 1) = 0 := by
  refine ⟨?_, ?_, by decide, _, rfl, by decide, by decide, by decide, by decide, by decide⟩
  · intro k hk
    by_cases h : k ≤ 9
    · interval_cases k <;> omega
    · have : 2 ^ 10 ≤ 2 ^ k := Nat.pow_le_pow_right (by omega) (by omega)
      omega
  · intro k hk
    by_cases h : k ≤ 1
    · interval_cases k <;> omega
    · have : 2 ^ 2 ≤ 2 ^ k := Nat.pow_le_pow_right (by omega) (by omega)
      omega

/-- C11 (amended): the constructor validates nothing.  Whenever `blockSize ≥ 1`,
`associativity ≥ 1` and the derived `numSets` is at least 1, powers of two or not,
construction succeeds with `numBlocks = size / blockSize`,
`numSets = (associativity == 1 ? numBlocks : numBlocks / associativity)`,
`blockOffsetBits = log2 blockSize`, `indexBits = log2 numSets`, a grid of `numSets`
rows of `associativity` initial lines and all counters 0. -/
theorem ctor_succeeds_without_validation (s b a : Nat) (hb : 1 ≤ b) (ha : 1 ≤ a)
    (hn : 1 ≤ (if a = 1 then s / b else s / b / a)) :
    ∃ c, Cache.ctor s b a = some c ∧ c.numBlocks = s / b ∧
      c.numSets = (if a = 1 then s / b else s / b / a) ∧
      c.blockOffsetBits = log2 b ∧ c.indexBits = log2 c.numSets ∧
      c.cache = List.replicate c.numSets (List.replicate a emptyLine) ∧
      c.hits = 0 ∧ c.misses = 0 ∧ c.writeBacks = 0 ∧ c.accessCounter = 0 := by
  have hb0 : ¬ b = 0 := by omega
  have ha0 : ¬ a = 0 := by omega
  have hn0 : ¬ (if a = 1 then s / b else s / b / a) = 0 := by omega
  refine ⟨{ size := s
            blockSize := b
            associativity := a
            numBlocks := s / b
            numSets := if a = 1 then s / b else s / b / a
            cache := List.replicate (if a = 1 then s / b else s / b / a)
              (List.replicate a emptyLine)
            blockOffsetBits := log2 b
            indexBits := log2 (if a = 1 then s / b else s / b / a)
            tagBits := 64 - (log2 b : Int) - (log2 (if a = 1 then s / b else s / b / a) : Int)
            accessCounter := 0
            hits := 0
            misses := 0
            writeBacks := 0 }, ?_, rfl, rfl, rfl, rfl, rfl, rfl, rfl, rfl, rfl⟩
  unfold Cache.ctor
  simp only [hb0, ha0, hn0, if_false]

/-- Witness of C11 (amended): `Cache(1000, 16, 3)`. -/
theorem ctor_succeeds_without_validation_witness :
    ∃ c, Cache.ctor 1000 16 3 = some c ∧ c.numSets = 20 := by
  obtain ⟨c, h1, _, h3, _⟩ := ctor_succeeds_without_validation 1000 16 3 (by decide)
    (by decide) (by decide)
  exact ⟨c, h1, h3⟩

/-- C12: `Cache(1024, 16, 2)` has `numBlocks = 64`, `numSets = 32`,
`blockOffsetBits = 4`, `indexBits = 5`; on it the accesses `0x0000`, `0x0010`,
`0x0000` return miss, miss, hit and leave `hits = 1`, `misses = 2`, `writeBacks = 0`
(whatever the flags of the three calls). -/
theorem scenario_1024_16_2 :
    ∃ c, Cache.ctor 1024 16 2 = some c ∧
      c.numBlocks = 64 ∧ c.numSets = 32 ∧ c.blockOffsetBits = 4 ∧ c.indexBits = 5 ∧
      ∀ (f : Nat → Bool × Bool × Bool),
        (c.accessCache 0 (f 0).1 (f 0).2.1 (f 0).2.2).1 = false ∧
        ((c.accessCache 0 (f 0).1 (f 0).2.1 (f 0).2.2).2.accessCache
          16 (f 1).1 (f 1).2.1 (f 1).2.2).1 = false ∧
        (((c.accessCache 0 (f 0).1 (f 0).2.1 (f 0).2.2).2.accessCache
          16 (f 1).1 (f 1).2.1 (f 1).2.2).2.accessCache
          0 (f 2).1 (f 2).2.1 (f 2).2.2).1 = true ∧
        (((c.accessCache 0 (f 0).1 (f 0).2.1 (f 0).2.2).2.accessCache
          16 (f 1).1 (f 1).2.1 (f 1).2.2).2.accessCache
          0 (f 2).1 (f 2).2.1 (f 2).2.2).2.hits = 1 ∧
        (((c.accessCache 0 (f 0).1 (f 0).2.1 (f 0).2.2).2.accessCache
          16 (f 1).1 (f 1).2.1 (f 1).2.2).2.accessCache
          0 (f 2).1 (f 2).2.1 (f 2).2.2).2.misses = 2 ∧
        (((c.accessCache 0 (f 0).1 (f 0).2.1 (f 0).2.2).2.accessCache
          16 (f 1).1 (f 1).2.1 (f 1).2.2).2.accessCache
          0 (f 2).1 (f 2).2.1 (f 2).2.2).2.writeBacks = 0 := by
  refine ⟨_, rfl, by decide, by decide, by decide, by decide, ?_⟩
  intro f
  rcases f 0 with ⟨a1, a2, a3⟩
  rcases f 1 with ⟨b1, b2, b3⟩
  rcases f 2 with ⟨c1, c2, c3⟩
  revert a1 a2 a3 b1 b2 b3 c1 c2 c3
  decide

/-! ## C16, C17: what one call changes -/

/-- C16: in a state with the constructor's grid shape, a call that hits does so on
the slot `(getIndex address, slot address)`, a valid line carrying the tag.  After
the call that slot has `dirty = old dirty || isWrite`, `lastUsed` equal to the old
`accessCounter`, and the same tag and valid bit; `accessCounter` has grown by 1;
every other line of the cache, `misses` and `writeBacks` are as before (`hits` has
grown by 1). -/
theorem hit_changes_one_slot (c : Cache) (hwf : c.WF) (address : Nat)
    (isWrite isDataCache isL1 : Bool)
    (hr : (c.accessCache address isWrite isDataCache isL1).1 = true) :
    c.slot address < c.associativity ∧
    (c.line (c.getIndex address) (c.slot address)).valid = true ∧
    (c.line (c.getIndex address) (c.slot address)).tag = c.getTag address ∧
    (c.accessCache address isWrite isDataCache isL1).2.line (c.getIndex address)
        (c.slot address)
      = { tag := (c.line (c.getIndex address) (c.slot address)).tag
          valid := (c.line (c.getIndex address) (c.slot address)).valid
          dirty := (c.line (c.getIndex address) (c.slot address)).dirty || isWrite
          lastUsed := c.accessCounter } ∧
    (c.accessCache address isWrite isDataCache isL1).2.accessCounter = c.accessCounter + 1 ∧
    (∀ s2 w2, ¬ (s2 = c.getIndex address ∧ w2 = c.slot address) →
      (c.accessCache address isWrite isDataCache isL1).2.line s2 w2 = c.line s2 w2) ∧
    (c.accessCache address isWrite isDataCache isL1).2.misses = c.misses ∧
    (c.accessCache address isWrite isDataCache isL1).2.writeBacks = c.writeBacks ∧
    (c.accessCache address isWrite isDataCache isL1).2.hits = c.hits + 1 := by
  cases hf : c.findWay (c.getIndex address) (c.getTag address) c.associativity 0 with
  | none =>
    have := (c.accessCache_miss_spec address isWrite isDataCache isL1 hf
      (hwf.inGrid_replaceWay address)).1
    rw [this] at hr
    cases hr
  | some way =>
    have hslot : c.slot address = way := by
      unfold Cache.slot
      rw [hf]
    obtain ⟨_, h2, h3, h4, h5, h6⟩ := c.accessCache_hit_spec address isWrite isDataCache isL1
      way hf (hwf.inGrid_findWay hf)
    obtain ⟨_, g2, g3, _⟩ := (c.findWay_eq_some _ _ _ _ _).1 hf
    rw [hslot]
    refine ⟨by omega, g3.1, g3.2, ?_, h5, ?_, h3, h4, h2⟩
    · rw [h6, if_pos ⟨rfl, rfl⟩]
    · intro s2 w2 hne
      rw [h6, if_neg hne]

/-- Witness of C16: on `Cache(64, 16, 2)` a write to address 0 right after a read of
address 0 hits. -/
theorem hit_changes_one_slot_witness :
    (twoWay2.accessCache 0 false true true).2.WF ∧
    ((twoWay2.accessCache 0 false true true).2.accessCache 0 true true true).1 = true ∧
    ((twoWay2.accessCache 0 false true true).2.accessCache 0 true true true).2.misses
      = (twoWay2.accessCache 0 false true true).2.misses :=
  ⟨by decide, by decide,
   (hit_changes_one_slot (twoWay2.accessCache 0 false true true).2 (by decide) 0 true true
      true (by decide)).2.2.2.2.2.2.1⟩

/-- C17: in a state with the constructor's grid shape, after a call that misses the
victim slot `(getIndex address, replaceWay)` has `tag = getTag address`,
`valid = true`, `dirty = isWrite` and `lastUsed` equal to the old `accessCounter`;
every other line of the cache (other ways of the set, all lines of other sets) is
unchanged. -/
theorem miss_fills_victim_only (c : Cache) (hwf : c.WF) (address : Nat)
    (isWrite isDataCache isL1 : Bool)
    (hr : (c.accessCache address isWrite isDataCache isL1).1 = false) :
    c.replaceWay (c.getIndex address) < c.associativity ∧
    (c.accessCache address isWrite isDataCache isL1).2.line (c.getIndex address)
        (c.replaceWay (c.getIndex address))
      = { tag := c.getTag address, valid := true, dirty := isWrite
          lastUsed := c.accessCounter } ∧
    (∀ s2 w2, ¬ (s2 = c.getIndex address ∧ w2 = c.replaceWay (c.getIndex address)) →
      (c.accessCache address isWrite isDataCache isL1).2.line s2 w2 = c.line s2 w2) := by
  cases hf : c.findWay (c.getIndex address) (c.getTag address) c.associativity 0 with
  | some way =>
    have := (c.accessCache_hit_spec address isWrite isDataCache isL1 way hf
      (hwf.inGrid_findWay hf)).1
    rw [this] at hr
    cases hr
  | none =>
    obtain ⟨_, _, _, _, _, h6⟩ := c.accessCache_miss_spec address isWrite isDataCache isL1 hf
      (hwf.inGrid_replaceWay address)
    refine ⟨c.replaceWay_lt _ hwf.1, ?_, ?_⟩
    · rw [h6, if_pos ⟨rfl, rfl⟩]
    · intro s2 w2 hne
      rw [h6, if_neg hne]

/-- Witness of C17: the first access to `Cache(64, 16, 2)` misses and fills a slot of
set 1 with tag 1, dirty. -/
theorem miss_fills_victim_only_witness :
    twoWay2.WF ∧ (twoWay2.accessCache 48 true true true).1 = false ∧
    (twoWay2.accessCache 48 true true true).2.line (twoWay2.getIndex 48)
        (twoWay2.replaceWay (twoWay2.getIndex 48))
      = { tag := twoWay2.getTag 48, valid := true, dirty := true
          lastUsed := twoWay2.accessCounter } :=
  ⟨by decide, by decide,
   (miss_fills_victim_only twoWay2 (by decide) 48 true true true (by decide)).2.1⟩

/-! ## C13: the grid keeps its shape, valid lines are bounded -/

theorem sum_map_set {β : Type} (f : β → Nat) :
    ∀ (L : List β) (i : Nat) (r : β) (h : i < L.length),
      ((L.set i r).map f).sum + f (L.get ⟨i, h⟩) = (L.map f).sum + f r := by
  intro L
  induction L with
  | nil => intro i r h; simp at h
  | cons x L ih =>
    intro i r h
    cases i with
    | zero => simp; omega
    | succ i =>
      have h2 : i < L.length := by simpa using h
      have := ih i r h2
      simp only [List.set_cons_succ, List.map_cons, List.sum_cons, List.get_eq_getElem,
        List.getElem_cons_succ] at this ⊢
      omega

theorem Cache.validLines_setLine (c : Cache) (s w : Nat) (l : CacheLine) (hg : c.inGrid s w) :
    (c.setLine s w l).validLines + (if (c.line s w).valid = true then 1 else 0)
      = c.validLines + (if l.valid = true then 1 else 0) := by
  obtain ⟨hs, hw⟩ := hg
  have hrow : c.cache.getD s [] = c.cache.get ⟨s, hs⟩ := by
    simp [List.getD_eq_getElem?_getD, List.getElem?_eq_getElem hs]
  rw [hrow] at hw
  have hline : c.line s w = (c.cache.get ⟨s, hs⟩).get ⟨w, hw⟩ := by
    unfold Cache.line
    rw [hrow]
    have hw2 : w < c.cache[s].length := hw
    simp [List.getD_eq_getElem?_getD, List.getElem?_eq_getElem hw2]
  have h1 := sum_map_set (fun row : List CacheLine => row.countP (fun l => l.valid))
    c.cache s ((c.cache.get ⟨s, hs⟩).set w l) hs
  have h2 := List.countP_set (fun l : CacheLine => l.valid) (c.cache.get ⟨s, hs⟩) w l hw
  have h3 := List.boole_getElem_le_countP (fun l : CacheLine => l.valid)
    (c.cache.get ⟨s, hs⟩) w hw
  unfold Cache.validLines Cache.setLine
  rw [hline, hrow]
  simp only [List.get_eq_getElem] at h1 h2 h3 ⊢
  omega

theorem Cache.validLines_setLine_same (c : Cache) (s w : Nat) (l : CacheLine)
    (hg : c.inGrid s w) (hv : l.valid = (c.line s w).valid) :
    (c.setLine s w l).validLines = c.validLines := by
  have := c.validLines_setLine s w l hg
  rw [hv] at this
  omega

theorem Cache.validLines_updateLRU (c : Cache) (s w : Nat) (hg : c.inGrid s w) :
    (c.updateLRU s w).validLines = c.validLines :=
  c.validLines_setLine_same s w { c.line s w with lastUsed := c.accessCounter } hg rfl

theorem Cache.accessCache_validLines (c : Cache) (hwf : c.WF) (address : Nat)
    (isWrite isDataCache isL1 : Bool) :
    (c.accessCache address isWrite isDataCache isL1).2.validLines =
      c.validLines +
        (if (c.accessCache address isWrite isDataCache isL1).1 = false ∧
            (c.line (c.getIndex address) (c.replaceWay (c.getIndex address))).valid = false
         then 1 else 0) := by
  cases hf : c.findWay (c.getIndex address) (c.getTag address) c.associativity 0 with
  | some way =>
    have hg := hwf.inGrid_findWay hf
    have h1 := (c.accessCache_hit_spec address isWrite isDataCache isL1 way hf hg).1
    rw [h1]
    simp only [Bool.true_eq_false, false_and, if_false, add_zero]
    unfold Cache.accessCache
    simp only [hf]
    cases isWrite
    · simp only [Bool.false_eq_true, if_false]
      exact Cache.validLines_updateLRU { c with hits := c.hits + 1 } _ _ hg
    · simp only [if_true]
      have hg1 : Cache.inGrid { c with hits := c.hits + 1 } (c.getIndex address) way := hg
      have hg2 := (Cache.inGrid_setLine { c with hits := c.hits + 1 } (c.getIndex address) way
        (c.getIndex address) way
        { Cache.line { c with hits := c.hits + 1 } (c.getIndex address) way with
          dirty := true }).2 hg1
      rw [Cache.validLines_updateLRU _ _ _ hg2]
      exact Cache.validLines_setLine_same { c with hits := c.hits + 1 } _ _ _ hg1 rfl
  | none =>
    have hg := hwf.inGrid_replaceWay address
    have h1 := (c.accessCache_miss_spec address isWrite isDataCache isL1 hf hg).1
    rw [h1]
    simp only [true_and]
    have hrw : Cache.replaceWay { c with misses := c.misses + 1 } (c.getIndex address)
        = c.replaceWay (c.getIndex address) :=
      Cache.scanVictim_congr c { c with misses := c.misses + 1 } _ (fun _ => rfl) _ _ _
    unfold Cache.accessCache
    simp only [hf, ite_self, hrw]
    have key : ∀ c2 : Cache, c2.cache = c.cache →
        ((c2.setLine (c.getIndex address) (c.replaceWay (c.getIndex address))
          { c2.line (c.getIndex address) (c.replaceWay (c.getIndex address)) with
            tag := c.getTag address, valid := true, dirty := isWrite }).updateLRU
          (c.getIndex address) (c.replaceWay (c.getIndex address))).validLines
        = c.validLines +
          (if (c.line (c.getIndex address) (c.replaceWay (c.getIndex address))).valid = false
           then 1 else 0) := by
      intro c2 hc2
      have hg1 : c2.inGrid (c.getIndex address) (c.replaceWay (c.getIndex address)) := by
        unfold Cache.inGrid
        rw [hc2]
        exact hg
      have hl : c2.line (c.getIndex address) (c.replaceWay (c.getIndex address))
          = c.line (c.getIndex address) (c.replaceWay (c.getIndex address)) := by
        unfold Cache.line
        rw [hc2]
      have hv : c2.validLines = c.validLines := by
        unfold Cache.validLines
        rw [hc2]
      rw [Cache.validLines_updateLRU _ _ _ ((Cache.inGrid_setLine _ _ _ _ _ _).2 hg1)]
      have := c2.validLines_setLine (c.getIndex address) (c.replaceWay (c.getIndex address))
        { c2.line (c.getIndex address) (c.replaceWay (c.getIndex address)) with
          tag := c.getTag address, valid := true, dirty := isWrite } hg1
      rw [hl, hv] at this
      rw [hl]
      cases hvv : (c.line (c.getIndex address) (c.replaceWay (c.getIndex address))).valid
      · simp [hvv] at this ⊢
        omega
      · simp [hvv] at this ⊢
        omega
    split
    · exact key _ rfl
    · exact key _ rfl

theorem sum_countP_le (A : Nat) :
    ∀ (L : List (List CacheLine)), (∀ row ∈ L, row.length = A) →
      (L.map (fun row => row.countP (fun l => l.valid))).sum ≤ L.length * A := by
  intro L
  induction L with
  | nil => intro _; simp
  | cons row L ih =>
    intro hrow
    have h1 : row.countP (fun l => l.valid) ≤ A := by
      rw [← hrow row (List.mem_cons_self _ _)]
      exact List.countP_le_length _
    have h2 := ih (fun r hr => hrow r (List.mem_cons_of_mem _ hr))
    simp only [List.map_cons, List.sum_cons, List.length_cons]
    rw [Nat.succ_mul]
    omega

theorem Cache.WF.validLines_le {c : Cache} (h : c.WF) :
    c.validLines ≤ c.numSets * c.associativity := by
  obtain ⟨_, _, hlen, hrow, _⟩ := h
  rw [← hlen]
  exact sum_countP_le c.associativity c.cache hrow

theorem Cache.accessCache_valid_mono (c : Cache) (hwf : c.WF) (address : Nat)
    (isWrite isDataCache isL1 : Bool) (s w : Nat) (hv : (c.line s w).valid = true) :
    ((c.accessCache address isWrite isDataCache isL1).2.line s w).valid = true := by
  cases hf : c.findWay (c.getIndex address) (c.getTag address) c.associativity 0 with
  | some way =>
    obtain ⟨_, _, _, _, _, h6⟩ := c.accessCache_hit_spec address isWrite isDataCache isL1
      way hf (hwf.inGrid_findWay hf)
    rw [h6]
    split
    · next hc => rw [hc.1, hc.2] at hv; exact hv
    · exact hv
  | none =>
    obtain ⟨_, _, _, _, _, h6⟩ := c.accessCache_miss_spec address isWrite isDataCache isL1
      hf (hwf.inGrid_replaceWay address)
    rw [h6]
    split
    · rfl
    · exact hv

theorem Cache.run_numSets (c : Cache) (acc : Nat → Nat × Bool × Bool × Bool) :
    ∀ n, (c.run acc n).numSets = c.numSets := by
  intro n
  induction n with
  | zero => rfl
  | succ n ih =>
    exact ((c.run acc n).accessCache_config (acc n).1 (acc n).2.1 (acc n).2.2.1
      (acc n).2.2.2).2.1.trans ih

/-- C13: in every state reached from a constructed cache by `accessCache` calls the
grid has `numSets` rows of `associativity` lines, with `numSets` and `associativity`
as constructed, so at most `numSets * associativity` lines are valid; the next call
makes at most one more line valid and leaves every valid line valid. -/
theorem grid_shape_and_valid_lines (s b a : Nat) (c0 : Cache)
    (h : Cache.ctor s b a = some c0) (acc : Nat → Nat × Bool × Bool × Bool) (n : Nat) :
    (c0.run acc n).numSets = c0.numSets ∧
    (c0.run acc n).associativity = c0.associativity ∧
    (c0.run acc n).cache.length = c0.numSets ∧
    (∀ row ∈ (c0.run acc n).cache, row.length = c0.associativity) ∧
    (c0.run acc n).validLines ≤ c0.numSets * c0.associativity ∧
    (c0.run acc (n + 1)).validLines ≤ (c0.run acc n).validLines + 1 ∧
    (c0.run acc n).validLines ≤ (c0.run acc (n + 1)).validLines ∧
    ∀ set way, ((c0.run acc n).line set way).valid = true →
      ((c0.run acc (n + 1)).line set way).valid = true := by
  have hwf : (c0.run acc n).WF := Cache.run_WF (Cache.WF.ctor h) acc n
  have hn := c0.run_numSets acc n
  have ha := (c0.run_config acc n).1
  have hle := hwf.validLines_le
  have hstep := (c0.run acc n).accessCache_validLines hwf (acc n).1 (acc n).2.1 (acc n).2.2.1
    (acc n).2.2.2
  obtain ⟨_, _, hlen, hrow, _⟩ := hwf
  rw [hn] at hlen hle
  rw [ha] at hrow hle
  refine ⟨hn, ha, hlen, hrow, hle, ?_, ?_, ?_⟩
  · show ((c0.run acc n).accessCache (acc n).1 (acc n).2.1 (acc n).2.2.1
      (acc n).2.2.2).2.validLines ≤ _
    rw [hstep]
    split <;> omega
  · show _ ≤ ((c0.run acc n).accessCache (acc n).1 (acc n).2.1 (acc n).2.2.1
      (acc n).2.2.2).2.validLines
    rw [hstep]
    omega
  · intro set way hv
    exact (c0.run acc n).accessCache_valid_mono (Cache.run_WF (Cache.WF.ctor h) acc n) _ _ _ _
      set way hv

/-- Witness of C13: `Cache(64, 16, 2)` after three accesses holds three valid lines of
at most four. -/
theorem grid_shape_and_valid_lines_witness :
    Cache.ctor 64 16 2 = some twoWay2 ∧
    (twoWay2.run (fun k => (k * 16, false, true, true)) 3).validLines = 3 ∧
    (twoWay2.run (fun k => (k * 16, false, true, true)) 3).validLines
      ≤ twoWay2.numSets * twoWay2.associativity :=
  ⟨by decide, by decide,
   (grid_shape_and_valid_lines 64 16 2 twoWay2 (by decide)
      (fun k => (k * 16, false, true, true)) 3).2.2.2.2.1⟩

/-! ## Stamps in reachable states -/

theorem Cache.line_of_not_inGrid (c : Cache) (s w : Nat) (h : ¬ c.inGrid s w) :
    c.line s w = emptyLine := by
  unfold Cache.inGrid at h
  unfold Cache.line
  by_cases hs : s < c.cache.length
  · have hw : ¬ w < (c.cache.getD s []).length := fun hw => h ⟨hs, hw⟩
    simp only [List.getD_eq_getElem?_getD] at hw ⊢
    rw [List.getElem?_eq_none (by omega)]
    rfl
  · simp only [List.getD_eq_getElem?_getD]
    rw [List.getElem?_eq_none (l := c.cache) (by omega)]
    rfl

theorem Cache.WF.lt_of_valid {c : Cache} (h : c.WF) {s w : Nat}
    (hv : (c.line s w).valid = true) : s < c.numSets ∧ w < c.associativity := by
  by_cases hg : c.inGrid s w
  · obtain ⟨_, _, hlen, hrow, _⟩ := h
    obtain ⟨hs, hw⟩ := hg
    have hmem : c.cache[s] ∈ c.cache := List.getElem_mem hs
    have := hrow _ hmem
    simp only [List.getD_eq_getElem?_getD, List.getElem?_eq_getElem hs, Option.getD_some] at hw
    omega
  · rw [c.line_of_not_inGrid s w hg] at hv
    cases hv

theorem Cache.Stamped.of_ctor {s b a : Nat} {c0 : Cache} (h : Cache.ctor s b a = some c0) :
    c0.Stamped := by
  have hl := Cache.line_ctor h
  refine ⟨Cache.WF.ctor h, ?_, fun s w _ => hl s w, ?_, ?_⟩
  · obtain ⟨_, _, _, rfl⟩ := Cache.ctor_eq_some h
    exact le_refl _
  · intro s w hv
    rw [hl] at hv
    cases hv
  · intro s w w2 _ hv
    rw [hl] at hv
    cases hv

theorem Cache.Stamped.after_access {c : Cache} (h : c.Stamped) (address : Nat)
    (isWrite isDataCache isL1 : Bool) :
    (c.accessCache address isWrite isDataCache isL1).2.Stamped := by
  obtain ⟨hwf, hc, hinv, hval, hdis⟩ := h
  cases hf : c.findWay (c.getIndex address) (c.getTag address) c.associativity 0 with
  | some way =>
    obtain ⟨_, _, _, _, h5, h6⟩ := c.accessCache_hit_spec address isWrite isDataCache isL1
      way hf (hwf.inGrid_findWay hf)
    obtain ⟨_, _, g3, _⟩ := (c.findWay_eq_some _ _ _ _ _).1 hf
    refine ⟨hwf.accessCache _ _ _ _, by rw [h5]; omega, ?_, ?_, ?_⟩
    · intro s w
      rw [h6]
      split
      · intro hv
        rw [g3.1] at hv
        cases hv
      · exact hinv s w
    · intro s w
      rw [h6, h5]
      split
      · intro _
        exact ⟨hc, by show c.accessCounter < c.accessCounter + 1; omega⟩
      · intro hv
        have := hval s w hv
        exact ⟨this.1, by omega⟩
    · intro s w w2 hne
      rw [h6, h6]
      by_cases hc1 : s = c.getIndex address ∧ w = way
      · have hc2 : ¬ (s = c.getIndex address ∧ w2 = way) := fun hc2 => hne (hc1.2.trans hc2.2.symm)
        rw [if_pos hc1, if_neg hc2]
        intro _ hv2
        have hd := hdis s way w2 (hc1.2 ▸ hne) (hc1.1 ▸ g3.1) hv2
        have hr := hval s w2 hv2
        rw [hc1.1] at hd hr ⊢
        refine ⟨hd.1, ?_⟩
        show c.accessCounter ≠ _
        omega
      · rw [if_neg hc1]
        by_cases hc2 : s = c.getIndex address ∧ w2 = way
        · rw [if_pos hc2]
          intro hv1 _
          have hd := hdis s w way (hc2.2 ▸ hne) hv1 (hc2.1 ▸ g3.1)
          have hr := hval s w hv1
          rw [hc2.1] at hd hr ⊢
          refine ⟨hd.1, ?_⟩
          show _ ≠ c.accessCounter
          omega
        · rw [if_neg hc2]
          exact hdis s w w2 hne
  | none =>
    obtain ⟨_, _, _, _, h5, h6⟩ := c.accessCache_miss_spec address isWrite isDataCache isL1
      hf (hwf.inGrid_replaceWay address)
    have hnone := (c.findWay_eq_none _ _ _ _).1 hf
    have hnotag : ∀ w, (c.line (c.getIndex address) w).valid = true →
        (c.line (c.getIndex address) w).tag ≠ c.getTag address := by
      intro w hv ht
      exact hnone w (Nat.zero_le _) (by have := (hwf.lt_of_valid hv).2; omega) ⟨hv, ht⟩
    refine ⟨hwf.accessCache _ _ _ _, by rw [h5]; omega, ?_, ?_, ?_⟩
    · intro s w
      rw [h6]
      split
      · intro hv
        cases hv
      · exact hinv s w
    · intro s w
      rw [h6, h5]
      split
      · intro _
        exact ⟨hc, by show c.accessCounter < c.accessCounter + 1; omega⟩
      · intro hv
        have := hval s w hv
        exact ⟨this.1, by omega⟩
    · intro s w w2 hne
      rw [h6, h6]
      by_cases hc1 : s = c.getIndex address ∧ w = c.replaceWay (c.getIndex address)
      · have hc2 : ¬ (s = c.getIndex address ∧ w2 = c.replaceWay (c.getIndex address)) :=
          fun hc2 => hne (hc1.2.trans hc2.2.symm)
        rw [if_pos hc1, if_neg hc2]
        intro _ hv2
        rw [hc1.1] at hv2 ⊢
        have hr := hval _ w2 hv2
        refine ⟨fun ht => hnotag w2 hv2 ht.symm, ?_⟩
        show c.accessCounter ≠ _
        omega
      · rw [if_neg hc1]
        by_cases hc2 : s = c.getIndex address ∧ w2 = c.replaceWay (c.getIndex address)
        · rw [if_pos hc2]
          intro hv1 _
          rw [hc2.1] at hv1 ⊢
          have hr := hval _ w hv1
          refine ⟨hnotag w hv1, ?_⟩
          show _ ≠ c.accessCounter
          omega
        · rw [if_neg hc2]
          exact hdis s w w2 hne

theorem Cache.Stamped.after_run {s b a : Nat} {c0 : Cache} (h : Cache.ctor s b a = some c0)
    (acc : Nat → Nat × Bool × Bool × Bool) : ∀ n, (c0.run acc n).Stamped := by
  intro n
  induction n with
  | zero => exact Cache.Stamped.of_ctor h
  | succ n ih => exact ih.after_access _ _ _ _

/-- The replacement loop keeps a candidate whose stamp is least among the scanned
ways and which is invalid as soon as a scanned way is, provided invalid lines carry
stamp 0 and no stamp is negative. -/
theorem Cache.scanVictim_least (c : Cache) (set : Nat)
    (hnn : ∀ w, 0 ≤ (c.line set w).lastUsed)
    (h0 : ∀ w, (c.line set w).valid = false → (c.line set w).lastUsed = 0) :
    ∀ (fuel way r : Nat), r < way →
      (∀ w, w < way → (c.line set r).lastUsed ≤ (c.line set w).lastUsed) →
      ((∃ w, w < way ∧ (c.line set w).valid = false) → (c.line set r).valid = false) →
      c.scanVictim set fuel way r < way + fuel ∧
      (∀ w, w < way + fuel →
        (c.line set (c.scanVictim set fuel way r)).lastUsed ≤ (c.line set w).lastUsed) ∧
      ((∃ w, w < way + fuel ∧ (c.line set w).valid = false) →
        (c.line set (c.scanVictim set fuel way r)).valid = false) := by
  intro fuel
  induction fuel with
  | zero =>
    intro way r hr hmin hinv
    exact ⟨hr, hmin, hinv⟩
  | succ fuel ih =>
    intro way r hr hmin hinv
    simp only [Cache.scanVictim]
    have hstep : way + 1 + fuel = way + (fuel + 1) := by omega
    rw [← hstep]
    by_cases hcond : (!(c.line set way).valid
        || decide ((c.line set way).lastUsed < (c.line set r).lastUsed)) = true
    · rw [if_pos hcond]
      apply ih (way + 1) way (by omega)
      · intro w hw
        by_cases hww : w = way
        · rw [hww]
        · have h1 := hmin w (by omega)
          simp only [Bool.or_eq_true, Bool.not_eq_true', decide_eq_true_eq] at hcond
          rcases hcond with hc | hc
          · rw [h0 way hc]
            exact hnn w
          · omega
      · rintro ⟨w, hw, hv⟩
        simp only [Bool.or_eq_true, Bool.not_eq_true', decide_eq_true_eq] at hcond
        rcases hcond with hc | hc
        · exact hc
        · by_cases hww : w = way
          · rw [← hww]; exact hv
          · have hrinv := hinv ⟨w, by omega, hv⟩
            have := h0 r hrinv
            have := hnn way
            omega
    · rw [if_neg hcond]
      simp only [Bool.or_eq_true, Bool.not_eq_true', decide_eq_true_eq, not_or,
        Bool.not_eq_false, not_lt] at hcond
      apply ih (way + 1) r (by omega)
      · intro w hw
        by_cases hww : w = way
        · rw [hww]; exact hcond.2
        · exact hmin w (by omega)
      · rintro ⟨w, hw, hv⟩
        by_cases hww : w = way
        · rw [hww, hcond.1] at hv
          cases hv
        · exact hinv ⟨w, by omega, hv⟩

theorem Cache.Stamped.replaceWay_least {c : Cache} (h : c.Stamped) (set : Nat) :
    c.replaceWay set < c.associativity ∧
    (∀ w, w < c.associativity →
      (c.line set (c.replaceWay set)).lastUsed ≤ (c.line set w).lastUsed) ∧
    ((∃ w, w < c.associativity ∧ (c.line set w).valid = false) →
      (c.line set (c.replaceWay set)).valid = false) := by
  obtain ⟨hwf, _, hinv, hval, _⟩ := h
  have h0 : ∀ w, (c.line set w).valid = false → (c.line set w).lastUsed = 0 := by
    intro w hv
    rw [hinv set w hv]
    rfl
  have hnn : ∀ w, 0 ≤ (c.line set w).lastUsed := by
    intro w
    cases hv : (c.line set w).valid with
    | false => rw [h0 w hv]
    | true => exact (hval set w hv).1
  have hA := hwf.1
  have := c.scanVictim_least set hnn h0 (c.associativity - 1) 1 0 (by omega)
    (fun w hw => by have : w = 0 := by omega
                    rw [this])
    (fun ⟨w, hw, hv⟩ => by have : w = 0 := by omega
                           rw [← this]; exact hv)
  have hs : 1 + (c.associativity - 1) = c.associativity := by omega
  rw [hs] at this
  exact this

theorem Cache.Stamped.replaceWay_last_invalid {c : Cache} (h : c.Stamped) (set k : Nat)
    (hk : k < c.associativity) (hinv : (c.line set k).valid = false)
    (hafter : ∀ w, k < w → w < c.associativity → (c.line set w).valid = true) :
    c.replaceWay set = k := by
  obtain ⟨_, _, hempty, hval, _⟩ := h
  apply c.replaceWay_target set k hk
  · intro w hw1 hw2
    have hv := hafter w hw1 hw2
    refine ⟨hv, ?_⟩
    rw [hempty set k hinv]
    exact (hval set w hv).1
  · intro hv
    rw [hinv] at hv
    cases hv

/-! ## C14, C18: choice of the victim in reachable states -/

/-- C14: in every state reached from a constructed cache by `accessCache` calls, the slot
that a miss on `address` replaces, `replaceWay (getIndex address)`, is a way of the set;
it is an invalid slot whenever the set has one; when all slots of the set are valid it
is the valid slot whose `lastUsed` is strictly the smallest; in both cases its
`lastUsed` is at most that of every slot of the set. -/
theorem victim_is_free_slot_or_oldest (s b a : Nat) (c0 : Cache)
    (h : Cache.ctor s b a = some c0) (acc : Nat → Nat × Bool × Bool × Bool) (n : Nat)
    (address : Nat) :
    (c0.run acc n).replaceWay ((c0.run acc n).getIndex address) < c0.associativity ∧
    ((∃ w, w < c0.associativity ∧
        ((c0.run acc n).line ((c0.run acc n).getIndex address) w).valid = false) →
      ((c0.run acc n).line ((c0.run acc n).getIndex address)
        ((c0.run acc n).replaceWay ((c0.run acc n).getIndex address))).valid = false) ∧
    ((∀ w, w < c0.associativity →
        ((c0.run acc n).line ((c0.run acc n).getIndex address) w).valid = true) →
      ((c0.run acc n).line ((c0.run acc n).getIndex address)
        ((c0.run acc n).replaceWay ((c0.run acc n).getIndex address))).valid = true ∧
      ∀ w, w < c0.associativity →
        w ≠ (c0.run acc n).replaceWay ((c0.run acc n).getIndex address) →
        ((c0.run acc n).line ((c0.run acc n).getIndex address)
          ((c0.run acc n).replaceWay ((c0.run acc n).getIndex address))).lastUsed
          < ((c0.run acc n).line ((c0.run acc n).getIndex address) w).lastUsed) ∧
    (∀ w, w < c0.associativity →
      ((c0.run acc n).line ((c0.run acc n).getIndex address)
        ((c0.run acc n).replaceWay ((c0.run acc n).getIndex address))).lastUsed
        ≤ ((c0.run acc n).line ((c0.run acc n).getIndex address) w).lastUsed) := by
  have hst := Cache.Stamped.after_run h acc n
  have ha := (c0.run_config acc n).1
  obtain ⟨h1, h2, h3⟩ := hst.replaceWay_least ((c0.run acc n).getIndex address)
  rw [ha] at h1 h2 h3
  refine ⟨h1, h3, fun hall => ⟨hall _ h1, fun w hw hne => ?_⟩, h2⟩
  have hle := h2 w hw
  have hd := (hst.2.2.2.2 ((c0.run acc n).getIndex address) w _ hne (hall w hw)
    (hall _ h1)).2
  omega

/-- Witness of C14: `Cache(64, 16, 2)` after two accesses to set 0. -/
theorem victim_is_free_slot_or_oldest_witness :
    Cache.ctor 64 16 2 = some twoWay2 ∧
    (twoWay2.run (fun k => (k * 32, false, true, true)) 2).replaceWay
        ((twoWay2.run (fun k => (k * 32, false, true, true)) 2).getIndex 64)
      < twoWay2.associativity :=
  ⟨by decide,
   (victim_is_free_slot_or_oldest 64 16 2 twoWay2 (by decide)
      (fun k => (k * 32, false, true, true)) 2 64).1⟩

/-- C18 (the claim fails): set 0 of the fresh `Cache(64, 16, 2)` has two invalid slots,
ways 0 and 1; the first miss chooses way 1 as victim and fills it, way 0 stays
invalid. -/
theorem first_miss_fills_last_way :
    Cache.ctor 64 16 2 = some twoWay2 ∧
    (twoWay2.line 0 0).valid = false ∧ (twoWay2.line 0 1).valid = false ∧
    twoWay2.getIndex 0 = 0 ∧
    (twoWay2.accessCache 0 false true true).1 = false ∧
    twoWay2.replaceWay 0 = 1 ∧
    ((twoWay2.accessCache 0 false true true).2.line 0 1).valid = true ∧
    ((twoWay2.accessCache 0 false true true).2.line 0 0).valid = false := by
  refine ⟨?_, ?_, ?_, ?_, ?_, ?_, ?_, ?_⟩ <;> decide

/-- The last invalid way with unbounded counters: in every state of the unbounded
embedding reached from a constructed cache, if way `k` of the addressed set is invalid
and every way after `k` is valid, the victim of a miss is `k`; the first miss into a
set of a fresh cache fills way `associativity - 1`. -/
theorem Cache.victim_last_invalid_run (s b a : Nat) (c0 : Cache)
    (h : Cache.ctor s b a = some c0) (acc : Nat → Nat × Bool × Bool × Bool) (n : Nat)
    (address k : Nat) (hk : k < c0.associativity)
    (hinv : ((c0.run acc n).line ((c0.run acc n).getIndex address) k).valid = false)
    (hafter : ∀ w, k < w → w < c0.associativity →
      ((c0.run acc n).line ((c0.run acc n).getIndex address) w).valid = true) :
    (c0.run acc n).replaceWay ((c0.run acc n).getIndex address) = k ∧
    c0.replaceWay (c0.getIndex address) = c0.associativity - 1 := by
  have hst := Cache.Stamped.after_run h acc n
  have ha := (c0.run_config acc n).1
  refine ⟨hst.replaceWay_last_invalid _ k (by omega) hinv (fun w h1 h2 => hafter w h1 (by omega)),
    ?_⟩
  have hst0 := Cache.Stamped.of_ctor h
  have hl := Cache.line_ctor h
  apply hst0.replaceWay_last_invalid _ _ (by omega)
  · rw [hl]; rfl
  · intro w h1 h2
    omega

/-! ## Bounds-checked loops -/

theorem Cache.lineChecked_eq (c : Cache) (set way : Nat) (h : c.inGrid set way) :
    c.lineChecked set way = some (c.line set way) := by
  obtain ⟨hs, hw⟩ := h
  unfold Cache.lineChecked Cache.line
  simp only [List.getD_eq_getElem?_getD, List.getElem?_eq_getElem hs, Option.getD_some] at hw ⊢
  rw [List.getElem?_eq_getElem hw]
  rfl

theorem Cache.findWayChecked_eq (c : Cache) (set tag A : Nat)
    (hg : ∀ w, w < A → c.inGrid set w) :
    ∀ (fuel way : Nat), way + fuel ≤ A →
      c.findWayChecked set tag fuel way = some (c.findWay set tag fuel way) := by
  intro fuel
  induction fuel with
  | zero => intro way _; rfl
  | succ fuel ih =>
    intro way hle
    simp only [Cache.findWayChecked, Cache.findWay]
    rw [c.lineChecked_eq set way (hg way (by omega))]
    simp only
    split
    · rfl
    · exact ih (way + 1) (by omega)

theorem Cache.scanVictimChecked_eq (c : Cache) (set A : Nat)
    (hg : ∀ w, w < A → c.inGrid set w) :
    ∀ (fuel way r : Nat), way + fuel ≤ A → r < A →
      c.scanVictimChecked set fuel way r = some (c.scanVictim set fuel way r) := by
  intro fuel
  induction fuel with
  | zero => intro way r _ _; rfl
  | succ fuel ih =>
    intro way r hle hr
    simp only [Cache.scanVictimChecked, Cache.scanVictim]
    rw [c.lineChecked_eq set way (hg way (by omega)), c.lineChecked_eq set r (hg r hr)]
    simp only
    apply ih (way + 1) _ (by omega)
    split <;> omega

theorem Cache.WF.accessInBounds {c : Cache} (h : c.WF) (address : Nat) :
    c.findWayChecked (c.getIndex address) (c.getTag address) c.associativity 0
      = some (c.findWay (c.getIndex address) (c.getTag address) c.associativity 0) ∧
    c.scanVictimChecked (c.getIndex address) (c.associativity - 1) 1 0
      = some (c.replaceWay (c.getIndex address)) ∧
    c.accessInBounds address = true := by
  have hg : ∀ w, w < c.associativity → c.inGrid (c.getIndex address) w :=
    fun w hw => h.inGrid (h.getIndex_lt address) hw
  have hA := h.1
  have h1 := c.findWayChecked_eq (c.getIndex address) (c.getTag address) c.associativity hg
    c.associativity 0 (by omega)
  have h2 := c.scanVictimChecked_eq (c.getIndex address) c.associativity hg
    (c.associativity - 1) 1 0 (by omega) (by omega)
  refine ⟨h1, h2, ?_⟩
  unfold Cache.accessInBounds
  rw [h1]
  cases hf : c.findWay (c.getIndex address) (c.getTag address) c.associativity 0 with
  | some way =>
    have := (c.findWay_eq_some _ _ _ _ _).1 hf
    simp only
    rw [c.lineChecked_eq _ way (hg way (by omega))]
    rfl
  | none =>
    simp only
    rw [h2]
    simp only
    have hv : c.scanVictim (c.getIndex address) (c.associativity - 1) 1 0 < c.associativity :=
      c.replaceWay_lt _ hA
    rw [c.lineChecked_eq _ _ (hg _ hv)]
    rfl

/-! ## C20: every subscript of `accessCache` is inside the grid -/

/-- C20: for a cache constructed with `blockSize ≥ 1`, `associativity ≥ 1` and
`numSets ≥ 1` (powers of two or not) whose `indexBits` is below 31, in the fresh state
and after any `accessCache` calls, and for every address: the `int` mask `1 << indexBits`
does not overflow, `getIndex address < numSets` (and below `2 ^ 31`, so `int set = index`
keeps the value), the grid has `numSets` rows, every way below `associativity` of that
row exists, the victim way is below `associativity`, and the bounds-checked loops agree
with the loops of `accessCache`: every `cache[set][way]` it evaluates is inside the
grid. -/
theorem accessCache_subscripts_in_bounds (s b a : Nat) (c0 : Cache)
    (h : Cache.ctor s b a = some c0) (hbits : c0.indexBits < 31)
    (acc : Nat → Nat × Bool × Bool × Bool) (n : Nat) (address : Nat) :
    1 ≤ b ∧ 1 ≤ a ∧ 1 ≤ c0.numSets ∧ c0.indexBits = log2 c0.numSets ∧
    1 <<< c0.indexBits < 2 ^ 31 ∧
    (c0.run acc n).getIndex address < c0.numSets ∧
    (c0.run acc n).getIndex address < 2 ^ 31 ∧
    (c0.run acc n).cache.length = c0.numSets ∧
    (∀ way, way < c0.associativity →
      (c0.run acc n).inGrid ((c0.run acc n).getIndex address) way) ∧
    (c0.run acc n).replaceWay ((c0.run acc n).getIndex address) < c0.associativity ∧
    (c0.run acc n).accessInBounds address = true := by
  have hwf0 := Cache.WF.ctor h
  have hwf : (c0.run acc n).WF := Cache.run_WF hwf0 acc n
  have hn := c0.run_numSets acc n
  obtain ⟨ha, hb, hi⟩ := c0.run_config acc n
  obtain ⟨hb0, ha0, _, _⟩ := Cache.ctor_eq_some h
  have hidx := hwf.getIndex_lt address
  have hmask : 1 <<< c0.indexBits < 2 ^ 31 := by
    rw [Nat.one_shiftLeft]
    exact Nat.pow_lt_pow_right (by omega) hbits
  have hidx2 : (c0.run acc n).getIndex address < 2 ^ 31 := by
    have h2 : (c0.run acc n).getIndex address ≤ (1 <<< (c0.run acc n).indexBits) - 1 := by
      unfold Cache.getIndex
      exact Nat.and_le_right
    rw [hi] at h2
    omega
  rw [hn] at hidx
  refine ⟨by omega, by omega, hwf0.2.1, hwf0.2.2.2.2, hmask, hidx, hidx2, ?_, ?_, ?_,
    (hwf.accessInBounds address).2.2⟩
  · rw [← hn]; exact hwf.2.2.1
  · intro way hw
    exact hwf.inGrid (hwf.getIndex_lt address) (by omega)
  · rw [← ha]
    exact (c0.run acc n).replaceWay_lt _ hwf.1

/-- Witness of C20: `Cache(1000, 16, 3)`, which is not a power-of-two configuration
(20 sets, 4 index bits). -/
theorem accessCache_subscripts_in_bounds_witness :
    ∃ c, Cache.ctor 1000 16 3 = some c ∧ c.indexBits < 31 ∧
      c.getIndex 4660 < c.numSets ∧ c.accessInBounds 4660 = true := by
  refine ⟨_, rfl, by decide, ?_, ?_⟩
  · exact (accessCache_subscripts_in_bounds 1000 16 3 _ rfl (by decide)
      (fun _ => (0, false, false, false)) 0 4660).2.2.2.2.2.1
  · exact (accessCache_subscripts_in_bounds 1000 16 3 _ rfl (by decide)
      (fun _ => (0, false, false, false)) 0 4660).2.2.2.2.2.2.2.2.2.2

/-! ## C15: the cache is a per-set LRU -/

theorem mem_window (idx tg : Nat → Nat) (s j n t : Nat) :
    t ∈ window idx tg s j n ↔ ∃ k, j < k ∧ k < n ∧ idx k = s ∧ tg k = t := by
  unfold window
  simp only [Finset.mem_image, Finset.mem_filter, Finset.mem_range]
  constructor
  · rintro ⟨k, ⟨h1, h2, h3⟩, h4⟩
    exact ⟨k, h2, h1, h3, h4⟩
  · rintro ⟨k, h1, h2, h3, h4⟩
    exact ⟨k, ⟨h2, h1, h3⟩, h4⟩

theorem window_succ (idx tg : Nat → Nat) (s j n : Nat) :
    window idx tg s j (n + 1) =
      if j < n ∧ idx n = s then insert (tg n) (window idx tg s j n)
      else window idx tg s j n := by
  ext t
  split
  · next hc =>
    rw [Finset.mem_insert, mem_window, mem_window]
    constructor
    · rintro ⟨k, h1, h2, h3, h4⟩
      by_cases hk : k = n
      · left; rw [← h4, hk]
      · right; exact ⟨k, h1, by omega, h3, h4⟩
    · rintro (h | ⟨k, h1, h2, h3, h4⟩)
      · exact ⟨n, hc.1, by omega, hc.2, h.symm⟩
      · exact ⟨k, h1, by omega, h3, h4⟩
  · next hc =>
    rw [mem_window, mem_window]
    constructor
    · rintro ⟨k, h1, h2, h3, h4⟩
      by_cases hk : k = n
      · subst hk
        exact absurd ⟨h1, h3⟩ hc
      · exact ⟨k, h1, by omega, h3, h4⟩
    · rintro ⟨k, h1, h2, h3, h4⟩
      exact ⟨k, h1, by omega, h3, h4⟩

theorem window_mono (idx tg : Nat → Nat) (s j j2 n : Nat) (h : j ≤ j2) :
    window idx tg s j2 n ⊆ window idx tg s j n := by
  intro t ht
  rw [mem_window] at ht ⊢
  obtain ⟨k, h1, h2, h3, h4⟩ := ht
  exact ⟨k, by omega, h2, h3, h4⟩

theorem window_exists_last (idx tg : Nat → Nat) (s j t : Nat) :
    ∀ n, t ∈ window idx tg s j n →
      ∃ j2, j < j2 ∧ j2 < n ∧ idx j2 = s ∧ tg j2 = t ∧
        ∀ k, k < n → j2 < k → ¬ (idx k = s ∧ tg k = t) := by
  intro n
  induction n with
  | zero =>
    intro ht
    rw [mem_window] at ht
    obtain ⟨k, _, h2, _⟩ := ht
    omega
  | succ n ih =>
    intro ht
    by_cases hn : j < n ∧ idx n = s ∧ tg n = t
    · exact ⟨n, hn.1, by omega, hn.2.1, hn.2.2, fun k h1 h2 => by omega⟩
    · have ht2 : t ∈ window idx tg s j n := by
        rw [mem_window] at ht ⊢
        obtain ⟨k, h1, h2, h3, h4⟩ := ht
        by_cases hk : k = n
        · subst hk
          exact absurd ⟨h1, h3, h4⟩ hn
        · exact ⟨k, h1, by omega, h3, h4⟩
      obtain ⟨j2, g1, g2, g3, g4, g5⟩ := ih ht2
      refine ⟨j2, g1, by omega, g3, g4, fun k h1 h2 => ?_⟩
      by_cases hk : k = n
      · subst hk
        intro hc
        exact hn ⟨by omega, hc.1, hc.2⟩
      · exact g5 k (by omega) h2

theorem window_card_lt (idx tg : Nat → Nat) (s j j2 n : Nat) (h1 : j < j2) (h2 : j2 < n)
    (h3 : idx j2 = s) (hlast : ∀ k, k < n → j2 < k → ¬ (idx k = s ∧ tg k = tg j2)) :
    (window idx tg s j2 n).card < (window idx tg s j n).card := by
  apply Finset.card_lt_card
  refine ⟨window_mono idx tg s j j2 n (by omega), fun hsub => ?_⟩
  have hmem : tg j2 ∈ window idx tg s j n := (mem_window _ _ _ _ _ _).2 ⟨j2, h1, h2, h3, rfl⟩
  have := hsub hmem
  rw [mem_window] at this
  obtain ⟨k, g1, g2, g3, g4⟩ := this
  exact hlast k g2 g1 ⟨g3, g4⟩

/-- One call seen from the grid: it rewrites exactly one slot `w0` of the addressed
set, which afterwards holds the accessed tag with the old `accessCounter` as stamp; no
other valid slot of the set carries that tag; on a miss `w0` has the least stamp of
the set and is valid only if the whole set is. -/
theorem Cache.Stamped.touch {c : Cache} (h : c.Stamped) (address : Nat)
    (isWrite isDataCache isL1 : Bool) :
    ∃ w0, w0 < c.associativity ∧
      (c.accessCache address isWrite isDataCache isL1).2.accessCounter = c.accessCounter + 1 ∧
      (∀ s w, ¬ (s = c.getIndex address ∧ w = w0) →
        (c.accessCache address isWrite isDataCache isL1).2.line s w = c.line s w) ∧
      ((c.accessCache address isWrite isDataCache isL1).2.line
        (c.getIndex address) w0).valid = true ∧
      ((c.accessCache address isWrite isDataCache isL1).2.line
        (c.getIndex address) w0).tag = c.getTag address ∧
      ((c.accessCache address isWrite isDataCache isL1).2.line
        (c.getIndex address) w0).lastUsed = c.accessCounter ∧
      (∀ w, w ≠ w0 → (c.line (c.getIndex address) w).valid = true →
        (c.line (c.getIndex address) w).tag ≠ c.getTag address) ∧
      (((c.accessCache address isWrite isDataCache isL1).1 = true ∧
          (c.line (c.getIndex address) w0).valid = true ∧
          (c.line (c.getIndex address) w0).tag = c.getTag address) ∨
        ((c.accessCache address isWrite isDataCache isL1).1 = false ∧
          (∀ w, (c.line (c.getIndex address) w).valid = true →
            (c.line (c.getIndex address) w).tag ≠ c.getTag address) ∧
          (∀ w, w < c.associativity →
            (c.line (c.getIndex address) w0).lastUsed
              ≤ (c.line (c.getIndex address) w).lastUsed) ∧
          ((c.line (c.getIndex address) w0).valid = true →
            ∀ w, w < c.associativity → (c.line (c.getIndex address) w).valid = true))) := by
  have hst := h
  obtain ⟨hwf, hc, hinv, hval, hdis⟩ := h
  cases hf : c.findWay (c.getIndex address) (c.getTag address) c.associativity 0 with
  | some way =>
    obtain ⟨h1, _, _, _, h5, h6⟩ := c.accessCache_hit_spec address isWrite isDataCache isL1
      way hf (hwf.inGrid_findWay hf)
    obtain ⟨_, g2, g3, _⟩ := (c.findWay_eq_some _ _ _ _ _).1 hf
    refine ⟨way, by omega, h5, ?_, ?_, ?_, ?_, ?_, Or.inl ⟨h1, g3.1, g3.2⟩⟩
    · intro s w hne
      rw [h6, if_neg hne]
    · rw [h6, if_pos ⟨rfl, rfl⟩]; exact g3.1
    · rw [h6, if_pos ⟨rfl, rfl⟩]; exact g3.2
    · rw [h6, if_pos ⟨rfl, rfl⟩]
    · intro w hne hv
      have := (hdis (c.getIndex address) w way hne hv g3.1).1
      rw [g3.2] at this
      exact this
  | none =>
    obtain ⟨h1, _, _, _, h5, h6⟩ := c.accessCache_miss_spec address isWrite isDataCache isL1
      hf (hwf.inGrid_replaceWay address)
    have hnone := (c.findWay_eq_none _ _ _ _).1 hf
    have hnotag : ∀ w, (c.line (c.getIndex address) w).valid = true →
        (c.line (c.getIndex address) w).tag ≠ c.getTag address := by
      intro w hv ht
      exact hnone w (Nat.zero_le _) (by have := (hwf.lt_of_valid hv).2; omega) ⟨hv, ht⟩
    obtain ⟨l1, l2, l3⟩ := hst.replaceWay_least (c.getIndex address)
    refine ⟨c.replaceWay (c.getIndex address), l1, h5, ?_, ?_, ?_, ?_, ?_,
      Or.inr ⟨h1, hnotag, l2, ?_⟩⟩
    · intro s w hne
      rw [h6, if_neg hne]
    · rw [h6, if_pos ⟨rfl, rfl⟩]
    · rw [h6, if_pos ⟨rfl, rfl⟩]
    · rw [h6, if_pos ⟨rfl, rfl⟩]
    · intro w _ hv
      exact hnotag w hv
    · intro hv w hw
      by_contra hnv
      have := l3 ⟨w, hw, by simpa using hnv⟩
      rw [hv] at this
      cases this

theorem card_le_of_tags_in_other_slots (c : Cache) (s A w w0 : Nat) (T : Finset Nat)
    (hw : w < A) (hw0 : w0 < A) (hne : w ≠ w0)
    (hT : ∀ t, t ∈ T → ∃ w2, w2 < A ∧ w2 ≠ w ∧ w2 ≠ w0 ∧ (c.line s w2).tag = t) :
    T.card + 2 ≤ A := by
  have hsub : T ⊆ (((Finset.range A).erase w).erase w0).image (fun w2 => (c.line s w2).tag) := by
    intro t ht
    obtain ⟨w2, h1, h2, h3, h4⟩ := hT t ht
    rw [Finset.mem_image]
    refine ⟨w2, ?_, h4⟩
    rw [Finset.mem_erase, Finset.mem_erase, Finset.mem_range]
    exact ⟨h3, h2, h1⟩
  have h1 := Finset.card_le_card hsub
  have h2 : ((((Finset.range A).erase w).erase w0).image (fun w2 => (c.line s w2).tag)).card
      ≤ (((Finset.range A).erase w).erase w0).card := Finset.card_image_le
  have h3 : (((Finset.range A).erase w).erase w0).card = A - 2 := by
    rw [Finset.card_erase_of_mem, Finset.card_erase_of_mem, Finset.card_range]
    · omega
    · rw [Finset.mem_range]; exact hw
    · rw [Finset.mem_erase, Finset.mem_range]; exact ⟨fun h => hne h.symm, hw0⟩
  omega

theorem card_ge_of_other_slots_in (c : Cache) (s A w0 : Nat) (T : Finset Nat) (hw0 : w0 < A)
    (hinj : ∀ w w2, w < A → w2 < A → w ≠ w2 → (c.line s w).tag ≠ (c.line s w2).tag)
    (hT : ∀ w, w < A → w ≠ w0 → (c.line s w).tag ∈ T) :
    A ≤ T.card + 1 := by
  have hsub : ((Finset.range A).erase w0).image (fun w => (c.line s w).tag) ⊆ T := by
    intro t ht
    rw [Finset.mem_image] at ht
    obtain ⟨w, hw, rfl⟩ := ht
    rw [Finset.mem_erase, Finset.mem_range] at hw
    exact hT w hw.2 hw.1
  have h1 := Finset.card_le_card hsub
  have h2 : (((Finset.range A).erase w0).image (fun w => (c.line s w).tag)).card
      = ((Finset.range A).erase w0).card := by
    apply Finset.card_image_of_injOn
    intro w hw w2 hw2 heq
    rw [Finset.mem_coe, Finset.mem_erase, Finset.mem_range] at hw hw2
    by_contra hne
    exact hinj w w2 hw.2 hw2.2 hne heq
  have h3 : ((Finset.range A).erase w0).card = A - 1 := by
    rw [Finset.card_erase_of_mem, Finset.card_range]
    rw [Finset.mem_range]; exact hw0
  omega

/-- Under the description `LRUInv`, every tag touched in set `s` after call `j` is
resident with a later stamp, as long as fewer than `associativity` tags were touched
there since `j`. -/
theorem Cache.LRUInv.resident_of_window {c : Cache} {idx tg : Nat → Nat} {n : Nat}
    (hinv : c.LRUInv idx tg n) (s j : Nat)
    (hcard : (window idx tg s j n).card < c.associativity) (t : Nat)
    (ht : t ∈ window idx tg s j n) :
    ∃ w2, (c.line s w2).valid = true ∧ (c.line s w2).tag = t ∧
      (j : Int) < (c.line s w2).lastUsed := by
  obtain ⟨_, hsound, hcompl⟩ := hinv
  obtain ⟨j2, g1, g2, g3, g4, g5⟩ := window_exists_last idx tg s j t n ht
  have hlt := window_card_lt idx tg s j j2 n g1 g2 g3 (by rw [g4]; exact g5)
  obtain ⟨w2, hv, hs⟩ := hcompl j2 g2 (by rw [g3, g4]; exact g5) (by rw [g3]; omega)
  rw [g3] at hv hs
  obtain ⟨j3, _, k2, _, k4, _⟩ := hsound s w2 hv
  have hj : j3 = j2 := by
    rw [hs] at k2
    exact_mod_cast k2.symm
  refine ⟨w2, hv, ?_, ?_⟩
  · rw [← k4, hj, g4]
  · rw [hs]
    exact_mod_cast g1

theorem window_self_empty (idx tg : Nat → Nat) (s n : Nat) :
    window idx tg s n (n + 1) = ∅ := by
  ext t
  rw [mem_window]
  constructor
  · rintro ⟨k, h1, h2, _⟩
    omega
  · intro h
    simp at h

theorem window_subset_succ (idx tg : Nat → Nat) (s j n : Nat) :
    window idx tg s j n ⊆ window idx tg s j (n + 1) := by
  intro t ht
  rw [mem_window] at ht ⊢
  obtain ⟨k, h1, h2, h3, h4⟩ := ht
  exact ⟨k, h1, by omega, h3, h4⟩

theorem Cache.LRUInv.next {c : Cache} {idx tg : Nat → Nat} {n : Nat} (hst : c.Stamped)
    (hinv : c.LRUInv idx tg n) (address : Nat) (isWrite isDataCache isL1 : Bool)
    (hidx : c.getIndex address = idx n) (htag : c.getTag address = tg n) :
    (c.accessCache address isWrite isDataCache isL1).2.LRUInv idx tg (n + 1) := by
  have hinv0 := hinv
  obtain ⟨hcnt, hsound, hcompl⟩ := hinv
  obtain ⟨w0, hw0, t1, t2, t3, t4, t5, t6, t7⟩ := hst.touch address isWrite isDataCache isL1
  rw [hidx] at t2 t3 t4 t5 t6 t7
  rw [htag] at t4 t6 t7
  have hA := (c.accessCache_config address isWrite isDataCache isL1).1
  have hwf := hst.1
  have hdis := hst.2.2.2.2
  refine ⟨by rw [t1, hcnt]; push_cast; ring, ?_, ?_⟩
  · -- every valid line is described
    intro s w hv
    rw [hA]
    by_cases hsw : s = idx n ∧ w = w0
    · obtain ⟨rfl, rfl⟩ := hsw
      refine ⟨n, by omega, by rw [t5, hcnt], rfl, t4.symm, fun k h1 h2 => by omega, ?_⟩
      rw [window_self_empty, Finset.card_empty]
      omega
    · rw [t2 s w hsw] at hv ⊢
      obtain ⟨j, j1, j2, j3, j4, j5, j6⟩ := hsound s w hv
      have hnew : ¬ (idx n = s ∧ tg n = tg j) := by
        rintro ⟨hc1, hc2⟩
        subst hc1
        have hne : w ≠ w0 := fun hw => hsw ⟨rfl, hw⟩
        exact t6 w hne hv (j4.symm.trans hc2.symm)
      refine ⟨j, by omega, j2, j3, j4, ?_, ?_⟩
      · intro k h1 h2
        by_cases hk : k = n
        · subst hk; exact hnew
        · exact j5 k (by omega) h2
      · rw [window_succ]
        split
        · next hcond =>
          obtain ⟨_, hs⟩ := hcond
          subst hs
          have hne : w ≠ w0 := fun hw => hsw ⟨rfl, hw⟩
          have hwA := (hwf.lt_of_valid hv).2
          rcases t7 with ⟨_, hv0, htg0⟩ | ⟨_, hnotag, hleast, _⟩
          · -- hit: the block of call `n` is resident in `w0`
            obtain ⟨j0, i1, i2, i3, i4, i5, i6⟩ := hsound (idx n) w0 hv0
            have hjne : j ≠ j0 := by
              intro hjj
              have := (hdis (idx n) w w0 hne hv hv0).2
              rw [j2, i2, hjj] at this
              exact this rfl
            by_cases hlt : j < j0
            · have hmem : tg n ∈ window idx tg (idx n) j n :=
                (mem_window _ _ _ _ _ _).2 ⟨j0, hlt, i1, i3, i4.trans htg0⟩
              rw [Finset.insert_eq_of_mem hmem]
              exact j6
            · have hlt2 := window_card_lt idx tg (idx n) j0 j n (by omega) j1 j3 j5
              have := Finset.card_insert_le (tg n) (window idx tg (idx n) j n)
              omega
          · -- miss: the victim has the least stamp
            have hT : ∀ t, t ∈ window idx tg (idx n) j n →
                ∃ w2, w2 < c.associativity ∧ w2 ≠ w ∧ w2 ≠ w0 ∧
                  (c.line (idx n) w2).tag = t := by
              intro t ht
              obtain ⟨w2, v1, v2, v3⟩ := hinv0.resident_of_window (idx n) j j6 t ht
              have hw2 := (hwf.lt_of_valid v1).2
              refine ⟨w2, hw2, ?_, ?_, v2⟩
              · intro h
                rw [h, j2] at v3
                exact lt_irrefl _ v3
              · intro h
                have := hleast w hwA
                rw [h] at v3
                rw [j2] at this
                omega
            have := card_le_of_tags_in_other_slots c (idx n) c.associativity w w0 _ hwA hw0
              hne hT
            have := Finset.card_insert_le (tg n) (window idx tg (idx n) j n)
            omega
        · exact j6
  · -- every block that should be resident is
    intro j hj hlast hcard
    rw [hA] at hcard
    by_cases hjn : j = n
    · subst hjn
      exact ⟨w0, t3, by rw [t5, hcnt]⟩
    · have hjlt : j < n := by omega
      have hlast2 : ∀ k, k < n → j < k → ¬ (idx k = idx j ∧ tg k = tg j) :=
        fun k h1 h2 => hlast k (by omega) h2
      have hcard2 : (window idx tg (idx j) j n).card < c.associativity :=
        lt_of_le_of_lt (Finset.card_le_card (window_subset_succ idx tg (idx j) j n)) hcard
      obtain ⟨w, hv, hs⟩ := hcompl j hjlt hlast2 hcard2
      have hne : ¬ (idx j = idx n ∧ w = w0) := by
        rintro ⟨hc1, hc2⟩
        subst hc2
        rw [hc1] at hv hs hcard hcard2
        obtain ⟨j3, _, k2, _, k4, _⟩ := hsound (idx n) w hv
        have hj3 : j3 = j := by
          rw [hs] at k2
          exact_mod_cast k2.symm
        rw [hj3] at k4
        rcases t7 with ⟨_, _, htg0⟩ | ⟨_, hnotag, hleast, hall⟩
        · exact hlast n (by omega) hjlt ⟨hc1.symm, (k4.trans htg0).symm⟩
        · have hallv := hall hv
          have hin : ∀ w2, w2 < c.associativity → w2 ≠ w →
              (c.line (idx n) w2).tag ∈ window idx tg (idx n) j n := by
            intro w2 hw2 hne2
            have hv2 := hallv w2 hw2
            obtain ⟨j2, m1, m2, m3, m4, _⟩ := hsound (idx n) w2 hv2
            have hle := hleast w2 hw2
            have hd := (hdis (idx n) w2 w hne2 hv2 hv).2
            rw [m2, hs] at hd
            rw [m2, hs] at hle
            have hjj : j < j2 := by
              have : (j : Int) ≠ (j2 : Int) := fun h => hd h.symm
              omega
            exact (mem_window _ _ _ _ _ _).2 ⟨j2, hjj, m1, m3, m4⟩
          have hlow := card_ge_of_other_slots_in c (idx n) c.associativity w _ hw0
            (fun a b ha hb hab => (hdis (idx n) a b hab (hallv a ha) (hallv b hb)).1) hin
          have hnotin : tg n ∉ window idx tg (idx n) j n := by
            intro hmem
            obtain ⟨w2, v1, v2, _⟩ := hinv0.resident_of_window (idx n) j hcard2 (tg n) hmem
            exact hnotag w2 v1 v2
          rw [window_succ, if_pos ⟨hjlt, rfl⟩, Finset.card_insert_of_not_mem hnotin] at hcard
          omega
      refine ⟨w, ?_, ?_⟩
      · rw [t2 _ _ hne]; exact hv
      · rw [t2 _ _ hne]; exact hs

theorem Cache.LRUInv.at_ctor {s b a : Nat} {c0 : Cache} (h : Cache.ctor s b a = some c0)
    (idx tg : Nat → Nat) : c0.LRUInv idx tg 0 := by
  have hl := Cache.line_ctor h
  refine ⟨?_, ?_, ?_⟩
  · obtain ⟨_, _, _, rfl⟩ := Cache.ctor_eq_some h
    rfl
  · intro s w hv
    rw [hl] at hv
    cases hv
  · intro j hj
    omega

theorem Cache.LRUInv.along_run {s b a : Nat} {c0 : Cache} (h : Cache.ctor s b a = some c0)
    (acc : Nat → Nat × Bool × Bool × Bool) :
    ∀ n, (c0.run acc n).LRUInv (fun k => c0.getIndex (acc k).1)
      (fun k => c0.getTag (acc k).1) n := by
  intro n
  induction n with
  | zero => exact Cache.LRUInv.at_ctor h _ _
  | succ n ih =>
    obtain ⟨_, hb, hi⟩ := c0.run_config acc n
    exact ih.next (Cache.Stamped.after_run h acc n) _ _ _ _
      (Cache.getIndex_congr hb hi _) (Cache.getTag_congr hb hi _)

theorem Cache.otherBlocks_eq_window (c0 : Cache) (acc : Nat → Nat × Bool × Bool × Bool)
    (j i : Nat)
    (hlast : ∀ k, j < k → k < i →
      ¬ (c0.getIndex (acc k).1 = c0.getIndex (acc i).1 ∧
        c0.getTag (acc k).1 = c0.getTag (acc i).1)) :
    c0.otherBlocks acc j i =
      window (fun k => c0.getIndex (acc k).1) (fun k => c0.getTag (acc k).1)
        (c0.getIndex (acc i).1) j i := by
  ext t
  rw [mem_window]
  unfold Cache.otherBlocks
  simp only [Finset.mem_image, Finset.mem_filter, Finset.mem_range]
  constructor
  · rintro ⟨k, ⟨h1, h2, h3, _⟩, h5⟩
    exact ⟨k, h2, h1, h3, h5⟩
  · rintro ⟨k, h1, h2, h3, h4⟩
    exact ⟨k, ⟨h2, h1, h3, fun hc => hlast k h1 h2 ⟨h3, hc⟩⟩, h4⟩

/-- C15: on a freshly constructed cache, call number `i` of any sequence of
`accessCache` calls returns `true` exactly when some earlier call `j` touched the same
block (same set index and tag), `j` being the latest such call, and the calls strictly
between `j` and `i` touch fewer than `associativity` distinct other blocks of that
set: per-set LRU of capacity `associativity`. -/
theorem accessCache_is_per_set_lru (s b a : Nat) (c0 : Cache)
    (h : Cache.ctor s b a = some c0) (acc : Nat → Nat × Bool × Bool × Bool) (i : Nat) :
    c0.result acc i = true ↔
      ∃ j, j < i ∧
        c0.getIndex (acc j).1 = c0.getIndex (acc i).1 ∧
        c0.getTag (acc j).1 = c0.getTag (acc i).1 ∧
        (∀ k, j < k → k < i →
          ¬ (c0.getIndex (acc k).1 = c0.getIndex (acc i).1 ∧
            c0.getTag (acc k).1 = c0.getTag (acc i).1)) ∧
        (c0.otherBlocks acc j i).card < c0.associativity := by
  have hst := Cache.Stamped.after_run h acc i
  have hwf := hst.1
  obtain ⟨ha, hb, hi⟩ := c0.run_config acc i
  have hidx : (c0.run acc i).getIndex (acc i).1 = c0.getIndex (acc i).1 :=
    Cache.getIndex_congr hb hi _
  have htag : (c0.run acc i).getTag (acc i).1 = c0.getTag (acc i).1 :=
    Cache.getTag_congr hb hi _
  obtain ⟨_, hsound, hcompl⟩ := Cache.LRUInv.along_run h acc i
  have hiff := ((c0.run acc i).accessCache_hit_test hwf (acc i).1 (acc i).2.1 (acc i).2.2.1
    (acc i).2.2.2).1
  rw [hidx, htag, ha] at hiff
  show ((c0.run acc i).accessCache (acc i).1 (acc i).2.1 (acc i).2.2.1 (acc i).2.2.2).1 = true
    ↔ _
  rw [hiff]
  rw [ha] at hsound hcompl
  constructor
  · rintro ⟨w, _, hv, ht⟩
    obtain ⟨j, j1, _, j3, j4, j5, j6⟩ := hsound _ w hv
    simp only at j3 j4 j5
    have hlast : ∀ k, j < k → k < i →
        ¬ (c0.getIndex (acc k).1 = c0.getIndex (acc i).1 ∧
          c0.getTag (acc k).1 = c0.getTag (acc i).1) := by
      intro k h1 h2 hc
      exact j5 k h2 h1 ⟨hc.1, hc.2.trans (j4.trans ht).symm⟩
    refine ⟨j, j1, j3, j4.trans ht, hlast, ?_⟩
    rw [c0.otherBlocks_eq_window acc j i hlast]
    exact j6
  · rintro ⟨j, j1, j2, j3, hlast, hcard⟩
    rw [c0.otherBlocks_eq_window acc j i hlast] at hcard
    obtain ⟨w, hv, hs⟩ := hcompl j j1
      (by intro k h1 h2 hc
          simp only at hc
          exact hlast k h2 h1 ⟨hc.1.trans j2, hc.2.trans j3⟩)
      (by simp only; rw [j2]; exact hcard)
    simp only at hv hs
    rw [j2] at hv hs
    obtain ⟨j0, _, k2, _, k4, _⟩ := hsound _ w hv
    have hj0 : j0 = j := by
      rw [hs] at k2
      exact_mod_cast k2.symm
    simp only at k4
    rw [hj0] at k4
    exact ⟨w, (hwf.lt_of_valid hv).2.trans_eq ha, hv, k4.symm.trans j3⟩

/-- Witness of C15: on `Cache(64, 16, 2)` the accesses 0, 32, 0 go to set 0; the third
one hits, its block was touched by call 0 and one other block since. -/
theorem accessCache_is_per_set_lru_witness :
    Cache.ctor 64 16 2 = some twoWay2 ∧
    twoWay2.result (fun k => ((k % 2) * 32, false, true, true)) 2 = true ∧
    ∃ j, j < 2 ∧
      (twoWay2.otherBlocks (fun k => ((k % 2) * 32, false, true, true)) j 2).card
        < twoWay2.associativity := by
  refine ⟨by decide, by decide, ?_⟩
  obtain ⟨j, h1, _, _, _, h5⟩ := (accessCache_is_per_set_lru 64 16 2 twoWay2 (by decide)
    (fun k => ((k % 2) * 32, false, true, true)) 2).1 (by decide)
  exact ⟨j, h1, h5⟩

/-! ## The 32-bit counters below 2 ^ 31 calls -/

theorem wrap32_eq (x : Int) (h1 : -2147483648 ≤ x) (h2 : x < 2147483648) : wrap32 x = x := by
  unfold wrap32
  omega

theorem Cache.updateLRU32_eq (c : Cache) (set way : Nat)
    (h : wrap32 (c.accessCounter + 1) = c.accessCounter + 1) :
    c.updateLRU32 set way = c.updateLRU set way := by
  unfold Cache.updateLRU32 Cache.updateLRU
  rw [h]

/-- As long as no counter is about to overflow, the wrapping call is the call of the
unbounded embedding. -/
theorem Cache.accessCache32_eq (c : Cache) (address : Nat) (isWrite isDataCache isL1 : Bool)
    (h1 : wrap32 (c.accessCounter + 1) = c.accessCounter + 1)
    (h2 : wrap32 (c.hits + 1) = c.hits + 1)
    (h3 : wrap32 (c.misses + 1) = c.misses + 1)
    (h4 : wrap32 (c.writeBacks + 1) = c.writeBacks + 1) :
    c.accessCache32 address isWrite isDataCache isL1
      = c.accessCache address isWrite isDataCache isL1 := by
  unfold Cache.accessCache32 Cache.accessCache
  cases hf : c.findWay (c.getIndex address) (c.getTag address) c.associativity 0 with
  | some way =>
    simp only [hf, h2]
    cases isWrite
    · simp only [Bool.false_eq_true, if_false]
      rw [Cache.updateLRU32_eq _ _ _ (by exact h1)]
    · simp only [if_true]
      rw [Cache.updateLRU32_eq _ _ _ (by exact h1)]
  | none =>
    simp only [hf, h3, ite_self]
    split
    · rw [Cache.updateLRU32_eq _ _ _ (by exact h1)]
      unfold Cache.writeBack32 Cache.writeBack
      simp only [h4]
    · rw [Cache.updateLRU32_eq _ _ _ (by exact h1)]

theorem Cache.run_counters {s b a : Nat} {c0 : Cache} (h : Cache.ctor s b a = some c0)
    (acc : Nat → Nat × Bool × Bool × Bool) :
    ∀ n, (c0.run acc n).accessCounter = (n : Int) ∧
      0 ≤ (c0.run acc n).hits ∧ 0 ≤ (c0.run acc n).misses ∧
      (c0.run acc n).hits + (c0.run acc n).misses = (n : Int) ∧
      0 ≤ (c0.run acc n).writeBacks ∧ (c0.run acc n).writeBacks ≤ (c0.run acc n).misses := by
  intro n
  induction n with
  | zero =>
    obtain ⟨_, _, _, rfl⟩ := Cache.ctor_eq_some h
    exact ⟨rfl, le_refl _, le_refl _, rfl, le_refl _, le_refl _⟩
  | succ n ih =>
    obtain ⟨i1, i2, i3, i4, i5, i6⟩ := ih
    have hwf : (c0.run acc n).WF := Cache.run_WF (Cache.WF.ctor h) acc n
    show ((c0.run acc n).accessCache (acc n).1 (acc n).2.1 (acc n).2.2.1
        (acc n).2.2.2).2.accessCounter = ((n + 1 : Nat) : Int) ∧ _
    cases hf : (c0.run acc n).findWay ((c0.run acc n).getIndex (acc n).1)
        ((c0.run acc n).getTag (acc n).1) (c0.run acc n).associativity 0 with
    | some way =>
      obtain ⟨_, h2, h3, h4, h5, _⟩ := (c0.run acc n).accessCache_hit_spec (acc n).1
        (acc n).2.1 (acc n).2.2.1 (acc n).2.2.2 way hf (hwf.inGrid_findWay hf)
      show _ ∧ 0 ≤ ((c0.run acc n).accessCache (acc n).1 (acc n).2.1 (acc n).2.2.1
        (acc n).2.2.2).2.hits ∧ 0 ≤ ((c0.run acc n).accessCache (acc n).1 (acc n).2.1
        (acc n).2.2.1 (acc n).2.2.2).2.misses ∧ ((c0.run acc n).accessCache (acc n).1
        (acc n).2.1 (acc n).2.2.1 (acc n).2.2.2).2.hits + ((c0.run acc n).accessCache (acc n).1
        (acc n).2.1 (acc n).2.2.1 (acc n).2.2.2).2.misses = ((n + 1 : Nat) : Int) ∧
        0 ≤ ((c0.run acc n).accessCache (acc n).1 (acc n).2.1 (acc n).2.2.1
        (acc n).2.2.2).2.writeBacks ∧ ((c0.run acc n).accessCache (acc n).1 (acc n).2.1
        (acc n).2.2.1 (acc n).2.2.2).2.writeBacks ≤ ((c0.run acc n).accessCache (acc n).1
        (acc n).2.1 (acc n).2.2.1 (acc n).2.2.2).2.misses
      rw [h2, h3, h4, h5]
      push_cast
      omega
    | none =>
      obtain ⟨_, h2, h3, h4, h5, _⟩ := (c0.run acc n).accessCache_miss_spec (acc n).1
        (acc n).2.1 (acc n).2.2.1 (acc n).2.2.2 hf (hwf.inGrid_replaceWay (acc n).1)
      show _ ∧ 0 ≤ ((c0.run acc n).accessCache (acc n).1 (acc n).2.1 (acc n).2.2.1
        (acc n).2.2.2).2.hits ∧ 0 ≤ ((c0.run acc n).accessCache (acc n).1 (acc n).2.1
        (acc n).2.2.1 (acc n).2.2.2).2.misses ∧ ((c0.run acc n).accessCache (acc n).1
        (acc n).2.1 (acc n).2.2.1 (acc n).2.2.2).2.hits + ((c0.run acc n).accessCache (acc n).1
        (acc n).2.1 (acc n).2.2.1 (acc n).2.2.2).2.misses = ((n + 1 : Nat) : Int) ∧
        0 ≤ ((c0.run acc n).accessCache (acc n).1 (acc n).2.1 (acc n).2.2.1
        (acc n).2.2.2).2.writeBacks ∧ ((c0.run acc n).accessCache (acc n).1 (acc n).2.1
        (acc n).2.2.1 (acc n).2.2.2).2.writeBacks ≤ ((c0.run acc n).accessCache (acc n).1
        (acc n).2.1 (acc n).2.2.1 (acc n).2.2.2).2.misses
      rw [h2, h3, h4, h5]
      push_cast
      split <;> omega

/-- Below `2 ^ 31` calls on a freshly constructed cache no counter overflows: the run
with wrapping counters is the run of the unbounded embedding. -/
theorem Cache.run32_eq_run {s b a : Nat} {c0 : Cache} (h : Cache.ctor s b a = some c0)
    (acc : Nat → Nat × Bool × Bool × Bool) :
    ∀ n, n < 2147483648 → c0.run32 acc n = c0.run acc n := by
  intro n
  induction n with
  | zero => intro _; rfl
  | succ n ih =>
    intro hn
    obtain ⟨i1, i2, i3, i4, i5, i6⟩ := Cache.run_counters h acc n
    show ((c0.run32 acc n).accessCache32 (acc n).1 (acc n).2.1 (acc n).2.2.1 (acc n).2.2.2).2
      = ((c0.run acc n).accessCache (acc n).1 (acc n).2.1 (acc n).2.2.1 (acc n).2.2.2).2
    rw [ih (by omega), Cache.accessCache32_eq]
    · exact wrap32_eq _ (by omega) (by omega)
    · exact wrap32_eq _ (by omega) (by omega)
    · exact wrap32_eq _ (by omega) (by omega)
    · exact wrap32_eq _ (by omega) (by omega)

theorem Cache.result32_eq_result {s b a : Nat} {c0 : Cache} (h : Cache.ctor s b a = some c0)
    (acc : Nat → Nat × Bool × Bool × Bool) (n : Nat) (hn : n + 1 < 2147483648) :
    c0.result32 acc n = c0.result acc n := by
  have h1 := Cache.run32_eq_run h acc (n + 1) hn
  have h0 := Cache.run32_eq_run h acc n (by omega)
  obtain ⟨i1, i2, i3, i4, i5, i6⟩ := Cache.run_counters h acc n
  show ((c0.run32 acc n).accessCache32 (acc n).1 (acc n).2.1 (acc n).2.2.1 (acc n).2.2.2).1
    = ((c0.run acc n).accessCache (acc n).1 (acc n).2.1 (acc n).2.2.1 (acc n).2.2.2).1
  rw [h0, Cache.accessCache32_eq]
  · exact wrap32_eq _ (by omega) (by omega)
  · exact wrap32_eq _ (by omega) (by omega)
  · exact wrap32_eq _ (by omega) (by omega)
  · exact wrap32_eq _ (by omega) (by omega)

/-! ## A run up to the wrap of the counters -/

theorem Cache.eq_of_fields (c c2 : Cache) (h1 : c.size = c2.size)
    (h2 : c.blockSize = c2.blockSize) (h3 : c.associativity = c2.associativity)
    (h4 : c.numBlocks = c2.numBlocks) (h5 : c.numSets = c2.numSets) (h6 : c.cache = c2.cache)
    (h7 : c.blockOffsetBits = c2.blockOffsetBits) (h8 : c.indexBits = c2.indexBits)
    (h9 : c.tagBits = c2.tagBits) (h10 : c.accessCounter = c2.accessCounter)
    (h11 : c.hits = c2.hits) (h12 : c.misses = c2.misses)
    (h13 : c.writeBacks = c2.writeBacks) : c = c2 := by
  cases c
  cases c2
  simp only at h1 h2 h3 h4 h5 h6 h7 h8 h9 h10 h11 h12 h13
  subst_vars
  rfl

theorem Cache.run_fields (c : Cache) (acc : Nat → Nat × Bool × Bool × Bool) :
    ∀ n, (c.run acc n).associativity = c.associativity ∧
      (c.run acc n).numSets = c.numSets ∧
      (c.run acc n).blockOffsetBits = c.blockOffsetBits ∧
      (c.run acc n).indexBits = c.indexBits ∧
      (c.run acc n).size = c.size ∧
      (c.run acc n).blockSize = c.blockSize ∧
      (c.run acc n).numBlocks = c.numBlocks ∧
      (c.run acc n).tagBits = c.tagBits := by
  intro n
  induction n with
  | zero => exact ⟨rfl, rfl, rfl, rfl, rfl, rfl, rfl, rfl⟩
  | succ n ih =>
    obtain ⟨h1, h2, h3, h4, h5, h6, h7, h8⟩ := (c.run acc n).accessCache_config
      (acc n).1 (acc n).2.1 (acc n).2.2.1 (acc n).2.2.2
    obtain ⟨i1, i2, i3, i4, i5, i6, i7, i8⟩ := ih
    exact ⟨h1.trans i1, h2.trans i2, h3.trans i3, h4.trans i4, h5.trans i5, h6.trans i6,
      h7.trans i7, h8.trans i8⟩

/-- A run whose calls all address set `set` leaves the lines of the other sets as they
were. -/
theorem Cache.run_other_sets (c : Cache) (hwf : c.WF) (acc : Nat → Nat × Bool × Bool × Bool)
    (set : Nat) (n : Nat) (hidx : ∀ k, k < n → c.getIndex (acc k).1 = set) :
    ∀ m, m ≤ n → ∀ s w, s ≠ set → (c.run acc m).line s w = c.line s w := by
  intro m
  induction m with
  | zero => intro _ s w _; rfl
  | succ m ih =>
    intro hm s w hs
    have hwfm : (c.run acc m).WF := Cache.run_WF hwf acc m
    obtain ⟨_, hb, hi⟩ := c.run_config acc m
    have hidxm : (c.run acc m).getIndex (acc m).1 = set :=
      (Cache.getIndex_congr hb hi _).trans (hidx m (by omega))
    rw [← ih (by omega) s w hs]
    show ((c.run acc m).accessCache (acc m).1 (acc m).2.1 (acc m).2.2.1 (acc m).2.2.2).2.line s w
      = _
    cases hf : (c.run acc m).findWay ((c.run acc m).getIndex (acc m).1)
        ((c.run acc m).getTag (acc m).1) (c.run acc m).associativity 0 with
    | some way =>
      obtain ⟨_, _, _, _, _, h6⟩ := (c.run acc m).accessCache_hit_spec (acc m).1
        (acc m).2.1 (acc m).2.2.1 (acc m).2.2.2 way hf (hwfm.inGrid_findWay hf)
      rw [h6, if_neg (fun hc => hs (hc.1.trans hidxm))]
    | none =>
      obtain ⟨_, _, _, _, _, h6⟩ := (c.run acc m).accessCache_miss_spec (acc m).1
        (acc m).2.1 (acc m).2.2.1 (acc m).2.2.2 hf (hwfm.inGrid_replaceWay (acc m).1)
      rw [h6, if_neg (fun hc => hs (hc.1.trans hidxm))]

theorem Cache.cache_two_by_two (c : Cache) (hwf : c.WF) (hn : c.numSets = 2)
    (ha : c.associativity = 2) :
    c.cache = [[c.line 0 0, c.line 0 1], [c.line 1 0, c.line 1 1]] := by
  obtain ⟨_, _, hlen, hrow, _⟩ := hwf
  rw [hn] at hlen
  rw [ha] at hrow
  unfold Cache.line
  obtain ⟨r0, r1, hc⟩ := List.length_eq_two.1 hlen
  rw [hc] at hrow ⊢
  obtain ⟨x0, x1, hr0⟩ := List.length_eq_two.1 (hrow r0 (by simp))
  obtain ⟨y0, y1, hr1⟩ := List.length_eq_two.1 (hrow r1 (by simp))
  subst hr0 hr1
  rfl

theorem threeBlockCycle_spec (k : Nat) :
    twoWay2.getIndex (threeBlockCycle k).1 = 0 ∧
    twoWay2.getTag (threeBlockCycle k).1 = k % 3 ∧
    (threeBlockCycle k).2.1 = false := by
  have hk : k % 3 < 3 := Nat.mod_lt _ (by omega)
  have h1 : (threeBlockCycle k).1 = (k % 3) * 32 := rfl
  rw [h1]
  refine ⟨?_, ?_, rfl⟩
  · generalize k % 3 = r at hk
    interval_cases r <;> decide
  · generalize k % 3 = r at hk
    interval_cases r <;> decide

/-- The state that `Cache(64, 16, 2)` reaches by `2 ^ 31 - 2` calls of
`threeBlockCycle`. -/
theorem twoWay2_run_nearWrap :
    twoWay2.run threeBlockCycle 2147483646 = twoWay2NearWrap := by
  have hc : Cache.ctor 64 16 2 = some twoWay2 := by decide
  have hA : twoWay2.associativity = 2 := rfl
  have inv := Cache.FillInv.run hc threeBlockCycle 0 2147483646
    (fun k _ => (threeBlockCycle_spec k).1)
    (fun m n hmn _ hnm => by
      rw [(threeBlockCycle_spec m).2.1, (threeBlockCycle_spec n).2.1]
      rw [hA] at hnm
      omega) 2147483646 (le_refl _)
  obtain ⟨hwf, _, _, _, hcnt, hh, hm, hwb, hl⟩ := inv
  rw [hA] at hl hwb
  obtain ⟨f1, f2, f3, f4, f5, f6, f7, f8⟩ := twoWay2.run_fields threeBlockCycle 2147483646
  have hother := twoWay2.run_other_sets (Cache.WF.ctor hc) threeBlockCycle 0 2147483646
    (fun k _ => (threeBlockCycle_spec k).1) 2147483646 (le_refl _)
  have hl0 : (twoWay2.run threeBlockCycle 2147483646).line 0 0
      = ⟨2, true, false, 2147483645⟩ := by
    rcases hl 0 (by omega) with ⟨e1, _⟩ | ⟨m, m1, m2, m3, he⟩
    · omega
    · have hmv : m = 2147483645 := by omega
      subst hmv
      rw [he, (threeBlockCycle_spec 2147483645).2.1, (threeBlockCycle_spec 2147483645).2.2]
      rfl
  have hl1 : (twoWay2.run threeBlockCycle 2147483646).line 0 1
      = ⟨1, true, false, 2147483644⟩ := by
    rcases hl 1 (by omega) with ⟨e1, _⟩ | ⟨m, m1, m2, m3, he⟩
    · omega
    · have hmv : m = 2147483644 := by omega
      subst hmv
      rw [he, (threeBlockCycle_spec 2147483644).2.1, (threeBlockCycle_spec 2147483644).2.2]
      rfl
  have hcache := (twoWay2.run threeBlockCycle 2147483646).cache_two_by_two hwf f2 f1
  rw [hl0, hl1, hother 1 0 (by omega), hother 1 1 (by omega), Cache.line_ctor hc,
    Cache.line_ctor hc] at hcache
  have hwb0 : (twoWay2.run threeBlockCycle 2147483646).writeBacks = 0 := by
    rw [hwb]
    have : List.countP (fun m => (threeBlockCycle m).2.1) (List.range (2147483646 - 2)) = 0 := by
      rw [List.countP_eq_zero]
      intro m _
      rw [(threeBlockCycle_spec m).2.2]
      simp
    rw [this]
    rfl
  exact Cache.eq_of_fields _ _ f5 f6 f1 f7 f2 hcache f3 f4 f8 hcnt hh hm hwb0

theorem Cache.run32_add (c : Cache) (acc : Nat → Nat × Bool × Bool × Bool) (n : Nat) :
    ∀ k, c.run32 acc (n + k) = (c.run32 acc n).run32 (fun i => acc (n + i)) k := by
  intro k
  induction k with
  | zero => rfl
  | succ k ih =>
    show ((c.run32 acc (n + k)).accessCache32 (acc (n + k)).1 (acc (n + k)).2.1
      (acc (n + k)).2.2.1 (acc (n + k)).2.2.2).2 = _
    rw [ih]
    rfl

theorem Cache.result32_add (c : Cache) (acc : Nat → Nat × Bool × Bool × Bool) (n k : Nat) :
    c.result32 acc (n + k) = (c.run32 acc n).result32 (fun i => acc (n + i)) k := by
  show ((c.run32 acc (n + k)).accessCache32 (acc (n + k)).1 (acc (n + k)).2.1
    (acc (n + k)).2.2.1 (acc (n + k)).2.2.2).1 = _
  rw [Cache.run32_add]
  rfl

theorem twoWay2_run32_nearWrap :
    twoWay2.run32 threeBlockCycle 2147483646 = twoWay2NearWrap := by
  rw [Cache.run32_eq_run (show Cache.ctor 64 16 2 = some twoWay2 by decide) threeBlockCycle
    2147483646 (by omega)]
  exact twoWay2_run_nearWrap

/-! ## C3, C18, C19 with the 32-bit counters of the source -/

/-- C3 (the claim fails): with the 32-bit counters of the source the cyclic pattern does
not miss forever.  On `Cache(64, 16, 2)` the addresses 0, 32, 64 lie in set 0 with
tags 0, 1, 2; accessed cyclically, call number `2 ^ 31 + 2` hits, because the stamp
written after `accessCounter` has wrapped to `-2 ^ 31` makes the newest line the
victim; and after `2 ^ 31` calls `misses` is `-2 ^ 31`, not the number of calls. -/
theorem cyclic_conflict_hits_after_wrap :
    Cache.ctor 64 16 2 = some twoWay2 ∧
    twoWay2.getIndex 0 = 0 ∧ twoWay2.getIndex 32 = 0 ∧ twoWay2.getIndex 64 = 0 ∧
    twoWay2.getTag 0 = 0 ∧ twoWay2.getTag 32 = 1 ∧ twoWay2.getTag 64 = 2 ∧
    twoWay2.result32 (cyclic 2 (fun i => i * 32) (fun _ => (false, true, true))) 2147483650
      = true ∧
    (twoWay2.run32 (cyclic 2 (fun i => i * 32) (fun _ => (false, true, true)))
      2147483651).hits = 1 ∧
    (twoWay2.run32 (cyclic 2 (fun i => i * 32) (fun _ => (false, true, true)))
      2147483648).misses = -2147483648 := by
  refine ⟨by decide, by decide, by decide, by decide, by decide, by decide, by decide,
    ?_, ?_, ?_⟩
  · show twoWay2.result32 threeBlockCycle (2147483646 + 4) = true
    rw [Cache.result32_add, twoWay2_run32_nearWrap]
    decide
  · show (twoWay2.run32 threeBlockCycle (2147483646 + 5)).hits = 1
    rw [Cache.run32_add, twoWay2_run32_nearWrap]
    decide
  · show (twoWay2.run32 threeBlockCycle (2147483646 + 2)).misses = -2147483648
    rw [Cache.run32_add, twoWay2_run32_nearWrap]
    decide

/-- C3 (amended): on a fresh cache of associativity `a`, `a + 1` addresses of one set
with pairwise distinct tags, accessed cyclically for `N < 2 ^ 31` calls with the
32-bit counters of the source: afterwards `hits = 0` and `misses = N`, and every one
of the `N` calls misses.  For a call `n ≥ a` (the `(a + 1)`-th call on) all `a` lines
of the set are valid before the call and hold the blocks of the last `a` calls, each
stamped with the number of its call; the victim holds the block of call `n - a`, the
least recently touched one, its stamp is strictly the smallest of the set, and the
miss overwrites exactly that slot with the new block. -/
theorem cyclic_conflict_misses_below_wrap (s b a : Nat) (c0 : Cache)
    (h : Cache.ctor s b a = some c0) (addr : Nat → Nat) (flags : Nat → Bool × Bool × Bool)
    (set : Nat) (hidx : ∀ i, i ≤ a → c0.getIndex (addr i) = set)
    (htag : ∀ i j, i ≤ a → j ≤ a → i ≠ j → c0.getTag (addr i) ≠ c0.getTag (addr j))
    (N : Nat) (hN : N < 2147483648) :
    (c0.run32 (cyclic a addr flags) N).hits = 0 ∧
    (c0.run32 (cyclic a addr flags) N).misses = (N : Int) ∧
    ∀ n, n < N →
      c0.result32 (cyclic a addr flags) n = false ∧
      (a ≤ n →
        (∀ w, w < a → ∃ m, n - a ≤ m ∧ m < n ∧
          (c0.run32 (cyclic a addr flags) n).line set w
            = ⟨c0.getTag (addr (m % (a + 1))), true, (flags m).1, (m : Int)⟩) ∧
        (c0.run32 (cyclic a addr flags) n).replaceWay set < a ∧
        (c0.run32 (cyclic a addr flags) n).line set
            ((c0.run32 (cyclic a addr flags) n).replaceWay set)
          = ⟨c0.getTag (addr ((n - a) % (a + 1))), true, (flags (n - a)).1,
              ((n - a : Nat) : Int)⟩ ∧
        (∀ w, w < a → w ≠ (c0.run32 (cyclic a addr flags) n).replaceWay set →
          ((c0.run32 (cyclic a addr flags) n).line set
              ((c0.run32 (cyclic a addr flags) n).replaceWay set)).lastUsed
            < ((c0.run32 (cyclic a addr flags) n).line set w).lastUsed) ∧
        (c0.run32 (cyclic a addr flags) (n + 1)).line set
            ((c0.run32 (cyclic a addr flags) n).replaceWay set)
          = ⟨c0.getTag (addr (n % (a + 1))), true, (flags n).1, (n : Int)⟩ ∧
        ∀ w, w ≠ (c0.run32 (cyclic a addr flags) n).replaceWay set →
          (c0.run32 (cyclic a addr flags) (n + 1)).line set w
            = (c0.run32 (cyclic a addr flags) n).line set w) := by
  obtain ⟨h1, h2, _, _⟩ := Cache.cyclic_conflict_run s b a c0 h addr flags set hidx htag N
  rw [Cache.run32_eq_run h _ N hN]
  refine ⟨h1, h2, fun n hn => ?_⟩
  obtain ⟨_, _, g3, g4⟩ := Cache.cyclic_conflict_run s b a c0 h addr flags set hidx htag n
  rw [Cache.result32_eq_result h _ n (by omega), Cache.run32_eq_run h _ n (by omega),
    Cache.run32_eq_run h _ (n + 1) (by omega)]
  exact ⟨g3, g4⟩

/-- Witness of C3 (amended): seven cyclic calls on `Cache(64, 16, 2)` (addresses 0, 32,
64 of set 0), and the scenario of the specification on `Cache(64, 16, 1)`: addresses 0
and 64 alternating, five calls give `hits = 0`, `misses = 5`. -/
theorem cyclic_conflict_misses_below_wrap_witness :
    (Cache.ctor 64 16 2 = some twoWay2 ∧
      (twoWay2.run32 (cyclic 2 (fun i => i * 32) (fun _ => (false, true, true))) 7).hits = 0 ∧
      (twoWay2.run32 (cyclic 2 (fun i => i * 32) (fun _ => (false, true, true))) 7).misses
        = ((7 : Nat) : Int)) ∧
    (Cache.ctor 64 16 1 = some directMapped4 ∧
      (directMapped4.run32 (cyclic 1 (fun i => i * 64) (fun _ => (false, true, true))) 5).hits
        = 0 ∧
      (directMapped4.run32 (cyclic 1 (fun i => i * 64) (fun _ => (false, true, true))) 5).misses
        = ((5 : Nat) : Int)) :=
  have hidx2 : ∀ i, i ≤ 2 → twoWay2.getIndex (i * 32) = 0 := by decide
  have htag2 : ∀ i j, i ≤ 2 → j ≤ 2 → i ≠ j →
      twoWay2.getTag (i * 32) ≠ twoWay2.getTag (j * 32) := by
    intro i j hi hj hne
    interval_cases i <;> interval_cases j <;> first | exact absurd rfl hne | decide
  have hidx1 : ∀ i, i ≤ 1 → directMapped4.getIndex (i * 64) = 0 := by decide
  have htag1 : ∀ i j, i ≤ 1 → j ≤ 1 → i ≠ j →
      directMapped4.getTag (i * 64) ≠ directMapped4.getTag (j * 64) := by
    intro i j hi hj hne
    interval_cases i <;> interval_cases j <;> first | exact absurd rfl hne | decide
  ⟨⟨by decide,
    (cyclic_conflict_misses_below_wrap 64 16 2 twoWay2 (by decide) (fun i => i * 32)
      (fun _ => (false, true, true)) 0 hidx2 htag2 7 (by decide)).1,
    (cyclic_conflict_misses_below_wrap 64 16 2 twoWay2 (by decide) (fun i => i * 32)
      (fun _ => (false, true, true)) 0 hidx2 htag2 7 (by decide)).2.1⟩,
   ⟨by decide,
    (cyclic_conflict_misses_below_wrap 64 16 1 directMapped4 (by decide) (fun i => i * 64)
      (fun _ => (false, true, true)) 0 hidx1 htag1 5 (by decide)).1,
    (cyclic_conflict_misses_below_wrap 64 16 1 directMapped4 (by decide) (fun i => i * 64)
      (fun _ => (false, true, true)) 0 hidx1 htag1 5 (by decide)).2.1⟩⟩

theorem Cache.run32_congr (c : Cache) (acc acc2 : Nat → Nat × Bool × Bool × Bool) :
    ∀ n, (∀ k, k < n → acc k = acc2 k) → c.run32 acc n = c.run32 acc2 n := by
  intro n
  induction n with
  | zero => intro _; rfl
  | succ n ih =>
    intro hk
    show ((c.run32 acc n).accessCache32 (acc n).1 (acc n).2.1 (acc n).2.2.1 (acc n).2.2.2).2
      = ((c.run32 acc2 n).accessCache32 (acc2 n).1 (acc2 n).2.1 (acc2 n).2.2.1 (acc2 n).2.2.2).2
    rw [ih (fun k hkn => hk k (by omega)), hk n (by omega)]

/-- Beyond `2 ^ 31` calls the victim need not be a free slot: after `2 ^ 31` calls of
`threeBlockCycle` on `Cache(64, 16, 2)` and one call on address 16 (set 1), way 0 of
set 1 is invalid and way 1, the only way after it, is valid with stamp `-2 ^ 31`; the
next miss in set 1 takes way 1 as victim. -/
theorem victim_after_wrap_is_valid_line :
    ((twoWay2.run32 (fun k => if k < 2147483648 then threeBlockCycle k
        else (16, false, true, true)) 2147483649).line 1 0).valid = false ∧
    (twoWay2.run32 (fun k => if k < 2147483648 then threeBlockCycle k
        else (16, false, true, true)) 2147483649).line 1 1
      = ⟨0, true, false, -2147483648⟩ ∧
    (twoWay2.run32 (fun k => if k < 2147483648 then threeBlockCycle k
        else (16, false, true, true)) 2147483649).getIndex 48 = 1 ∧
    (twoWay2.run32 (fun k => if k < 2147483648 then threeBlockCycle k
        else (16, false, true, true)) 2147483649).replaceWay 1 = 1 := by
  have hrun : twoWay2.run32 (fun k => if k < 2147483648 then threeBlockCycle k
      else (16, false, true, true)) (2147483646 + 3)
      = twoWay2NearWrap.run32 (fun i => if 2147483646 + i < 2147483648
          then threeBlockCycle (2147483646 + i) else (16, false, true, true)) 3 := by
    rw [Cache.run32_add, Cache.run32_congr twoWay2 _ threeBlockCycle 2147483646
      (fun k hk => if_pos (by omega)), twoWay2_run32_nearWrap]
  have h3 : (2147483649 : Nat) = 2147483646 + 3 := rfl
  rw [h3, hrun]
  refine ⟨?_, ?_, ?_, ?_⟩ <;> decide

/-- C18 (amended): in every state reached from a constructed cache by fewer than
`2 ^ 31` `accessCache` calls (32-bit counters of the source), if way `k` of the
addressed set is invalid and every way after `k` is valid, the victim of a miss is `k`:
the invalid slot with the highest way index.  In particular the first miss into a set
of a fresh cache fills way `associativity - 1`. -/
theorem victim_is_last_invalid_way (s b a : Nat) (c0 : Cache)
    (h : Cache.ctor s b a = some c0) (acc : Nat → Nat × Bool × Bool × Bool) (n : Nat)
    (hn : n < 2147483648) (address k : Nat) (hk : k < c0.associativity)
    (hinv : ((c0.run32 acc n).line ((c0.run32 acc n).getIndex address) k).valid = false)
    (hafter : ∀ w, k < w → w < c0.associativity →
      ((c0.run32 acc n).line ((c0.run32 acc n).getIndex address) w).valid = true) :
    (c0.run32 acc n).replaceWay ((c0.run32 acc n).getIndex address) = k ∧
    c0.replaceWay (c0.getIndex address) = c0.associativity - 1 := by
  rw [Cache.run32_eq_run h acc n hn] at hinv hafter ⊢
  exact Cache.victim_last_invalid_run s b a c0 h acc n address k hk hinv hafter

/-- Witness of C18 (amended): after one access to set 0 of `Cache(64, 16, 2)` way 0 is
the only invalid slot and is the next victim. -/
theorem victim_is_last_invalid_way_witness :
    Cache.ctor 64 16 2 = some twoWay2 ∧
    (twoWay2.run32 (fun k => (k * 32, false, true, true)) 1).replaceWay
        ((twoWay2.run32 (fun k => (k * 32, false, true, true)) 1).getIndex 32) = 0 ∧
    twoWay2.replaceWay (twoWay2.getIndex 32) = twoWay2.associativity - 1 :=
  ⟨by decide,
   victim_is_last_invalid_way 64 16 2 twoWay2 (by decide)
      (fun k => (k * 32, false, true, true)) 1 (by decide) 32 0 (by decide) (by decide)
      (by intro w h1 h2
          have hw : w = 1 := by
            have : twoWay2.associativity = 2 := rfl
            omega
          subst hw
          decide)⟩

/-- C19 (the claim fails): with the 32-bit counters of the source, the state of
`Cache(64, 16, 2)` after `2 ^ 31` calls of the cycle over the addresses 0, 32, 64 has
`accessCounter = -2 ^ 31` while the valid line in way 0 of set 0 carries
`lastUsed = 2 ^ 31 - 1`: a stamp that is not smaller than `accessCounter`. -/
theorem stamp_exceeds_counter_after_wrap :
    Cache.ctor 64 16 2 = some twoWay2 ∧
    ((twoWay2.run32 (cyclic 2 (fun i => i * 32) (fun _ => (false, true, true)))
      2147483648).line 0 0).valid = true ∧
    ((twoWay2.run32 (cyclic 2 (fun i => i * 32) (fun _ => (false, true, true)))
      2147483648).line 0 0).lastUsed = 2147483647 ∧
    (twoWay2.run32 (cyclic 2 (fun i => i * 32) (fun _ => (false, true, true)))
      2147483648).accessCounter = -2147483648 ∧
    ¬ ((twoWay2.run32 (cyclic 2 (fun i => i * 32) (fun _ => (false, true, true)))
        2147483648).line 0 0).lastUsed
      < (twoWay2.run32 (cyclic 2 (fun i => i * 32) (fun _ => (false, true, true)))
        2147483648).accessCounter := by
  have hrun : twoWay2.run32 (cyclic 2 (fun i => i * 32) (fun _ => (false, true, true)))
      2147483648 = twoWay2NearWrap.run32 (fun i => threeBlockCycle (2147483646 + i)) 2 := by
    show twoWay2.run32 threeBlockCycle (2147483646 + 2) = _
    rw [Cache.run32_add, twoWay2_run32_nearWrap]
  rw [hrun]
  refine ⟨by decide, ?_, ?_, ?_, ?_⟩ <;> decide

/-- C19 (amended): in every state reached from a constructed cache by fewer than
`2 ^ 31` `accessCache` calls (32-bit counters of the source), two distinct valid lines
of one set differ in tag and in `lastUsed`, and the `lastUsed` of every valid line is
non-negative and smaller than `accessCounter`. -/
theorem no_duplicate_block_distinct_stamps (s b a : Nat) (c0 : Cache)
    (h : Cache.ctor s b a = some c0) (acc : Nat → Nat × Bool × Bool × Bool) (n : Nat)
    (hn : n < 2147483648) :
    (∀ set w w2, w ≠ w2 → ((c0.run32 acc n).line set w).valid = true →
      ((c0.run32 acc n).line set w2).valid = true →
      ((c0.run32 acc n).line set w).tag ≠ ((c0.run32 acc n).line set w2).tag ∧
      ((c0.run32 acc n).line set w).lastUsed ≠ ((c0.run32 acc n).line set w2).lastUsed) ∧
    (∀ set w, ((c0.run32 acc n).line set w).valid = true →
      0 ≤ ((c0.run32 acc n).line set w).lastUsed ∧
      ((c0.run32 acc n).line set w).lastUsed < (c0.run32 acc n).accessCounter) := by
  rw [Cache.run32_eq_run h acc n hn]
  have hst := Cache.Stamped.after_run h acc n
  exact ⟨hst.2.2.2.2, hst.2.2.2.1⟩

/-- Witness of C19 (amended): `Cache(64, 16, 2)` after two accesses to set 0. -/
theorem no_duplicate_block_distinct_stamps_witness :
    Cache.ctor 64 16 2 = some twoWay2 ∧
    ((twoWay2.run32 (fun k => (k * 32, false, true, true)) 2).line 0 0).tag
      ≠ ((twoWay2.run32 (fun k => (k * 32, false, true, true)) 2).line 0 1).tag :=
  ⟨by decide,
   ((no_duplicate_block_distinct_stamps 64 16 2 twoWay2 (by decide)
      (fun k => (k * 32, false, true, true)) 2 (by decide)).1 0 0 1 (by decide) (by decide)
      (by decide)).1⟩
